import Mathlib

/-!
Adaptive Huffman coder (`Huffman_v2.0`): model and properties

Shallow embedding of `Huffman_Tree.h` and `Coder.h`.

* Heap objects created by `std::make_shared<Node>` live in an arena (`heap`);
  a `shared_ptr`/`weak_ptr` is the arena index of its target, `none` when null.
* An entry of `std::list<Symbol> lst` holds two references into one node
  (`symbol`, `count`), so an entry is the arena index of that node.  Entries
  are only ever appended, so a `std::list` iterator is the position of its
  entry; a default-constructed iterator is `none`.
* `unsigned int` values are naturals reduced modulo `UINT = 2^32`,
  `unsigned char` values modulo `256`.
* Dereferencing a null pointer, indexing a vector out of range and stepping an
  iterator before `begin()` have no defined behaviour: the model returns `none`.
* Every `while` loop whose exit depends on the data takes an iteration budget
  (`fuel`) and returns `none` when the budget is used up.
* The two operands of `<` and `>` in `increase_and_rebalance` are read left
  operand first.
-/

namespace Huffman

/-- Modulus of `unsigned int` arithmetic. -/
def UINT : Nat := 4294967296

/-- Values of `enum class Side`. -/
inductive Side where
  | top
  | left
  | right
deriving DecidableEq, Repr

/-- Fields of `struct Node`; pointers are arena indices. -/
structure Node where
  left_child : Option Nat
  right_child : Option Nat
  parent : Option Nat
  symbol : Nat
  count : Nat
  side : Side
deriving DecidableEq, Repr

/-- Fields of `struct Data`: a weak pointer to a node and a list iterator. -/
structure Data where
  ptr : Option Nat
  iter : Option Nat
deriving DecidableEq, Repr

/-- Member `Data::exists`: the weak pointer has a live target. Nodes are never
released while the tree lives, so a pointer is expired exactly when it was
never assigned. -/
def Data.exists_ (d : Data) : Bool := d.ptr.isSome

/-- Data members of `class Huffman_Tree`. -/
structure Huffman_Tree where
  current_empty_value : Nat
  heap : List Node
  lst : List Nat
  symbols_in_stock : List Data
  root : Nat
  last_leave : Nat
deriving DecidableEq, Repr

/-- Constructor `Node(symbol_, side_)`: no children, no parent, count 0. -/
def Node.new (symbol : Nat) (side : Side) : Node :=
  { left_child := none, right_child := none, parent := none,
    symbol := symbol, count := 0, side := side }

/-- Write through a pointer: replace the node at arena index `i` by `f` of it. -/
def setNode (h : List Node) (i : Nat) (f : Node → Node) : Option (List Node) :=
  match h[i]? with
  | none => none
  | some n => some (h.set i (f n))

/-- Read `it->count` for the iterator at position `i` of `lst`. -/
def entryCount (t : Huffman_Tree) (i : Nat) : Option Nat :=
  match t.lst[i]? with
  | none => none
  | some n =>
    match t.heap[n]? with
    | none => none
    | some nd => some nd.count

/-- Read `it->symbol` for the iterator at position `i` of `lst`. -/
def entrySymbol (t : Huffman_Tree) (i : Nat) : Option Nat :=
  match t.lst[i]? with
  | none => none
  | some n =>
    match t.heap[n]? with
    | none => none
    | some nd => some nd.symbol

/-- Constructor `Huffman_Tree()`: 513 empty table entries, a root with the
synthetic id 256 which is also the escape leaf, and its list entry. -/
def Huffman_Tree.fresh : Huffman_Tree :=
  { current_empty_value := 256,
    heap := [Node.new 256 Side.top],
    lst := [0],
    symbols_in_stock := List.replicate 513 { ptr := none, iter := none },
    root := 0,
    last_leave := 0 }

/-- Store `v` in the child slot of node `p` selected by `side`
(`left_child` when the side is `left`, `right_child` otherwise). -/
def setSlot (h : List Node) (p : Nat) (side : Side) (v : Option Nat) : Option (List Node) :=
  setNode h p (fun n => if side = Side.left then { n with left_child := v }
                        else { n with right_child := v })

/-- Read the child slot of node `n` selected by `side`. -/
def getSlot (n : Node) (side : Side) : Option Nat :=
  if side = Side.left then n.left_child else n.right_child

/-- Read through a node pointer. -/
def getNode (h : List Node) (i : Nat) : Option Node := h[i]?

/-- Read `symbols_in_stock[i]`. -/
def getData (s : List Data) (i : Nat) : Option Data := s[i]?

/-- First statement of `swap_nodes`:
`std::swap(symbols_in_stock[first_symbol].iter, symbols_in_stock[second_symbol].iter)`. -/
def swap_iters (s : List Data) (first_symbol second_symbol : Nat) : Option (List Data) := do
  let d1 : Data ← getData s first_symbol
  let d2 : Data ← getData s second_symbol
  let s1 : List Data := s.set first_symbol { d1 with iter := d2.iter }
  some (s1.set second_symbol { d2 with iter := d1.iter })

/-- Statement `a->parent.lock()->count += (b->count - a->count)` of `swap_nodes`,
in `unsigned int` arithmetic. -/
def shift_parent_count (h : List Node) (a b : Nat) : Option (List Node) := do
  let an : Node ← getNode h a
  let bn : Node ← getNode h b
  let ap : Nat ← an.parent
  setNode h ap
    (fun p => { p with count := (p.count + (bn.count + UINT - an.count) % UINT) % UINT })

/-- The `std::swap` of the two child slots in `swap_nodes`: each slot is the
`left_child` or `right_child` of the node's parent, chosen by the node's side. -/
def swap_slots (h : List Node) (first_node second_node : Nat) : Option (List Node) := do
  let fn : Node ← getNode h first_node
  let sn : Node ← getNode h second_node
  let fp : Nat ← fn.parent
  let sp : Nat ← sn.parent
  let fpn : Node ← getNode h fp
  let spn : Node ← getNode h sp
  let h1 : List Node ← setSlot h fp fn.side (getSlot spn sn.side)
  setSlot h1 sp sn.side (getSlot fpn fn.side)

/-- Last statement of `swap_nodes`: `std::swap(first_node->side, second_node->side)`. -/
def swap_sides (h : List Node) (first_node second_node : Nat) : Option (List Node) := do
  let fn : Node ← getNode h first_node
  let sn : Node ← getNode h second_node
  let h1 : List Node ← setNode h first_node (fun n => { n with side := sn.side })
  setNode h1 second_node (fun n => { n with side := fn.side })

/-- Method `swap_nodes(first_symbol, second_symbol)`. -/
def swap_nodes (t : Huffman_Tree) (first_symbol second_symbol : Nat) : Option Huffman_Tree := do
  let d1 : Data ← getData t.symbols_in_stock first_symbol
  let d2 : Data ← getData t.symbols_in_stock second_symbol
  let first_node : Nat ← d1.ptr
  let second_node : Nat ← d2.ptr
  let sis : List Data ← swap_iters t.symbols_in_stock first_symbol second_symbol
  let h1 : List Node ← shift_parent_count t.heap first_node second_node
  let h2 : List Node ← shift_parent_count h1 second_node first_node
  let h3 : List Node ← swap_slots h2 first_node second_node
  let h4 : List Node ← swap_sides h3 first_node second_node
  some { t with symbols_in_stock := sis, heap := h4 }

/-- The scan `while (next_iter--->count > next_iter->count + 1);` started with
`next_iter` at position `i`; the result is the position of `next_iter` when the
scan stops. Stepping back from the first entry is undefined. -/
def scan_back (t : Huffman_Tree) : Nat → Option Nat
  | 0 => none
  | i + 1 => do
    let a : Nat ← entryCount t (i + 1)
    let b : Nat ← entryCount t i
    if a > (b + 1) % UINT then scan_back t i else some i

/-- Statement `++p->count` for the node at arena index `p`. -/
def incCount (t : Huffman_Tree) (p : Nat) : Option Huffman_Tree := do
  let h : List Node ← setNode t.heap p (fun n => { n with count := (n.count + 1) % UINT })
  some { t with heap := h }

/-- The branch of `increase_and_rebalance` taken when the guard holds: the
backward scan, `++current->count`, and
`swap_nodes(iter->symbol, (++next_iter)->symbol)`. -/
def rebalance_swap (t : Huffman_Tree) (current iter : Nat) : Option Huffman_Tree := do
  let j : Nat ← scan_back t iter
  let t1 : Huffman_Tree ← incCount t current
  let s1 : Nat ← entrySymbol t1 iter
  let s2 : Nat ← entrySymbol t1 (j + 1)
  swap_nodes t1 s1 s2

/-- The guard `(--iter)->count + 1 < (++iter)->count` with `iter` at position
`iter` of the list; afterwards the iterator is back at its position. -/
def rebalance_guard (t : Huffman_Tree) (iter : Nat) : Option Bool :=
  if iter = 0 then none
  else do
    let p : Nat ← entryCount t (iter - 1)
    let c : Nat ← entryCount t iter
    some (decide ((p + 1) % UINT < c))

/-- The `else` branch of `increase_and_rebalance`: `++current->count` and
`current = current->parent.lock()`; a null parent is dereferenced by the
next round of the loop. -/
def rebalance_climb (t : Huffman_Tree) (current : Nat) : Option (Huffman_Tree × Nat) := do
  let t1 : Huffman_Tree ← incCount t current
  let cur : Node ← getNode t1.heap current
  let par : Nat ← cur.parent
  some (t1, par)

/-- The loop `while (current != root)` of `increase_and_rebalance(symbol)`. -/
def rebalance_loop (symbol : Nat) : Nat → Huffman_Tree → Nat → Option Huffman_Tree
  | 0, _, _ => none
  | fuel + 1, t, current =>
    if current = t.root then some t
    else
      match getData t.symbols_in_stock symbol with
      | none => none
      | some d =>
        match d.iter with
        | none => none
        | some iter =>
          match rebalance_guard t iter with
          | none => none
          | some true =>
            match rebalance_swap t current iter with
            | none => none
            | some t2 => rebalance_loop symbol fuel t2 current
          | some false =>
            match rebalance_climb t current with
            | none => none
            | some (t1, par) => rebalance_loop symbol fuel t1 par

/-- Method `increase_and_rebalance(symbol)`. -/
def increase_and_rebalance (fuel : Nat) (t : Huffman_Tree) (symbol : Nat) :
    Option Huffman_Tree := do
  let d : Data ← getData t.symbols_in_stock symbol
  let current : Nat ← d.ptr
  let t1 : Huffman_Tree ← rebalance_loop symbol fuel t current
  incCount t1 t1.root

/-- Heap part of `insert_new`: allocate `pv` and `leave`, set their parents to
the escape leaf, hang them below it (`pv` right, `leave` left). The result is
the new heap and the new value of `last_leave`. -/
def attach_children (t : Huffman_Tree) (symbol cev : Nat) : Option (List Node × Nat) := do
  let pv : Nat := t.heap.length
  let leave : Nat := t.heap.length + 1
  let h0 : List Node := t.heap ++
    [{ Node.new symbol Side.right with parent := some t.last_leave },
     { Node.new cev Side.left with parent := some t.last_leave }]
  let h1 : List Node ← setNode h0 t.last_leave (fun n => { n with right_child := some pv })
  let h2 : List Node ← setNode h1 t.last_leave (fun n => { n with left_child := some leave })
  let ll : Node ← getNode h2 t.last_leave
  let last_leave : Nat ← ll.left_child
  some (h2, last_leave)

/-- Assignment `symbols_in_stock[i].ptr = p`. -/
def setPtr (s : List Data) (i p : Nat) : Option (List Data) := do
  let d : Data ← getData s i
  some (s.set i { d with ptr := some p })

/-- Assignment `symbols_in_stock[i].iter = it`. -/
def setIter (s : List Data) (i it : Nat) : Option (List Data) := do
  let d : Data ← getData s i
  some (s.set i { d with iter := some it })

/-- Table and list part of `insert_new`: the two `ptr` assignments and the two
`lst.emplace(lst.end(), ...)` calls whose iterators are stored. -/
def register_children (t : Huffman_Tree) (symbol cev : Nat) :
    Option (List Data × List Nat) := do
  let pv : Nat := t.heap.length
  let leave : Nat := t.heap.length + 1
  let e : Nat := (cev + UINT - 1) % UINT
  let s1 : List Data ← setPtr t.symbols_in_stock symbol pv
  let s2 : List Data ← setPtr s1 e leave
  let s3 : List Data ← setIter s2 symbol t.lst.length
  let lst1 : List Nat := t.lst ++ [pv]
  let s4 : List Data ← setIter s3 e lst1.length
  some (s4, lst1 ++ [leave])

/-- Method `insert_new(symbol)`. -/
def insert_new (fuel : Nat) (t : Huffman_Tree) (symbol : Nat) : Option Huffman_Tree := do
  let cev : Nat := (t.current_empty_value + 1) % UINT
  let (h, last_leave) ← attach_children t symbol cev
  let (s, l) ← register_children t symbol cev
  increase_and_rebalance fuel
    { current_empty_value := cev, heap := h, lst := l, symbols_in_stock := s,
      root := t.root, last_leave := last_leave } symbol

/-- Method `insert_existing(symbol)`. -/
def insert_existing (fuel : Nat) (t : Huffman_Tree) (symbol : Nat) : Option Huffman_Tree :=
  increase_and_rebalance fuel t symbol

/-- Method `insert(symbol)`. -/
def insert (fuel : Nat) (t : Huffman_Tree) (symbol : Nat) : Option Huffman_Tree := do
  let d : Data ← getData t.symbols_in_stock symbol
  if d.exists_ then insert_existing fuel t symbol else insert_new fuel t symbol

/-- Method `exists(symbol)`. -/
def Huffman_Tree.exists_ (t : Huffman_Tree) (symbol : Nat) : Option Bool := do
  let d : Data ← getData t.symbols_in_stock symbol
  some d.exists_

/-- The loop `while (pv != root)` shared by `get_symbol_code` and
`get_delim_code`: `st` is the stack, top first. -/
def code_walk (t : Huffman_Tree) : Nat → Nat → List Nat → Option (List Nat)
  | 0, _, _ => none
  | fuel + 1, pv, st =>
    if pv = t.root then some st
    else do
      let n : Node ← getNode t.heap pv
      let p : Nat ← n.parent
      code_walk t fuel p ((if n.side = Side.left then 0 else 1) :: st)

/-- Method `get_symbol_code(symbol)`: the stack filled on the way up is popped
into the result, so the result lists the stack top first. -/
def get_symbol_code (fuel : Nat) (t : Huffman_Tree) (symbol : Nat) : Option (List Nat) := do
  let d : Data ← getData t.symbols_in_stock symbol
  let pv : Nat ← d.ptr
  code_walk t fuel pv []

/-- Method `get_delim_code()`. -/
def get_delim_code (fuel : Nat) (t : Huffman_Tree) : Option (List Nat) :=
  code_walk t fuel t.last_leave []

/-- Run `insert` over a sequence of symbols, left to right. -/
def insertAll (fuel : Nat) : Huffman_Tree → List Nat → Option Huffman_Tree
  | t, [] => some t
  | t, s :: rest => do
    let t1 : Huffman_Tree ← insert fuel t s
    insertAll fuel t1 rest

/-- The struct `Coder::counter`: an `unsigned char` that counts modulo `mod`. -/
structure counter where
  i : Nat
  mod : Nat
deriving DecidableEq, Repr

/-- Constructor `counter(mod_)`. -/
def counter.new (mod : Nat) : counter := { i := 0, mod := mod }

/-- The `operator++` of `counter`: `++i %= mod` on an `unsigned char`. -/
def counter.inc (c : counter) : counter := { c with i := ((c.i + 1) % 256) % c.mod }

/-- Data members of `Encoder::Bit_writer`; `fout` is the list of bytes written
to the output file so far, the queue `bit_buffer` has its front first. -/
structure Bit_writer where
  bit_buffer : List Nat
  bit_to_write : Nat
  cnt : counter
  fout : List Nat
deriving DecidableEq, Repr

/-- Constructor `Bit_writer(fout_)`: empty queue, `cnt(9)`. -/
def Bit_writer.new (fout : List Nat) : Bit_writer :=
  { bit_buffer := [], bit_to_write := 0, cnt := counter.new 9, fout := fout }

/-- Method `Bit_writer::write`: the loop `while (!bit_buffer.empty())`. -/
def Bit_writer.write : Nat → Bit_writer → Option Bit_writer
  | 0, _ => none
  | fuel + 1, w =>
    match w.bit_buffer with
    | [] => some w
    | b :: rest =>
      if w.cnt.i < 8 then
        Bit_writer.write fuel
          { w with bit_to_write := ((w.bit_to_write <<< 1) % 256) ||| b,
                   bit_buffer := rest, cnt := w.cnt.inc }
      else
        Bit_writer.write fuel { w with fout := w.fout ++ [w.bit_to_write], cnt := w.cnt.inc }

/-- Method `Bit_writer::push_back(code)`. -/
def Bit_writer.push_back (fuel : Nat) (w : Bit_writer) (code : List Nat) : Option Bit_writer :=
  Bit_writer.write fuel { w with bit_buffer := w.bit_buffer ++ code }

/-- The loop `while (cnt < 8)` of `end_of_stream_notifier`. -/
def Bit_writer.pad : Nat → Bit_writer → Option Bit_writer
  | 0, _ => none
  | fuel + 1, w =>
    if w.cnt.i < 8 then
      Bit_writer.pad fuel { w with bit_to_write := (w.bit_to_write <<< 1) % 256, cnt := w.cnt.inc }
    else some w

/-- Method `Bit_writer::end_of_stream_notifier`. -/
def Bit_writer.end_of_stream_notifier (fuel : Nat) (w : Bit_writer) : Option Bit_writer := do
  let w1 : Bit_writer ← Bit_writer.pad fuel w
  some { w1 with fout := w1.fout ++ [w1.bit_to_write] }

/-- The first loop of `get_base_symbol_code`: `n` rounds of
`st.push(symbol & 1); symbol >>= 1`, the stack `st` top first. -/
def base_code_push : Nat → Nat → List Nat → List Nat
  | 0, _, st => st
  | n + 1, symbol, st => base_code_push n (symbol >>> 1) ((symbol &&& 1) :: st)

/-- Method `get_base_symbol_code(symbol)`: the eight bits of the byte, popped
from the stack, so most significant bit first. -/
def get_base_symbol_code (symbol : Nat) : List Nat := base_code_push 8 symbol []

/-- Data members of `Encoder` (with the inherited `tree`). -/
structure Encoder where
  tree : Huffman_Tree
  bit_writer : Bit_writer
deriving DecidableEq, Repr

/-- The bits pushed for one input byte `c` in the loop of `Encoder::Encoder`. -/
def Encoder.emit (fuel : Nat) (e : Encoder) (c : Nat) : Option Bit_writer := do
  let known : Bool ← e.tree.exists_ c
  if known then do
    let code : List Nat ← get_symbol_code fuel e.tree c
    e.bit_writer.push_back fuel code
  else do
    let delim : List Nat ← get_delim_code fuel e.tree
    let w1 : Bit_writer ← e.bit_writer.push_back fuel delim
    w1.push_back fuel (get_base_symbol_code c)

/-- One round of the loop `for (char ch = 0; fin.get(ch);)` of `Encoder::Encoder`. -/
def Encoder.step (fuel : Nat) (e : Encoder) (c : Nat) : Option Encoder := do
  let w : Bit_writer ← Encoder.emit fuel e c
  let t : Huffman_Tree ← insert fuel e.tree c
  some { tree := t, bit_writer := w }

/-- The loop of `Encoder::Encoder` over the bytes still in the input file. -/
def Encoder.loop (fuel : Nat) : Encoder → List Nat → Option Encoder
  | e, [] => some e
  | e, c :: rest => do
    let e1 : Encoder ← Encoder.step fuel e c
    Encoder.loop fuel e1 rest

/-- Constructor `Encoder::Encoder` run on the bytes `input` of the input file;
the result is the content of the output file. -/
def Encoder.Encoder (fuel : Nat) (input : List Nat) : Option (List Nat) :=
  match input with
  | [] => some []
  | _ :: _ => do
    let e : Huffman.Encoder ←
      Encoder.loop fuel { tree := Huffman_Tree.fresh, bit_writer := Bit_writer.new [] } input
    let w : Bit_writer ← e.bit_writer.end_of_stream_notifier fuel
    some w.fout

/-- Data members of `Decoder` (with the inherited `tree`); `adapter` is the
`ptr` member of the `Huffman_Tree_adapter`, `fin` the bytes not yet read from
the input file and `fout` the bytes written to the output file. -/
structure Decoder where
  tree : Huffman_Tree
  adapter : Option Nat
  delimiter_reached : Bool
  stream_is_active : Bool
  position_mask : Nat
  cnt : counter
  current_byte : Nat
  fin : List Nat
  fout : List Nat
deriving DecidableEq, Repr

/-- Method `Decoder::next_bit`. -/
def Decoder.next_bit (d : Decoder) : Bool × Decoder :=
  let bit : Bool := (d.current_byte &&& d.position_mask) != 0
  let d1 : Decoder :=
    if d.cnt.i < 7 then { d with position_mask := d.position_mask >>> 1 }
    else
      match d.fin with
      | c :: rest => { d with current_byte := c, position_mask := 128, fin := rest }
      | [] => { d with stream_is_active := false }
  (bit, { d1 with cnt := d1.cnt.inc })

/-- Method `Huffman_Tree_adapter::move(bit)`: the new `ptr` and the returned
flag. The returned expression dereferences the new `ptr`. -/
def adapter_move (t : Huffman_Tree) (ptr : Option Nat) (bit : Bool) :
    Option (Option Nat × Bool) := do
  let p : Nat ← ptr
  let n : Node ← getNode t.heap p
  let q : Nat ← (if bit then n.right_child else n.left_child)
  let m : Node ← getNode t.heap q
  some (some q, decide (m.symbol < 256) || decide (q = t.last_leave))

/-- Method `Huffman_Tree_adapter::is_symbol_code`. -/
def adapter_is_symbol_code (t : Huffman_Tree) (ptr : Option Nat) : Option Bool := do
  let p : Nat ← ptr
  let n : Node ← getNode t.heap p
  some (decide (n.symbol < 256))

/-- Method `Huffman_Tree_adapter::get_symbol`: the node's symbol as `unsigned char`. -/
def adapter_get_symbol (t : Huffman_Tree) (ptr : Option Nat) : Option Nat := do
  let p : Nat ← ptr
  let n : Node ← getNode t.heap p
  some (n.symbol % 256)

/-- The loop `for (unsigned char i = 0; i < 8; ++i)` of `Decoder::Decoder`:
`n` rounds of `symbol <<= 1; symbol |= next_bit()`. -/
def Decoder.read_literal : Nat → Decoder → Nat → Nat × Decoder
  | 0, d, symbol => (symbol, d)
  | n + 1, d, symbol =>
    let r := d.next_bit
    Decoder.read_literal n r.2 (((symbol <<< 1) % 256) ||| (if r.1 then 1 else 0))

/-- Body of `if (adapter.move(next_bit()))` in `Decoder::Decoder`: write the
symbol or read and write the literal (a zero literal stops the stream), then
`tree.insert(symbol)` and `adapter.rewind()`. -/
def Decoder.resolve (fuel : Nat) (d : Decoder) : Option Decoder := do
  let is_symbol : Bool ← adapter_is_symbol_code d.tree d.adapter
  let r : Nat × Decoder ←
    (if is_symbol then do
      let symbol : Nat ← adapter_get_symbol d.tree d.adapter
      some (symbol, { d with fout := d.fout ++ [symbol] })
    else
      let r := Decoder.read_literal 8 d 0
      if r.1 ≠ 0 then some (r.1, { r.2 with fout := r.2.fout ++ [r.1] })
      else some (r.1, { r.2 with stream_is_active := false }))
  let t : Huffman_Tree ← insert fuel r.2.tree r.1
  some { r.2 with tree := t, adapter := some t.root }

/-- The loop `while (stream_is_active)` of `Decoder::Decoder`; `fuel` is the
budget handed to the loops of the tree, the second argument the budget of
this loop. -/
def Decoder.loop (fuel : Nat) : Nat → Decoder → Option Decoder
  | 0, _ => none
  | n + 1, d =>
    if d.stream_is_active then
      let r := d.next_bit
      match adapter_move r.2.tree r.2.adapter r.1 with
      | none => none
      | some (p, true) =>
        match Decoder.resolve fuel { r.2 with adapter := p } with
        | none => none
        | some d1 => Decoder.loop fuel n d1
      | some (p, false) => Decoder.loop fuel n { r.2 with adapter := p }
    else some d

/-- Constructor `Decoder::Decoder` run on the bytes `input` of the input file;
the result is the content of the output file. -/
def Decoder.Decoder (fuel : Nat) (input : List Nat) : Option (List Nat) :=
  match input with
  | [] => some []
  | c :: rest => do
    let t : Huffman_Tree ← insert fuel Huffman_Tree.fresh c
    match rest with
    | [] => some [c]
    | c2 :: rest2 => do
      let d : Huffman.Decoder ← Decoder.loop fuel fuel
        { tree := t, adapter := some t.root, delimiter_reached := false,
          stream_is_active := true, position_mask := 128, cnt := counter.new 8,
          current_byte := c2, fin := rest2, fout := [c] }
      some d.fout

/-- Node at arena index `i` of the left comb over the first-occurrence list `ss`
with counts `c`: even indices `2 * j` form the spine (`0` is the root, `2 * ss.length`
the escape leaf), odd index `2 * j + 1` is the leaf of `ss[j]`, hanging to the
right of spine node `2 * j`. -/
def combNode (ss : List Nat) (c : Nat → Nat) (i : Nat) : Node :=
  if i % 2 = 0 then
    { left_child := if i / 2 < ss.length then some (i + 2) else none,
      right_child := if i / 2 < ss.length then some (i + 1) else none,
      parent := if i = 0 then none else some (i - 2),
      symbol := 256 + i / 2,
      count := c i,
      side := if i = 0 then Side.top else Side.left }
  else
    { left_child := none, right_child := none, parent := some (i - 1),
      symbol := ss.getD (i / 2) 0, count := c i, side := Side.right }

/-- Entry `i` of `symbols_in_stock` for the left comb over `ss`: byte `ss[j]`
refers to leaf `2 * j + 1`, and index `256 + j` refers to spine node `2 * j + 2`,
whose symbol is `257 + j`. -/
def combData (ss : List Nat) (i : Nat) : Data :=
  if i < 256 then
    (if i ∈ ss then { ptr := some (2 * ss.indexOf i + 1), iter := some (2 * ss.indexOf i + 1) }
     else { ptr := none, iter := none })
  else if i - 256 < ss.length then
    { ptr := some (2 * (i - 256) + 2), iter := some (2 * (i - 256) + 2) }
  else { ptr := none, iter := none }

/-- The tree state that is a left comb over `ss` with node counts `c`. -/
def combTree (ss : List Nat) (c : Nat → Nat) : Huffman_Tree :=
  { current_empty_value := 256 + ss.length,
    heap := (List.range (2 * ss.length + 1)).map (combNode ss c),
    lst := List.range (2 * ss.length + 1),
    symbols_in_stock := (List.range 513).map (combData ss),
    root := 0,
    last_leave := 2 * ss.length }

/-- Counts after one more occurrence of the symbol with first-occurrence rank `m`:
its leaf `2 * m + 1` and the spine nodes `0, 2, ..., 2 * m` are incremented. -/
def bump (m : Nat) (c : Nat → Nat) (i : Nat) : Nat :=
  if i = 2 * m + 1 ∨ (i % 2 = 0 ∧ i ≤ 2 * m) then (c i + 1) % UINT else c i

/-- Counts while `increase_and_rebalance` climbs the spine: the spine nodes
`2, 4, ..., 2 * j` below the root have been incremented. -/
def spineBump (j : Nat) (c : Nat → Nat) (i : Nat) : Nat :=
  if i % 2 = 0 ∧ 0 < i ∧ i ≤ 2 * j then (c i + 1) % UINT else c i

/-- First-occurrence list after seeing `s`. -/
def observe (ss : List Nat) (s : Nat) : List Nat :=
  if s ∈ ss then ss else ss ++ [s]

/-- Distinct symbols of `xs` in order of first occurrence, continuing from `ss`. -/
def firsts : List Nat → List Nat → List Nat
  | ss, [] => ss
  | ss, s :: rest => firsts (observe ss s) rest

/-- Node counts of the comb after the symbols `xs` have been inserted, continuing
from first-occurrence list `ss` and counts `c`. -/
def countsAfter : List Nat → (Nat → Nat) → List Nat → (Nat → Nat)
  | _, c, [] => c
  | ss, c, s :: rest => countsAfter (observe ss s) (bump ((observe ss s).indexOf s) c) rest

/-- Numeric facts about the counts of a comb with `k` leaves after `n` inserts:
the root counts the inserts, every spine node is the sum of its two children,
the escape leaf is 0, and spine node `2 * j` leaves room for the `j` leaves above it. -/
structure Weights (k : Nat) (c : Nat → Nat) (n : Nat) : Prop where
  root : c 0 = n
  sum : ∀ j, j < k → c (2 * j) = c (2 * j + 1) + c (2 * j + 2)
  esc : ∀ i, 2 * k ≤ i → c i = 0
  room : ∀ j, j ≤ k → c (2 * j) + j ≤ n

/-- The eight bits of a byte, most significant first, each read with the mask
`128 >> c` the way `Decoder::next_bit` reads it. -/
def bits8 (x : Nat) : List Nat :=
  (List.range 8).map (fun c => if (x &&& (128 >>> c)) != 0 then 1 else 0)

/-- The bits of a byte sequence, byte by byte, most significant bit first. -/
def bytesToBits : List Nat → List Nat
  | [] => []
  | b :: rest => bits8 b ++ bytesToBits rest

/-- The bit sequence the unary-code reading of the comb assigns to the symbols
`xs` when the first-occurrence list is `ss`: rank `m` is `m` zeros and a one, a
new symbol is `ss.length` zeros and its eight raw bits. -/
def encBits : List Nat → List Nat → List Nat
  | _, [] => []
  | ss, s :: rest =>
    (if s ∈ ss then List.replicate (ss.indexOf s) 0 ++ [1]
     else List.replicate ss.length 0 ++ bits8 s) ++ encBits (observe ss s) rest

/-- State of the bit writer after the bits `B` went through `push_back`:
`done` has been written out in whole bytes, `pending` (at most eight bits, and
empty only before the first bit) sits in the low bits of `bit_to_write`. -/
structure Wrote (w : Bit_writer) (B : List Nat) : Prop where
  buffer : w.bit_buffer = []
  mod : w.cnt.mod = 9
  byte : w.bit_to_write < 256
  bytes : ∀ y ∈ w.fout, y < 256
  split : ∃ done pending, B = done ++ pending ∧ bytesToBits w.fout = done
    ∧ pending.length = w.cnt.i ∧ pending.length ≤ 8 ∧ (pending = [] → B = [])
    ∧ (bits8 w.bit_to_write).drop (8 - pending.length) = pending

/-- The byte assembled from bits the way the literal loop of `Decoder::Decoder`
assembles it: `symbol <<= 1; symbol |= bit` for each bit in turn. -/
def val8 (bs : List Nat) : Nat :=
  bs.foldl (fun acc b => ((acc <<< 1) % 256) ||| b) 0

/-- Effect of the rounds of `Bit_writer::write` that consume one bit `b`: when
eight bits are pending the byte is written out first. -/
def feed1 (w : Bit_writer) (b : Nat) : Bit_writer :=
  if w.cnt.i < 8 then
    { w with bit_to_write := ((w.bit_to_write <<< 1) % 256) ||| b, cnt := w.cnt.inc }
  else
    { w with fout := w.fout ++ [w.bit_to_write],
             bit_to_write := ((w.bit_to_write <<< 1) % 256) ||| b,
             cnt := w.cnt.inc.inc }

/-- What `Decoder::next_bit` will return: the reader is active and aligned
(`position_mask = 128 >> cnt`) with exactly the bits `bs` left in the current
byte and the unread input, or `bs` is empty and the stream has been marked
inactive. -/
def Stream (d : Decoder) (bs : List Nat) : Prop :=
  d.cnt.mod = 8 ∧ d.cnt.i < 8 ∧
    ((bs ≠ [] ∧ d.stream_is_active = true ∧ d.position_mask = 128 >>> d.cnt.i
        ∧ (bits8 d.current_byte).drop d.cnt.i ++ bytesToBits d.fin = bs)
      ∨ (bs = [] ∧ d.stream_is_active = false))

/-- Every bit `Decoder::next_bit` can still return is 0: no input byte is left
and the current byte is 0 under the mask and under all its right shifts. -/
def ZeroTail (d : Decoder) : Prop :=
  d.cnt.mod = 8 ∧ d.cnt.i < 8 ∧ d.fin = []
    ∧ ∀ j, d.current_byte &&& (d.position_mask >>> j) = 0

/-- Two tree states agree on `current_empty_value`, on the size of the table and on
every `ptr` of the table. -/
def SameView (t t1 : Huffman_Tree) : Prop :=
  t1.current_empty_value = t.current_empty_value
    ∧ t1.symbols_in_stock.length = t.symbols_in_stock.length
    ∧ ∀ i d, getData t.symbols_in_stock i = some d →
        ∃ d1, getData t1.symbols_in_stock i = some d1 ∧ d1.ptr = d.ptr

/-- The table records exactly the bytes of `S`: 513 entries, the next synthetic id
within the table, and the `ptr` of byte `c` set exactly when `c` is in `S`. -/
def Seen (t : Huffman_Tree) (S : List Nat) : Prop :=
  t.symbols_in_stock.length = 513 ∧ 256 ≤ t.current_empty_value
    ∧ t.current_empty_value ≤ 513
    ∧ ∀ c, c < 256 → ∃ d, getData t.symbols_in_stock c = some d
        ∧ d.ptr.isSome = decide (c ∈ S)

/-- The first byte `b` pushed into the bit writer is still pending as a whole byte or
is the first byte of the output. -/
def FirstByte (b : Nat) (w : Bit_writer) : Prop :=
  w.cnt.mod = 9
    ∧ ((w.fout = [] ∧ w.cnt.i = 8 ∧ w.bit_to_write = b) ∨ ∃ o, w.fout = b :: o)

/-- Feed the bits of `code`, in order, to `Huffman_Tree_adapter::move`, starting
with the walker at `ptr`: the values `move` returned, in order, and the final
`ptr`. -/
def adapter_feed (t : Huffman_Tree) : Option Nat → List Nat → Option (List Bool × Option Nat)
  | ptr, [] => some ([], ptr)
  | ptr, b :: rest =>
    match adapter_move t ptr (b != 0) with
    | none => none
    | some (p, r) =>
      match adapter_feed t p rest with
      | none => none
      | some (rs, q) => some (r :: rs, q)

/-- Read `symbols_in_stock[symbol].ptr->count`, the weight of the leaf of an
observed symbol. -/
def leaf_count (t : Huffman_Tree) (symbol : Nat) : Option Nat := do
  let d : Data ← getData t.symbols_in_stock symbol
  let p : Nat ← d.ptr
  let n : Node ← getNode t.heap p
  some n.count

/-- Cost of a code: the sum over the leaves, each given as its weight and its
code, of weight times code length. -/
def code_cost (ws : List (Nat × List Nat)) : Nat :=
  (ws.map (fun p => p.1 * p.2.length)).sum

/-- No code of the list is a prefix of another one (equal codes included). -/
def PrefixFree (cs : List (List Nat)) : Prop :=
  cs.Pairwise (fun a b => ¬ a <+: b ∧ ¬ b <+: a)

/-- Input on which the 32-bit counts wrap without any iterator leaving the list:
`2^31` bytes `0x41`, then `2^32 - 3` bytes `0x42`, then `2^31 + 1` bytes `0x43`. -/
def wrapInput : List Nat :=
  List.replicate 2147483648 65 ++ (List.replicate 4294967293 66 ++ List.replicate 2147483649 67)

/-- Counts of the seven nodes after `wrapInput`, by arena index: the counts of
the two upper spine nodes have wrapped modulo `2^32`. -/
def wrapCounts (i : Nat) : Nat :=
  [4294967294, 2147483648, 2147483646, 4294967293, 2147483649, 2147483649, 0].getD i 0

/-- The insert of `s` into the comb over `ss` with counts `c` keeps the comb: for
an observed symbol of rank `m` the guard of `increase_and_rebalance` stays false
on the way up (no count involved wraps); for a new symbol the escape leaf and
everything behind it count 0. -/
def StepOk (ss : List Nat) (c : Nat → Nat) (s : Nat) : Prop :=
  if s ∈ ss then
    c (2 * ss.indexOf s + 1) ≤ c (2 * ss.indexOf s) ∧ c (2 * ss.indexOf s) + 1 < UINT
      ∧ (1 ≤ ss.indexOf s → c (2 * ss.indexOf s) + 2 < UINT)
  else ∀ i, 2 * ss.length ≤ i → c i = 0

/-- Every insert of the sequence `xs`, started from the comb over `ss` with counts
`c`, keeps the comb. -/
def Safe : List Nat → (Nat → Nat) → List Nat → Prop
  | _, _, [] => True
  | ss, c, s :: rest =>
    StepOk ss c s ∧ Safe (observe ss s) (bump ((observe ss s).indexOf s) c) rest

/-- Number of rounds of the loop of `Decoder::Decoder` that decode the symbols
`xs` from the comb over `ss`: one round for each bit of a code, none for the
eight raw bits of a new symbol, which are read within a round. -/
def walkBits : List Nat → List Nat → Nat
  | _, [] => 0
  | ss, s :: rest =>
    (if s ∈ ss then ss.indexOf s + 1 else ss.length) + walkBits (observe ss s) rest

/-- A sequence of `Bit_writer::push_back` calls, one for each code of `codes`,
in order. -/
def Bit_writer.push_all (fuel : Nat) : Bit_writer → List (List Nat) → Option Bit_writer
  | w, [] => some w
  | w, code :: rest =>
    match w.push_back fuel code with
    | none => none
    | some w1 => Bit_writer.push_all fuel w1 rest

/-- Reading of the claim, not of the source: the eight bits of a byte, most
significant first, each obtained by division. -/
def literal8 (s : Nat) : List Nat :=
  (List.range 8).map (fun i => (s / 2 ^ (7 - i)) % 2)

/-- Reading of the claim, not of the source: the distinct symbols of a sequence
in the order of their first occurrence. -/
def first_occurrences : List Nat → List Nat
  | [] => []
  | s :: rest => s :: (first_occurrences rest).filter (fun y => y != s)

/-- Reading of the claim, not of the source: the first-occurrence-rank unary
coder with 8-bit literals. `seen` lists the symbols seen so far in the order of
their first occurrence; a symbol seen before, of rank `j` counted from 0, is
written as `j` zeros and a one, a new symbol as one zero for each symbol seen so
far followed by its eight bits. -/
def unary_rank_coder (seen : List Nat) : List Nat → List Nat
  | [] => []
  | s :: rest =>
    if s ∈ seen then
      (List.replicate (seen.indexOf s) 0 ++ [1]) ++ unary_rank_coder seen rest
    else
      (List.replicate seen.length 0 ++ literal8 s) ++ unary_rank_coder (seen ++ [s]) rest

/-- The loop `while (current != root)` of `increase_and_rebalance(symbol)` with a
record of the run: the values of the guard, one for each round, in order. A
round with the value `true` runs `swap_nodes`, a round with the value `false`
moves `current` to its parent. -/
def rebalance_trace (symbol : Nat) : Nat → Huffman_Tree → Nat → Option (List Bool × Huffman_Tree)
  | 0, _, _ => none
  | fuel + 1, t, current =>
    if current = t.root then some ([], t)
    else
      match getData t.symbols_in_stock symbol with
      | none => none
      | some d =>
        match d.iter with
        | none => none
        | some iter =>
          match rebalance_guard t iter with
          | none => none
          | some true =>
            match rebalance_swap t current iter with
            | none => none
            | some t2 =>
              match rebalance_trace symbol fuel t2 current with
              | none => none
              | some r => some (true :: r.1, r.2)
          | some false =>
            match rebalance_climb t current with
            | none => none
            | some (t1, par) =>
              match rebalance_trace symbol fuel t1 par with
              | none => none
              | some r => some (false :: r.1, r.2)

/-- Method `increase_and_rebalance(symbol)` with the record of its loop. -/
def increase_trace (fuel : Nat) (t : Huffman_Tree) (symbol : Nat) :
    Option (List Bool × Huffman_Tree) := do
  let d : Data ← getData t.symbols_in_stock symbol
  let current : Nat ← d.ptr
  let r : List Bool × Huffman_Tree ← rebalance_trace symbol fuel t current
  let t2 : Huffman_Tree ← incCount r.2 r.2.root
  some (r.1, t2)

/-- Method `insert(symbol)` with the record of the loop of
`increase_and_rebalance`. -/
def insert_trace (fuel : Nat) (t : Huffman_Tree) (symbol : Nat) :
    Option (List Bool × Huffman_Tree) := do
  let d : Data ← getData t.symbols_in_stock symbol
  if d.exists_ then increase_trace fuel t symbol
  else do
    let cev : Nat := (t.current_empty_value + 1) % UINT
    let (h, last_leave) ← attach_children t symbol cev
    let (s, l) ← register_children t symbol cev
    increase_trace fuel
      { current_empty_value := cev, heap := h, lst := l, symbols_in_stock := s,
        root := t.root, last_leave := last_leave } symbol

/-- The values returned by `k` successive calls of `Decoder::next_bit`, in order,
and the state after them. -/
def Decoder.next_bits : Nat → Huffman.Decoder → List Bool × Huffman.Decoder
  | 0, d => ([], d)
  | k + 1, d =>
    let r := d.next_bit
    let q := Decoder.next_bits k r.2
    (r.1 :: q.1, q.2)

/-- State of the decoder when `Decoder::Decoder` enters its `while` loop: the
first byte `c` has been inserted into the fresh tree, giving `t`, and written to
the output, the second byte `c2` is the current byte and `rest2` is still unread. -/
def Decoder.entry (t : Huffman_Tree) (c c2 : Nat) (rest2 : List Nat) : Huffman.Decoder :=
  { tree := t, adapter := some t.root, delimiter_reached := false,
    stream_is_active := true, position_mask := 128, cnt := counter.new 8,
    current_byte := c2, fin := rest2, fout := [c] }

theorem tab_get {α : Type} (f : Nat → α) (n i : Nat) :
    ((List.range n).map f)[i]? = if i < n then some (f i) else none := by
  by_cases h : i < n
  · simp [h, List.getElem?_range]
  · simp [h]; omega

theorem tab_set {α : Type} (f : Nat → α) (n i : Nat) (v : α) (h : i < n) :
    ((List.range n).map f).set i v = (List.range n).map (Function.update f i v) := by
  apply List.ext_getElem?
  intro j
  rw [List.getElem?_set, tab_get, tab_get]
  by_cases hj : i = j
  · subst hj; simp [h]
  · have hj2 : j ≠ i := fun e => hj e.symm
    simp [hj, Function.update_noteq hj2]

theorem tab_congr {α : Type} (f g : Nat → α) (n : Nat) (h : ∀ i, i < n → f i = g i) :
    (List.range n).map f = (List.range n).map g := by
  apply List.map_congr_left
  intro i hi
  exact h i (List.mem_range.mp hi)

theorem comb_getNode (ss : List Nat) (c : Nat → Nat) (i : Nat) (h : i < 2 * ss.length + 1) :
    getNode (combTree ss c).heap i = some (combNode ss c i) := by
  simp [getNode, combTree, tab_get, h]

theorem comb_getData (ss : List Nat) (c : Nat → Nat) (i : Nat) (h : i < 513) :
    getData (combTree ss c).symbols_in_stock i = some (combData ss i) := by
  simp [getData, combTree, tab_get, h]

theorem comb_entryCount (ss : List Nat) (c : Nat → Nat) (i : Nat) (h : i < 2 * ss.length + 1) :
    entryCount (combTree ss c) i = some (c i) := by
  simp only [entryCount, combTree, List.getElem?_range h, tab_get, h, if_true]
  simp [combNode]
  split <;> rfl

theorem combNode_update (ss : List Nat) (c : Nat → Nat) (p v : Nat) :
    Function.update (combNode ss c) p { combNode ss c p with count := v }
      = combNode ss (Function.update c p v) := by
  funext i
  by_cases h : i = p
  · subst h
    simp [combNode]
    split <;> simp
  · simp [Function.update_noteq h, combNode]

theorem comb_incCount (ss : List Nat) (c : Nat → Nat) (p : Nat) (h : p < 2 * ss.length + 1) :
    incCount (combTree ss c) p
      = some (combTree ss (Function.update c p ((c p + 1) % UINT))) := by
  have hc : (combNode ss c p).count = c p := by
    simp [combNode]; split <;> rfl
  simp only [incCount, setNode, combTree, tab_get, h, if_true, Option.bind_eq_bind,
    Option.some_bind, tab_set _ _ _ _ h, combNode_update, hc]

theorem combData_mem (ss : List Nat) (s : Nat) (hs : s < 256) (hm : s ∈ ss) :
    combData ss s = { ptr := some (2 * ss.indexOf s + 1), iter := some (2 * ss.indexOf s + 1) } := by
  simp [combData, hs, hm]

theorem combData_not_mem (ss : List Nat) (s : Nat) (hs : s < 256) (hm : s ∉ ss) :
    combData ss s = { ptr := none, iter := none } := by
  simp [combData, hs, hm]

theorem comb_guard (ss : List Nat) (c : Nat → Nat) (m : Nat) (hm : m < ss.length) :
    rebalance_guard (combTree ss c) (2 * m + 1)
      = some (decide ((c (2 * m) + 1) % UINT < c (2 * m + 1))) := by
  have h1 : 2 * m < 2 * ss.length + 1 := by omega
  have h2 : 2 * m + 1 < 2 * ss.length + 1 := by omega
  simp [rebalance_guard, comb_entryCount _ _ _ h1, comb_entryCount _ _ _ h2]

theorem comb_climb (ss : List Nat) (c : Nat → Nat) (p : Nat) (h : p < 2 * ss.length + 1)
    (h0 : p ≠ 0) :
    rebalance_climb (combTree ss c) p
      = some (combTree ss (Function.update c p ((c p + 1) % UINT)),
              if p % 2 = 0 then p - 2 else p - 1) := by
  simp only [rebalance_climb, comb_incCount _ _ _ h, Option.bind_eq_bind, Option.some_bind,
    comb_getNode _ _ _ h]
  simp [combNode, h0]
  split <;> simp

theorem comb_loop_spine (ss : List Nat) (s m : Nat) (hs : s < 256) (hmem : s ∈ ss)
    (hm : m = ss.indexOf s) :
    ∀ (j : Nat) (c : Nat → Nat) (fuel : Nat), j < m → j < fuel →
      ¬ ((c (2 * m) + 1) % UINT < c (2 * m + 1)) →
      rebalance_loop s fuel (combTree ss c) (2 * j) = some (combTree ss (spineBump j c)) := by
  have hml : m < ss.length := by rw [hm]; exact List.indexOf_lt_length.mpr hmem
  intro j
  induction j with
  | zero =>
    intro c fuel _ hf _
    obtain ⟨f, rfl⟩ : ∃ f, fuel = f + 1 := ⟨fuel - 1, by omega⟩
    have : spineBump 0 c = c := by
      funext i; simp [spineBump]; omega
    simp [rebalance_loop, combTree, this]
  | succ j ih =>
    intro c fuel hj hf hg
    obtain ⟨f, rfl⟩ : ∃ f, fuel = f + 1 := ⟨fuel - 1, by omega⟩
    have hroot : (combTree ss c).root = 0 := rfl
    have hp : 2 * (j + 1) < 2 * ss.length + 1 := by omega
    have hne : 2 * (j + 1) ≠ 0 := by omega
    have hpar : (if 2 * (j + 1) % 2 = 0 then 2 * (j + 1) - 2 else 2 * (j + 1) - 1) = 2 * j := by
      have : 2 * (j + 1) % 2 = 0 := by omega
      simp [this]; omega
    have hstep : spineBump j (Function.update c (2 * (j + 1)) ((c (2 * (j + 1)) + 1) % UINT))
        = spineBump (j + 1) c := by
      funext i
      simp only [spineBump, Function.update_apply]
      by_cases hi : i = 2 * (j + 1)
      · subst hi
        have h1 : ¬ (2 * (j + 1) ≤ 2 * j) := by omega
        have h2 : 2 * (j + 1) % 2 = 0 := by omega
        simp [h1, h2]
      · by_cases he : i % 2 = 0 ∧ 0 < i ∧ i ≤ 2 * j
        · have : i % 2 = 0 ∧ 0 < i ∧ i ≤ 2 * (j + 1) := ⟨he.1, he.2.1, by omega⟩
          simp [he, this, hi]
        · have : ¬ (i % 2 = 0 ∧ 0 < i ∧ i ≤ 2 * (j + 1)) := by
            intro h; apply he; refine ⟨h.1, h.2.1, ?_⟩; omega
          simp [he, this, hi]
    have hg2 : ¬ ((Function.update c (2 * (j + 1)) ((c (2 * (j + 1)) + 1) % UINT) (2 * m) + 1) % UINT
        < Function.update c (2 * (j + 1)) ((c (2 * (j + 1)) + 1) % UINT) (2 * m + 1)) := by
      have e1 : (2 * m) ≠ 2 * (j + 1) := by omega
      have e2 : (2 * m + 1) ≠ 2 * (j + 1) := by omega
      simp only [Function.update_noteq e1, Function.update_noteq e2]
      exact hg
    rw [rebalance_loop]
    simp only [hroot, hne, if_false, comb_getData _ _ _ (show s < 513 by omega),
      combData_mem _ _ hs hmem, ← hm, comb_guard _ _ _ hml, decide_eq_false hg,
      comb_climb _ _ _ hp hne, hpar]
    rw [ih _ f (by omega) (by omega) hg2, hstep]

theorem comb_loop_leaf (ss : List Nat) (c : Nat → Nat) (s m : Nat) (hs : s < 256)
    (hmem : s ∈ ss) (hm : m = ss.indexOf s) (fuel : Nat) (hf : m + 2 ≤ fuel)
    (hle : c (2 * m + 1) ≤ c (2 * m)) (hb1 : c (2 * m) + 1 < UINT)
    (hb2 : 1 ≤ m → c (2 * m) + 2 < UINT) :
    increase_and_rebalance fuel (combTree ss c) s = some (combTree ss (bump m c)) := by
  have hml : m < ss.length := by rw [hm]; exact List.indexOf_lt_length.mpr hmem
  have hU : UINT = 4294967296 := rfl
  obtain ⟨f, rfl⟩ : ∃ f, fuel = f + 1 := ⟨fuel - 1, by omega⟩
  have hroot : ∀ c, (combTree ss c).root = 0 := fun _ => rfl
  have hg1 : ¬ ((c (2 * m) + 1) % UINT < c (2 * m + 1)) := by
    rw [Nat.mod_eq_of_lt hb1]; omega
  have hp : 2 * m + 1 < 2 * ss.length + 1 := by omega
  have hne : 2 * m + 1 ≠ 0 := by omega
  have hpar : (if (2 * m + 1) % 2 = 0 then 2 * m + 1 - 2 else 2 * m + 1 - 1) = 2 * m := by
    have : ¬ ((2 * m + 1) % 2 = 0) := by omega
    simp [this]
  have h0 : 0 < 2 * ss.length + 1 := by omega
  simp only [increase_and_rebalance, comb_getData _ _ _ (show s < 513 by omega),
    combData_mem _ _ hs hmem, ← hm, Option.bind_eq_bind, Option.some_bind]
  rw [rebalance_loop]
  simp only [hroot, hne, if_false, comb_getData _ _ _ (show s < 513 by omega),
    combData_mem _ _ hs hmem, ← hm, comb_guard _ _ _ hml, decide_eq_false hg1,
    comb_climb _ _ _ hp hne, hpar]
  have hlc : (c (2 * m + 1) + 1) % UINT = c (2 * m + 1) + 1 := Nat.mod_eq_of_lt (by omega)
  rcases Nat.eq_zero_or_pos m with hm0 | hmpos
  · -- the leaf hangs below the root
    subst hm0
    obtain ⟨f2, rfl⟩ : ∃ f2, f = f2 + 1 := ⟨f - 1, by omega⟩
    have hstop : ∀ c2, rebalance_loop s (f2 + 1) (combTree ss c2) (2 * 0) = some (combTree ss c2) := by
      intro c2
      rw [rebalance_loop]
      exact if_pos rfl
    rw [hstop, Option.some_bind, hroot, comb_incCount _ _ _ h0]
    congr 2
    funext i
    simp only [bump, Function.update_apply]
    by_cases h1 : i = 0
    · subst h1; simp
    · by_cases h2 : i = 1
      · subst h2; simp
      · have : ¬ (i = 2 * 0 + 1 ∨ i % 2 = 0 ∧ i ≤ 2 * 0) := by omega
        simp [h1, h2, this]
  · obtain ⟨f2, rfl⟩ : ∃ f2, f = f2 + 1 := ⟨f - 1, by omega⟩
    have hb2 := hb2 hmpos
    have hp2 : 2 * m < 2 * ss.length + 1 := by omega
    have hne2 : 2 * m ≠ 0 := by omega
    have hpar2 : (if (2 * m) % 2 = 0 then 2 * m - 2 else 2 * m - 1) = 2 * (m - 1) := by
      have : (2 * m) % 2 = 0 := by omega
      simp [this]; omega
    have e1 : (2 * m) ≠ 2 * m + 1 := by omega
    have hg2 : ¬ ((Function.update c (2 * m + 1) ((c (2 * m + 1) + 1) % UINT) (2 * m) + 1) % UINT
        < Function.update c (2 * m + 1) ((c (2 * m + 1) + 1) % UINT) (2 * m + 1)) := by
      rw [Function.update_noteq e1, Function.update_same, Nat.mod_eq_of_lt hb1, hlc]
      omega
    rw [rebalance_loop]
    simp only [hroot, hne2, if_false, comb_getData _ _ _ (show s < 513 by omega),
      combData_mem _ _ hs hmem, ← hm, comb_guard _ _ _ hml, decide_eq_false hg2,
      comb_climb _ _ _ hp2 hne2, hpar2]
    have hg3 : ¬ ((Function.update (Function.update c (2 * m + 1) ((c (2 * m + 1) + 1) % UINT))
          (2 * m) ((Function.update c (2 * m + 1) ((c (2 * m + 1) + 1) % UINT) (2 * m) + 1) % UINT)
          (2 * m) + 1) % UINT
        < Function.update (Function.update c (2 * m + 1) ((c (2 * m + 1) + 1) % UINT))
          (2 * m) ((Function.update c (2 * m + 1) ((c (2 * m + 1) + 1) % UINT) (2 * m) + 1) % UINT)
          (2 * m + 1)) := by
      rw [Function.update_same, Function.update_noteq e1, Function.update_noteq e1.symm,
        Function.update_same, Nat.mod_eq_of_lt hb1, hlc, Nat.mod_eq_of_lt (by omega)]
      omega
    rw [comb_loop_spine ss s m hs hmem hm (m - 1) _ f2 (by omega) (by omega) hg3]
    simp only [Option.some_bind, hroot, comb_incCount _ _ _ h0]
    congr 2
    funext i
    simp only [bump, spineBump, Function.update_apply]
    have hm0 : m ≠ 0 := by omega
    by_cases h1 : i = 0
    · subst h1; simp [hm0]
    · by_cases h2 : i = 2 * m + 1
      · subst h2
        have a1 : ¬ ((2 * m + 1) % 2 = 0) := by omega
        simp [a1]
      · by_cases h3 : i = 2 * m
        · subst h3
          have a1 : (2 * m) % 2 = 0 := by omega
          have a2 : ¬ (2 * m ≤ 2 * (m - 1)) := by omega
          simp [a1, a2, h1]
        · by_cases h4 : i % 2 = 0 ∧ 0 < i ∧ i ≤ 2 * (m - 1)
          · have a1 : i % 2 = 0 ∧ i ≤ 2 * m := ⟨h4.1, by omega⟩
            simp [h1, h2, h3, h4, a1]
          · have a1 : ¬ (i % 2 = 0 ∧ i ≤ 2 * m) := by
              intro h; apply h4; refine ⟨h.1, by omega, by omega⟩
            simp [h1, h2, h3, h4, a1]

theorem tab_append2 {α : Type} (f : Nat → α) (n : Nat) (a b : α) :
    (List.range n).map f ++ [a, b]
      = (List.range (n + 2)).map (fun i => if i < n then f i else if i = n then a else b) := by
  apply List.ext_getElem?
  intro i
  rw [List.getElem?_append, tab_get, tab_get]
  simp only [List.length_map, List.length_range]
  by_cases h1 : i < n
  · have : i < n + 2 := by omega
    simp [h1, this]
  · by_cases h2 : i = n
    · subst h2; simp
    · by_cases h3 : i = n + 1
      · subst h3; simp
      · have h4 : ¬ (i < n + 2) := by omega
        have h5 : 2 ≤ i - n := by omega
        simp [h1, h4]
        omega

theorem nodup_bytes_length (ss : List Nat) (hn : ss.Nodup) (hb : ∀ s ∈ ss, s < 256) :
    ss.length ≤ 256 := by
  have hsub : ss ⊆ List.range 256 := fun s hs => List.mem_range.mpr (hb s hs)
  have := (List.subperm_of_subset hn hsub).length_le
  simpa using this

theorem nodup_bytes_length_lt (ss : List Nat) (hn : ss.Nodup) (hb : ∀ s ∈ ss, s < 256)
    (s : Nat) (hs : s < 256) (hnot : s ∉ ss) : ss.length < 256 := by
  have h1 : (ss ++ [s]).Nodup := by
    rw [List.nodup_append]
    refine ⟨hn, List.nodup_singleton s, ?_⟩
    intro a ha hb2
    rw [List.mem_singleton] at hb2
    subst hb2
    exact hnot ha
  have h2 : ∀ x ∈ ss ++ [s], x < 256 := by
    intro x hx
    rw [List.mem_append, List.mem_singleton] at hx
    rcases hx with hx | hx
    · exact hb x hx
    · subst hx; exact hs
  have := nodup_bytes_length _ h1 h2
  simp at this
  omega

theorem comb_attach (ss : List Nat) (c : Nat → Nat) (s : Nat)
    (h1 : c (2 * ss.length + 1) = 0) (h2 : c (2 * ss.length + 2) = 0) :
    attach_children (combTree ss c) s (257 + ss.length)
      = some ((List.range (2 * (ss ++ [s]).length + 1)).map (combNode (ss ++ [s]) c),
              2 * (ss ++ [s]).length) := by
  have hk : 2 * ss.length < 2 * ss.length + 1 + 2 := by omega
  simp only [attach_children, combTree, List.length_map, List.length_range, tab_append2,
    setNode, tab_get, hk, if_true, Option.bind_eq_bind, Option.some_bind, tab_set _ _ _ _ hk,
    getNode, Function.update_same]
  have hlen : 2 * (ss ++ [s]).length + 1 = 2 * ss.length + 1 + 2 := by simp; omega
  have hlen2 : 2 * (ss ++ [s]).length = 2 * ss.length + 1 + 1 := by simp; omega
  rw [hlen, hlen2]
  congr 2
  apply tab_congr
  intro i hi
  simp only [Function.update_apply]
  by_cases e1 : i = 2 * ss.length
  · subst e1
    have a1 : (2 * ss.length) % 2 = 0 := by omega
    have a2 : 2 * ss.length / 2 = ss.length := by omega
    simp [combNode, a1, a2]
  · by_cases e2 : i < 2 * ss.length + 1
    · simp only [e1, e2, if_true, if_false, combNode]
      by_cases e3 : i % 2 = 0
      · have a1 : i / 2 < ss.length := by omega
        have a2 : i / 2 < ss.length + 1 := by omega
        simp [e3, a1, a2]
      · have a1 : i / 2 < ss.length := by omega
        simp [e3, List.getD_eq_getElem?_getD, List.getElem?_append_left a1]
    · by_cases e3 : i = 2 * ss.length + 1
      · subst e3
        have a1 : ¬ ((2 * ss.length + 1) % 2 = 0) := by omega
        have a2 : (2 * ss.length + 1) / 2 = ss.length := by omega
        simp [combNode, Node.new, a1, a2, h1, List.getD_eq_getElem?_getD]
      · have e4 : i = 2 * ss.length + 2 := by omega
        subst e4
        have a1 : (2 * ss.length + 2) % 2 = 0 := by omega
        have a2 : (2 * ss.length + 2) / 2 = ss.length + 1 := by omega
        simp [combNode, Node.new, a1, a2, h2]
        omega

theorem tab_setPtr (f : Nat → Data) (i p : Nat) (h : i < 513) :
    setPtr ((List.range 513).map f) i p
      = some ((List.range 513).map (Function.update f i { f i with ptr := some p })) := by
  simp [setPtr, getData, tab_get, h, tab_set _ _ _ _ h]

theorem tab_setIter (f : Nat → Data) (i p : Nat) (h : i < 513) :
    setIter ((List.range 513).map f) i p
      = some ((List.range 513).map (Function.update f i { f i with iter := some p })) := by
  simp [setIter, getData, tab_get, h, tab_set _ _ _ _ h]

theorem comb_register (ss : List Nat) (c : Nat → Nat) (s : Nat) (hs : s < 256)
    (hnot : s ∉ ss) (hk : ss.length < 256) :
    register_children (combTree ss c) s (257 + ss.length)
      = some ((List.range 513).map (combData (ss ++ [s])),
              List.range (2 * (ss ++ [s]).length + 1)) := by
  have hU : UINT = 4294967296 := rfl
  have he : (257 + ss.length + UINT - 1) % UINT = 256 + ss.length := by
    rw [hU]; omega
  have hs5 : s < 513 := by omega
  have he5 : 256 + ss.length < 513 := by omega
  have hne : s ≠ 256 + ss.length := by omega
  have hne2 : 256 + ss.length ≠ s := by omega
  have hrange : List.range (2 * (ss ++ [s]).length + 1)
      = List.range (2 * ss.length + 1) ++ [2 * ss.length + 1] ++ [2 * ss.length + 1 + 1] := by
    have hlen : 2 * (ss ++ [s]).length + 1 = (2 * ss.length + 1) + 1 + 1 := by
      simp only [List.length_append, List.length_singleton]; omega
    rw [hlen, List.range_succ, List.range_succ]
  have hl1 : (combTree ss c).lst = List.range (2 * ss.length + 1) := rfl
  have hl2 : (combTree ss c).heap.length = 2 * ss.length + 1 := by simp [combTree]
  have hl3 : (combTree ss c).symbols_in_stock = (List.range 513).map (combData ss) := by
    simp only [combTree]
  unfold register_children
  rw [hl1, hl2, hl3, he, hrange]
  dsimp only
  rw [tab_setPtr _ _ _ hs5]
  simp only [Option.bind_eq_bind, Option.some_bind]
  rw [tab_setPtr _ _ _ he5]
  simp only [Option.some_bind]
  rw [tab_setIter _ _ _ hs5]
  simp only [Option.some_bind]
  rw [tab_setIter _ _ _ he5]
  simp only [Option.some_bind, List.length_append, List.length_singleton, List.length_range]
  rw [Option.some.injEq, Prod.mk.injEq]
  refine ⟨?_, rfl⟩
  apply tab_congr
  intro i hi
  simp only [Function.update_apply]
  by_cases e1 : i = s
  · subst e1
    have hm : i ∈ ss ++ [i] := by simp
    have hidx : List.indexOf i (ss ++ [i]) = ss.length := by
      rw [List.indexOf_append_of_not_mem hnot]; simp
    simp [hne, hne2, combData, hs, hnot, hidx]
  · by_cases e2 : i = 256 + ss.length
    · subst e2
      simp [e1, hne, hne2, combData]
    · simp only [e1, e2, if_false, combData]
      by_cases e3 : i < 256
      · by_cases e4 : i ∈ ss
        · have hm : i ∈ ss ++ [s] := by simp [e4]
          simp [e3, e4, hm, List.indexOf_append_of_mem e4]
        · have hm : i ∉ ss ++ [s] := by simp [e4, e1]
          simp [e3, e4, hm]
      · have a1 : (i - 256 < ss.length + 1) ↔ (i - 256 < ss.length) := by omega
        simp [e3, a1]

theorem comb_insert_new (ss : List Nat) (c : Nat → Nat) (s : Nat) (hs : s < 256)
    (hnot : s ∉ ss) (hn : ss.Nodup) (hb : ∀ x ∈ ss, x < 256) (fuel : Nat)
    (hf : ss.length + 2 ≤ fuel)
    (hz : ∀ i, 2 * ss.length ≤ i → c i = 0) :
    insert_new fuel (combTree ss c) s
      = some (combTree (ss ++ [s]) (bump ss.length c)) := by
  have hk : ss.length < 256 := nodup_bytes_length_lt ss hn hb s hs hnot
  have hU : UINT = 4294967296 := rfl
  have hcev : ((combTree ss c).current_empty_value + 1) % UINT = 257 + ss.length := by
    simp only [combTree, hU]; omega
  have hmem : s ∈ ss ++ [s] := by simp
  have hidx : ss.length = List.indexOf s (ss ++ [s]) := by
    rw [List.indexOf_append_of_not_mem hnot]; simp
  have hz1 := hz (2 * ss.length) (by omega)
  have hz2 := hz (2 * ss.length + 1) (by omega)
  have hz3 := hz (2 * ss.length + 2) (by omega)
  have key := comb_loop_leaf (ss ++ [s]) c s ss.length hs hmem hidx fuel hf
    (by omega) (by rw [hz1, hU]; omega) (by intro _; rw [hz1, hU]; omega)
  simp only [insert_new, hcev, comb_attach ss c s hz2 hz3, comb_register ss c s hs hnot hk,
    Option.bind_eq_bind, Option.some_bind]
  have hroot : (combTree ss c).root = 0 := rfl
  rw [hroot]
  have hst : Huffman_Tree.mk (257 + ss.length)
      (List.map (combNode (ss ++ [s]) c) (List.range (2 * (ss ++ [s]).length + 1)))
      (List.range (2 * (ss ++ [s]).length + 1))
      (List.map (combData (ss ++ [s])) (List.range 513))
      0 (2 * (ss ++ [s]).length)
      = combTree (ss ++ [s]) c := by
    have e : 257 + ss.length = 256 + (ss ++ [s]).length := by
      simp only [List.length_append, List.length_singleton]; omega
    rw [e]
    rfl
  rw [hst, key]

theorem comb_insert_existing (ss : List Nat) (c : Nat → Nat) (s : Nat) (hs : s < 256)
    (hmem : s ∈ ss) (fuel : Nat) (hf : ss.indexOf s + 2 ≤ fuel)
    (hle : c (2 * ss.indexOf s + 1) ≤ c (2 * ss.indexOf s))
    (hb1 : c (2 * ss.indexOf s) + 1 < UINT)
    (hb2 : 1 ≤ ss.indexOf s → c (2 * ss.indexOf s) + 2 < UINT) :
    insert fuel (combTree ss c) s = some (combTree ss (bump (ss.indexOf s) c)) := by
  simp only [insert, comb_getData _ _ _ (show s < 513 by omega), combData_mem _ _ hs hmem,
    Option.bind_eq_bind, Option.some_bind, Data.exists_, Option.isSome_some, if_true,
    insert_existing]
  exact comb_loop_leaf ss c s _ hs hmem rfl fuel hf hle hb1 hb2

theorem comb_insert_fresh (ss : List Nat) (c : Nat → Nat) (s : Nat) (hs : s < 256)
    (hnot : s ∉ ss) (hn : ss.Nodup) (hb : ∀ x ∈ ss, x < 256) (fuel : Nat)
    (hf : ss.length + 2 ≤ fuel) (hz : ∀ i, 2 * ss.length ≤ i → c i = 0) :
    insert fuel (combTree ss c) s = some (combTree (ss ++ [s]) (bump ss.length c)) := by
  simp only [insert, comb_getData _ _ _ (show s < 513 by omega), combData_not_mem _ _ hs hnot,
    Option.bind_eq_bind, Option.some_bind, Data.exists_, Option.isSome_none]
  exact comb_insert_new ss c s hs hnot hn hb fuel hf hz

theorem weights_le {k : Nat} {c : Nat → Nat} {n : Nat} (w : Weights k c n) (i : Nat) :
    c i ≤ n := by
  by_cases h : 2 * k ≤ i
  · rw [w.esc i h]; omega
  · by_cases he : i % 2 = 0
    · have := w.room (i / 2) (by omega)
      have e : 2 * (i / 2) = i := by omega
      rw [e] at this
      omega
    · have h1 := w.sum (i / 2) (by omega)
      have h2 := w.room (i / 2) (by omega)
      have e : 2 * (i / 2) + 1 = i := by omega
      rw [e] at h1
      omega

theorem bump_eq {k : Nat} {c : Nat → Nat} {n : Nat} (w : Weights k c n) (hn : n + 1 < UINT)
    (m i : Nat) :
    bump m c i = if i = 2 * m + 1 ∨ (i % 2 = 0 ∧ i ≤ 2 * m) then c i + 1 else c i := by
  have := weights_le w i
  simp only [bump]
  rw [Nat.mod_eq_of_lt (show c i + 1 < UINT by omega)]

theorem weights_bump_old {k : Nat} {c : Nat → Nat} {n : Nat} (w : Weights k c n)
    (hn : n + 1 < UINT) (m : Nat) (hm : m < k) : Weights k (bump m c) (n + 1) := by
  constructor
  · rw [bump_eq w hn, w.root]; simp
  · intro j hj
    have hs := w.sum j hj
    rw [bump_eq w hn, bump_eq w hn, bump_eq w hn]
    split_ifs <;> omega
  · intro i hi
    have hs := w.esc i hi
    rw [bump_eq w hn]
    split_ifs <;> omega
  · intro j hj
    have hs := w.room j hj
    rw [bump_eq w hn]
    split_ifs <;> omega

theorem weights_bump_new {k : Nat} {c : Nat → Nat} {n : Nat} (w : Weights k c n)
    (hn : n + 1 < UINT) : Weights (k + 1) (bump k c) (n + 1) := by
  have e0 := w.esc (2 * k) (by omega)
  have e1 := w.esc (2 * k + 1) (by omega)
  have e2 := w.esc (2 * k + 2) (by omega)
  have hk := w.room k (by omega)
  constructor
  · rw [bump_eq w hn, w.root]; simp
  · intro j hj
    rw [bump_eq w hn, bump_eq w hn, bump_eq w hn]
    by_cases hjk : j = k
    · subst hjk
      split_ifs <;> omega
    · have hs := w.sum j (by omega)
      split_ifs <;> omega
  · intro i hi
    have hs := w.esc i (by omega)
    rw [bump_eq w hn]
    split_ifs <;> omega
  · intro j hj
    rw [bump_eq w hn]
    by_cases hjk : j = k + 1
    · subst hjk
      have : 2 * (k + 1) = 2 * k + 2 := by omega
      rw [this, e2]
      split_ifs <;> omega
    · have hs := w.room j (by omega)
      split_ifs <;> omega

theorem weights_zero : Weights 0 (fun _ => 0) 0 := by
  constructor
  · rfl
  · intro j hj; omega
  · intro i _; rfl
  · intro j hj; omega

theorem observe_nodup (ss : List Nat) (s : Nat) (hn : ss.Nodup) : (observe ss s).Nodup := by
  unfold observe
  split
  · exact hn
  · rename_i h
    rw [List.nodup_append]
    refine ⟨hn, List.nodup_singleton s, ?_⟩
    intro a ha hb
    rw [List.mem_singleton] at hb
    subst hb
    exact h ha

theorem observe_bytes (ss : List Nat) (s : Nat) (hs : s < 256) (hb : ∀ x ∈ ss, x < 256) :
    ∀ x ∈ observe ss s, x < 256 := by
  unfold observe
  split
  · exact hb
  · intro x hx
    rw [List.mem_append, List.mem_singleton] at hx
    rcases hx with hx | hx
    · exact hb x hx
    · subst hx; exact hs

theorem mem_observe (ss : List Nat) (s x : Nat) : x ∈ observe ss s ↔ x ∈ ss ∨ x = s := by
  unfold observe
  split
  · rename_i h
    constructor
    · intro hx; exact Or.inl hx
    · intro hx
      rcases hx with hx | hx
      · exact hx
      · subst hx; exact h
  · simp

/-- One `insert` on a comb: the result is the comb of the extended first-occurrence list
with bumped counts, and the numeric facts carry over. -/
theorem comb_insert (ss : List Nat) (c : Nat → Nat) (n s : Nat) (hn : ss.Nodup)
    (hb : ∀ x ∈ ss, x < 256) (w : Weights ss.length c n) (hs : s < 256)
    (hlt : n + 1 < UINT) (fuel : Nat) (hf : 257 ≤ fuel) :
    insert fuel (combTree ss c) s
        = some (combTree (observe ss s) (bump ((observe ss s).indexOf s) c))
      ∧ Weights (observe ss s).length (bump ((observe ss s).indexOf s) c) (n + 1) := by
  have hlen := nodup_bytes_length ss hn hb
  by_cases hmem : s ∈ ss
  · have hobs : observe ss s = ss := by simp [observe, hmem]
    have hidx : ss.indexOf s < ss.length := List.indexOf_lt_length.mpr hmem
    have h1 := w.sum _ hidx
    have h2 := w.room _ (Nat.le_of_lt hidx)
    rw [hobs]
    refine ⟨comb_insert_existing ss c s hs hmem fuel (by omega) (by omega) (by omega)
      (by intro _; omega), weights_bump_old w hlt _ hidx⟩
  · have hobs : observe ss s = ss ++ [s] := by simp [observe, hmem]
    have hk := nodup_bytes_length_lt ss hn hb s hs hmem
    have hidx : List.indexOf s (ss ++ [s]) = ss.length := by
      rw [List.indexOf_append_of_not_mem hmem]; simp
    rw [hobs, hidx]
    refine ⟨comb_insert_fresh ss c s hs hmem hn hb fuel (by omega) w.esc, ?_⟩
    have := weights_bump_new w hlt
    simpa using this

theorem comb_insertAll (fuel : Nat) (hf : 257 ≤ fuel) :
    ∀ (xs ss : List Nat) (c : Nat → Nat) (n : Nat), ss.Nodup → (∀ x ∈ ss, x < 256) →
      Weights ss.length c n → (∀ x ∈ xs, x < 256) → n + xs.length < UINT →
      insertAll fuel (combTree ss c) xs = some (combTree (firsts ss xs) (countsAfter ss c xs))
        ∧ (firsts ss xs).Nodup ∧ (∀ x ∈ firsts ss xs, x < 256)
        ∧ Weights (firsts ss xs).length (countsAfter ss c xs) (n + xs.length) := by
  intro xs
  induction xs with
  | nil =>
    intro ss c n hn hb w _ _
    exact ⟨rfl, hn, hb, w⟩
  | cons s rest ih =>
    intro ss c n hn hb w hx hlt
    have hs : s < 256 := hx s (List.mem_cons_self _ _)
    have hrest : ∀ x ∈ rest, x < 256 := fun x h => hx x (List.mem_cons_of_mem _ h)
    simp only [List.length_cons] at hlt
    obtain ⟨h1, h2⟩ := comb_insert ss c n s hn hb w hs (by omega) fuel hf
    have := ih (observe ss s) (bump ((observe ss s).indexOf s) c) (n + 1)
      (observe_nodup ss s hn) (observe_bytes ss s hs hb) h2 hrest (by omega)
    simp only [insertAll, h1, Option.bind_eq_bind, Option.some_bind, firsts, countsAfter,
      List.length_cons]
    have e : n + (rest.length + 1) = n + 1 + rest.length := by omega
    rw [e]
    exact this

theorem fresh_eq_comb : Huffman_Tree.fresh = combTree [] (fun _ => 0) := by
  have h1 : List.replicate 513 ({ ptr := none, iter := none } : Data)
      = (List.range 513).map (combData []) := by
    apply List.ext_getElem?
    intro i
    rw [tab_get, List.getElem?_replicate]
    by_cases h : i < 513
    · simp [h, combData]
    · simp [h]
  simp only [Huffman_Tree.fresh, combTree, h1]
  rfl

theorem comb_code_walk_spine (ss : List Nat) (c : Nat → Nat) :
    ∀ (j fuel : Nat) (st : List Nat), j ≤ ss.length → j < fuel →
      code_walk (combTree ss c) fuel (2 * j) st = some (List.replicate j 0 ++ st) := by
  intro j
  induction j with
  | zero =>
    intro fuel st _ hf
    obtain ⟨f, rfl⟩ : ∃ f, fuel = f + 1 := ⟨fuel - 1, by omega⟩
    simp [code_walk, combTree]
  | succ j ih =>
    intro fuel st hj hf
    obtain ⟨f, rfl⟩ : ∃ f, fuel = f + 1 := ⟨fuel - 1, by omega⟩
    have hroot : (combTree ss c).root = 0 := rfl
    have hne : 2 * (j + 1) ≠ 0 := by omega
    have hp : 2 * (j + 1) < 2 * ss.length + 1 := by omega
    have hmod : 2 * (j + 1) % 2 = 0 := by omega
    rw [code_walk]
    simp only [hroot, hne, if_false, comb_getNode _ _ _ hp, Option.bind_eq_bind,
      Option.some_bind, combNode, hmod, if_true]
    have e : 2 * (j + 1) - 2 = 2 * j := by omega
    rw [e, ih f _ (by omega) (by omega)]
    rw [List.replicate_succ', List.append_assoc]
    rfl

theorem comb_code_walk_leaf (ss : List Nat) (c : Nat → Nat) (m fuel : Nat)
    (hm : m < ss.length) (hf : m + 2 ≤ fuel) :
    code_walk (combTree ss c) fuel (2 * m + 1) [] = some (List.replicate m 0 ++ [1]) := by
  obtain ⟨f, rfl⟩ : ∃ f, fuel = f + 1 := ⟨fuel - 1, by omega⟩
  have hroot : (combTree ss c).root = 0 := rfl
  have hne : 2 * m + 1 ≠ 0 := by omega
  have hp : 2 * m + 1 < 2 * ss.length + 1 := by omega
  have hmod : ¬ ((2 * m + 1) % 2 = 0) := by omega
  rw [code_walk]
  simp only [hroot, hne, if_false, comb_getNode _ _ _ hp, Option.bind_eq_bind,
    Option.some_bind, combNode, hmod]
  have e : 2 * m + 1 - 1 = 2 * m := by omega
  rw [e, comb_code_walk_spine ss c m f _ (by omega) (by omega)]
  rfl

theorem comb_symbol_code (ss : List Nat) (c : Nat → Nat) (s fuel : Nat) (hs : s < 256)
    (hmem : s ∈ ss) (hf : ss.indexOf s + 2 ≤ fuel) :
    get_symbol_code fuel (combTree ss c) s = some (List.replicate (ss.indexOf s) 0 ++ [1]) := by
  have hidx : ss.indexOf s < ss.length := List.indexOf_lt_length.mpr hmem
  simp only [get_symbol_code, comb_getData _ _ _ (show s < 513 by omega),
    combData_mem _ _ hs hmem, Option.bind_eq_bind, Option.some_bind]
  exact comb_code_walk_leaf ss c _ fuel hidx hf

theorem comb_delim_code (ss : List Nat) (c : Nat → Nat) (fuel : Nat)
    (hf : ss.length + 1 ≤ fuel) :
    get_delim_code fuel (combTree ss c) = some (List.replicate ss.length 0) := by
  have := comb_code_walk_spine ss c ss.length fuel [] (le_refl _) (by omega)
  simpa [get_delim_code, combTree] using this

theorem comb_exists (ss : List Nat) (c : Nat → Nat) (s : Nat) (hs : s < 256) :
    (combTree ss c).exists_ s = some (decide (s ∈ ss)) := by
  simp only [Huffman_Tree.exists_, comb_getData _ _ _ (show s < 513 by omega),
    Option.bind_eq_bind, Option.some_bind]
  by_cases hmem : s ∈ ss
  · simp [combData_mem _ _ hs hmem, Data.exists_, hmem]
  · simp [combData_not_mem _ _ hs hmem, Data.exists_, hmem]

theorem mem_firsts (xs : List Nat) : ∀ (ss : List Nat) (x : Nat),
    x ∈ firsts ss xs ↔ x ∈ ss ∨ x ∈ xs := by
  induction xs with
  | nil => intro ss x; simp [firsts]
  | cons s rest ih =>
    intro ss x
    simp only [firsts, ih, mem_observe, List.mem_cons]
    tauto

/-- Moving left from spine node `2 * j`. -/
theorem comb_move_left (ss : List Nat) (c : Nat → Nat) (j : Nat) (hj : j < ss.length) :
    adapter_move (combTree ss c) (some (2 * j)) false
      = some (some (2 * j + 2), decide (j + 1 = ss.length)) := by
  have hp : 2 * j < 2 * ss.length + 1 := by omega
  have hp2 : 2 * j + 2 < 2 * ss.length + 1 := by omega
  have hmod : 2 * j % 2 = 0 := by omega
  have hmod2 : (2 * j + 2) % 2 = 0 := by omega
  have hdiv : 2 * j / 2 = j := by omega
  simp only [adapter_move, Option.bind_eq_bind, Option.some_bind, comb_getNode _ _ _ hp,
    combNode, hmod, if_true, hdiv, hj, Bool.false_eq_true, if_false, comb_getNode _ _ _ hp2, hmod2]
  have e1 : ¬ (256 + (2 * j + 2) / 2 < 256) := by omega
  have e2 : (combTree ss c).last_leave = 2 * ss.length := rfl
  rw [e2]
  simp only [e1, decide_False, Bool.false_or]
  congr 2
  rw [decide_eq_decide]
  omega

/-- Moving right from spine node `2 * j` reaches the leaf of `ss[j]`. -/
theorem comb_move_right (ss : List Nat) (c : Nat → Nat) (j : Nat) (hj : j < ss.length)
    (hb : ∀ x ∈ ss, x < 256) :
    adapter_move (combTree ss c) (some (2 * j)) true = some (some (2 * j + 1), true) := by
  have hp : 2 * j < 2 * ss.length + 1 := by omega
  have hp2 : 2 * j + 1 < 2 * ss.length + 1 := by omega
  have hmod : 2 * j % 2 = 0 := by omega
  have hmod2 : ¬ ((2 * j + 1) % 2 = 0) := by omega
  have hdiv : 2 * j / 2 = j := by omega
  have hdiv2 : (2 * j + 1) / 2 = j := by omega
  have hsym : ss.getD j 0 < 256 := by
    rw [List.getD_eq_getElem?_getD, List.getElem?_eq_getElem hj]
    exact hb _ (List.getElem_mem _)
  simp only [adapter_move, Option.bind_eq_bind, Option.some_bind, comb_getNode _ _ _ hp,
    combNode, hmod, if_true, hdiv, hj, comb_getNode _ _ _ hp2, hmod2, if_false, hdiv2, hsym,
    decide_True, Bool.true_or]

theorem comb_leaf_symbol (ss : List Nat) (c : Nat → Nat) (j : Nat) (hj : j < ss.length)
    (hb : ∀ x ∈ ss, x < 256) :
    adapter_is_symbol_code (combTree ss c) (some (2 * j + 1)) = some true
      ∧ adapter_get_symbol (combTree ss c) (some (2 * j + 1)) = some (ss.getD j 0) := by
  have hp2 : 2 * j + 1 < 2 * ss.length + 1 := by omega
  have hmod2 : ¬ ((2 * j + 1) % 2 = 0) := by omega
  have hdiv2 : (2 * j + 1) / 2 = j := by omega
  have hsym : ss.getD j 0 < 256 := by
    rw [List.getD_eq_getElem?_getD, List.getElem?_eq_getElem hj]
    exact hb _ (List.getElem_mem _)
  constructor
  · simp only [adapter_is_symbol_code, Option.bind_eq_bind, Option.some_bind,
      comb_getNode _ _ _ hp2, combNode, hmod2, if_false, hdiv2, hsym, decide_True]
  · simp only [adapter_get_symbol, Option.bind_eq_bind, Option.some_bind,
      comb_getNode _ _ _ hp2, combNode, hmod2, if_false, hdiv2, Nat.mod_eq_of_lt hsym]

theorem comb_escape_not_symbol (ss : List Nat) (c : Nat → Nat) :
    adapter_is_symbol_code (combTree ss c) (some (2 * ss.length)) = some false := by
  have hp : 2 * ss.length < 2 * ss.length + 1 := by omega
  have hmod : 2 * ss.length % 2 = 0 := by omega
  have e1 : ¬ (256 + (2 * ss.length) / 2 < 256) := by omega
  simp only [adapter_is_symbol_code, Option.bind_eq_bind, Option.some_bind,
    comb_getNode _ _ _ hp, combNode, hmod, if_true, e1, decide_False]

set_option maxRecDepth 100000 in
theorem bits8_shift : ∀ x, x < 256 → ∀ b, b < 2 →
    bits8 (((x <<< 1) % 256) ||| b) = (bits8 x).tail ++ [b] := by
  decide

set_option maxRecDepth 100000 in
theorem bits8_shift0 : ∀ x, x < 256 → bits8 ((x <<< 1) % 256) = (bits8 x).tail ++ [0] := by
  decide

set_option maxRecDepth 100000 in
theorem base_code_eq : ∀ c, c < 256 → get_base_symbol_code c = bits8 c := by
  decide

theorem shift_lt (x b : Nat) (hb : b < 2) : ((x <<< 1) % 256) ||| b < 256 := by
  have h1 : (x <<< 1) % 256 < 2 ^ 8 := Nat.mod_lt _ (by norm_num)
  have h2 : b < 2 ^ 8 := by omega
  exact Nat.or_lt_two_pow h1 h2

theorem bits8_length (x : Nat) : (bits8 x).length = 8 := by
  simp [bits8]

theorem bits8_bit (x : Nat) : ∀ b ∈ bits8 x, b < 2 := by
  intro b hb
  simp only [bits8, List.mem_map] at hb
  obtain ⟨c, _, rfl⟩ := hb
  split <;> omega

theorem bytesToBits_append (a b : List Nat) :
    bytesToBits (a ++ b) = bytesToBits a ++ bytesToBits b := by
  induction a with
  | nil => rfl
  | cons x rest ih => simp [bytesToBits, ih]

theorem bytesToBits_length (a : List Nat) : (bytesToBits a).length = 8 * a.length := by
  induction a with
  | nil => rfl
  | cons x rest ih => simp [bytesToBits, ih, bits8_length]; omega

theorem wrote_feed1 (w : Bit_writer) (B : List Nat) (b : Nat) (hb : b < 2) (h : Wrote w B) :
    Wrote (feed1 w b) (B ++ [b]) := by
  obtain ⟨hbuf, hmod, hbyte, hbytes, done, pending, hB, hdone, hlen, hle, hemp, hbits⟩ := h
  have hsh := bits8_shift _ hbyte b hb
  have hl8 := bits8_length w.bit_to_write
  by_cases hc : w.cnt.i < 8
  · refine ⟨?_, ?_, ?_, ?_, done, pending ++ [b], ?_, ?_, ?_, ?_, ?_, ?_⟩
    · simp [feed1, hc, hbuf]
    · simp [feed1, hc, counter.inc, hmod]
    · simp only [feed1, hc, if_true]; exact shift_lt _ _ hb
    · simpa [feed1, hc] using hbytes
    · rw [hB, List.append_assoc]
    · simpa [feed1, hc] using hdone
    · simp only [feed1, hc, if_true, counter.inc, hmod, List.length_append, List.length_singleton]
      omega
    · simp only [List.length_append, List.length_singleton]; omega
    · intro h; simp at h
    · simp only [feed1, hc, if_true, hsh, List.length_append, List.length_singleton]
      rw [← List.drop_one,
        List.drop_append_of_le_length (by rw [List.length_drop, hl8]; omega), List.drop_drop]
      have e : 1 + (8 - (pending.length + 1)) = 8 - pending.length := by omega
      rw [e, hbits]
  · have h8 : pending.length = 8 := by omega
    have hp : bits8 w.bit_to_write = pending := by
      rw [h8] at hbits; simpa using hbits
    have hci : w.cnt.i = 8 := by omega
    refine ⟨?_, ?_, ?_, ?_, done ++ pending, [b], ?_, ?_, ?_, ?_, ?_, ?_⟩
    · simp [feed1, hc, hbuf]
    · simp [feed1, hc, counter.inc, hmod]
    · simp only [feed1, hc, if_false]; exact shift_lt _ _ hb
    · intro y hy
      simp only [feed1, hc, if_false, List.mem_append, List.mem_singleton] at hy
      rcases hy with hy | hy
      · exact hbytes y hy
      · rw [hy]; exact hbyte
    · rw [hB]
    · simp only [feed1, hc, if_false, bytesToBits_append, hdone, bytesToBits, hp,
        List.append_nil]
    · simp [feed1, hc, counter.inc, hmod, hci]
    · simp
    · intro h; simp at h
    · simp only [feed1, hc, if_false, hsh, List.length_singleton]
      rw [← List.drop_one,
        List.drop_append_of_le_length (by rw [List.length_drop, hl8]), List.drop_drop]
      have : List.drop (1 + (8 - 1)) (bits8 w.bit_to_write) = [] := by
        apply List.drop_of_length_le; omega
      rw [this]; rfl

theorem write_cons (w : Bit_writer) (b : Nat) (rest : List Nat) (fuel : Nat)
    (hmod : w.cnt.mod = 9) (hle : w.cnt.i ≤ 8) :
    Bit_writer.write (fuel + 2) { w with bit_buffer := b :: rest }
      = Bit_writer.write (if w.cnt.i < 8 then fuel + 1 else fuel)
          { feed1 w b with bit_buffer := rest } := by
  by_cases hc : w.cnt.i < 8
  · rw [Bit_writer.write]
    simp [hc, feed1]
  · have hci : w.cnt.i = 8 := by omega
    rw [Bit_writer.write]
    simp only [hc, if_false]
    rw [Bit_writer.write]
    simp [hc, feed1, counter.inc, hmod, hci]

theorem write_spec : ∀ (bs B : List Nat) (w : Bit_writer) (fuel : Nat),
    (∀ b ∈ bs, b < 2) → Wrote w B → 2 * bs.length + 1 ≤ fuel →
    ∃ w1, Bit_writer.write fuel { w with bit_buffer := bs } = some w1 ∧ Wrote w1 (B ++ bs) := by
  intro bs
  induction bs with
  | nil =>
    intro B w fuel _ h hf
    obtain ⟨f, rfl⟩ : ∃ f, fuel = f + 1 := ⟨fuel - 1, by omega⟩
    refine ⟨w, ?_, by simpa using h⟩
    have hb0 := h.buffer
    have : ({ w with bit_buffer := [] } : Bit_writer) = w := by
      cases w; simp at hb0; simp [hb0]
    rw [this, Bit_writer.write, h.buffer]
  | cons b rest ih =>
    intro B w fuel hb h hf
    obtain ⟨f, rfl⟩ : ∃ f, fuel = f + 2 := ⟨fuel - 2, by simp at hf; omega⟩
    have hb1 : b < 2 := hb b (List.mem_cons_self _ _)
    have hrest : ∀ x ∈ rest, x < 2 := fun x hx => hb x (List.mem_cons_of_mem _ hx)
    have hle : w.cnt.i ≤ 8 := by
      obtain ⟨_, _, _, _, _, pending, _, _, hlen, hle, _⟩ := h
      omega
    have hw := wrote_feed1 w B b hb1 h
    rw [write_cons w b rest f h.mod hle]
    simp only [List.length_cons] at hf
    have e : B ++ b :: rest = (B ++ [b]) ++ rest := by simp
    rw [e]
    have hbuf : ({ feed1 w b with bit_buffer := rest } : Bit_writer)
        = { feed1 w b with bit_buffer := rest } := rfl
    by_cases hc : w.cnt.i < 8
    · simp only [hc, if_true]
      exact ih (B ++ [b]) (feed1 w b) (f + 1) hrest hw (by omega)
    · simp only [hc, if_false]
      exact ih (B ++ [b]) (feed1 w b) f hrest hw (by omega)

theorem push_back_spec (w : Bit_writer) (B code : List Nat) (fuel : Nat)
    (hb : ∀ b ∈ code, b < 2) (h : Wrote w B) (hf : 2 * code.length + 1 ≤ fuel) :
    ∃ w1, Bit_writer.push_back fuel w code = some w1 ∧ Wrote w1 (B ++ code) := by
  have := write_spec code B w fuel hb h hf
  simpa [Bit_writer.push_back, h.buffer] using this

theorem pad_spec : ∀ (k : Nat) (w : Bit_writer) (fuel : Nat), w.cnt.mod = 9 →
    w.cnt.i + k = 8 → w.bit_to_write < 256 → k + 1 ≤ fuel →
    ∃ w1, Bit_writer.pad fuel w = some w1 ∧ w1.fout = w.fout ∧ w1.bit_to_write < 256
      ∧ bits8 w1.bit_to_write = (bits8 w.bit_to_write).drop k ++ List.replicate k 0 := by
  intro k
  induction k with
  | zero =>
    intro w fuel _ hi hb hf
    obtain ⟨f, rfl⟩ : ∃ f, fuel = f + 1 := ⟨fuel - 1, by omega⟩
    have hc : ¬ (w.cnt.i < 8) := by omega
    refine ⟨w, ?_, rfl, hb, by simp⟩
    rw [Bit_writer.pad]
    simp [hc]
  | succ k ih =>
    intro w fuel hmod hi hb hf
    obtain ⟨f, rfl⟩ : ∃ f, fuel = f + 1 := ⟨fuel - 1, by omega⟩
    have hc : w.cnt.i < 8 := by omega
    have hlt : (w.bit_to_write <<< 1) % 256 < 256 := Nat.mod_lt _ (by norm_num)
    obtain ⟨w1, h1, h2, h3, h4⟩ := ih
      { w with bit_to_write := (w.bit_to_write <<< 1) % 256, cnt := w.cnt.inc } f
      (by simp [counter.inc, hmod]) (by simp [counter.inc, hmod]; omega) hlt (by omega)
    refine ⟨w1, ?_, ?_, h3, ?_⟩
    · rw [Bit_writer.pad]
      simp only [hc, if_true]
      exact h1
    · rw [h2]
    · rw [h4]
      simp only [bits8_shift0 _ hb]
      have hl8 := bits8_length w.bit_to_write
      rw [← List.drop_one,
        List.drop_append_of_le_length (by rw [List.length_drop, hl8]; omega), List.drop_drop,
        List.append_assoc]
      have e : 1 + k = k + 1 := by omega
      rw [e]
      rfl

theorem end_of_stream_spec (w : Bit_writer) (B : List Nat) (fuel : Nat) (h : Wrote w B)
    (hB : B ≠ []) (hf : 9 ≤ fuel) :
    ∃ w1 p, Bit_writer.end_of_stream_notifier fuel w = some w1 ∧ p ≤ 7
      ∧ bytesToBits w1.fout = B ++ List.replicate p 0 ∧ (∀ y ∈ w1.fout, y < 256) := by
  obtain ⟨hbuf, hmod, hbyte, hbytes, done, pending, hsplit, hdone, hlen, hle, hemp, hbits⟩ := h
  have hpos : 0 < pending.length := by
    rcases Nat.eq_zero_or_pos pending.length with h0 | h0
    · exact absurd (hemp (List.length_eq_zero.mp h0)) hB
    · exact h0
  obtain ⟨w1, h1, h2, h3, h4⟩ := pad_spec (8 - pending.length) w fuel hmod (by omega) hbyte
    (by omega)
  refine ⟨{ w1 with fout := w1.fout ++ [w1.bit_to_write] }, 8 - pending.length, ?_, by omega,
    ?_, ?_⟩
  · simp [Bit_writer.end_of_stream_notifier, h1]
  · simp only [bytesToBits_append, h2, hdone, bytesToBits, List.append_nil, h4, hbits, hsplit,
      List.append_assoc]
  · intro y hy
    simp only [List.mem_append, List.mem_singleton, h2] at hy
    rcases hy with hy | hy
    · exact hbytes y hy
    · rw [hy]; exact h3

/-- Bits `Encoder::Encoder` pushes for the byte `s` when the first-occurrence list is `ss`. -/
theorem comb_emit (ss : List Nat) (c : Nat → Nat) (w : Bit_writer) (B : List Nat) (s : Nat)
    (hs : s < 256) (hn : ss.Nodup) (hb : ∀ x ∈ ss, x < 256) (hw : Wrote w B) (fuel : Nat)
    (hf : 600 ≤ fuel) :
    ∃ w1, Encoder.emit fuel { tree := combTree ss c, bit_writer := w } s = some w1
      ∧ Wrote w1 (B ++ (if s ∈ ss then List.replicate (ss.indexOf s) 0 ++ [1]
                          else List.replicate ss.length 0 ++ bits8 s)) := by
  have hlen := nodup_bytes_length ss hn hb
  by_cases hmem : s ∈ ss
  · have hidx : ss.indexOf s < ss.length := List.indexOf_lt_length.mpr hmem
    have hbits : ∀ b ∈ List.replicate (ss.indexOf s) 0 ++ [1], b < 2 := by
      intro b hb
      simp only [List.mem_append, List.mem_replicate, List.mem_singleton] at hb
      rcases hb with hb | hb <;> omega
    obtain ⟨w1, h1, h2⟩ := push_back_spec w B _ fuel hbits hw
      (by simp only [List.length_append, List.length_replicate, List.length_singleton]; omega)
    refine ⟨w1, ?_, by simpa [hmem] using h2⟩
    simp only [Encoder.emit, comb_exists _ _ _ hs, hmem, decide_True, Option.bind_eq_bind,
      Option.some_bind, if_true, comb_symbol_code ss c s fuel hs hmem (by omega)]
    exact h1
  · have hzero : ∀ b ∈ List.replicate ss.length 0, b < 2 := by
      intro b hb
      simp only [List.mem_replicate] at hb
      omega
    obtain ⟨w1, h1, h2⟩ := push_back_spec w B _ fuel hzero hw
      (by simp only [List.length_replicate]; omega)
    obtain ⟨w2, h3, h4⟩ := push_back_spec w1 _ (bits8 s) fuel (bits8_bit s) h2
      (by rw [bits8_length]; omega)
    refine ⟨w2, ?_, by simpa [hmem, List.append_assoc] using h4⟩
    simp only [Encoder.emit, comb_exists _ _ _ hs, hmem, decide_False, Option.bind_eq_bind,
      Option.some_bind, Bool.false_eq_true, if_false,
      comb_delim_code ss c fuel (by omega), h1, base_code_eq s hs]
    exact h3

theorem comb_encoder_loop (fuel : Nat) (hf : 600 ≤ fuel) :
    ∀ (xs ss : List Nat) (c : Nat → Nat) (n : Nat) (w : Bit_writer) (B : List Nat),
      ss.Nodup → (∀ x ∈ ss, x < 256) → Weights ss.length c n → (∀ x ∈ xs, x < 256) →
      n + xs.length < UINT → Wrote w B →
      ∃ w1, Encoder.loop fuel { tree := combTree ss c, bit_writer := w } xs
          = some { tree := combTree (firsts ss xs) (countsAfter ss c xs), bit_writer := w1 }
        ∧ Wrote w1 (B ++ encBits ss xs) := by
  intro xs
  induction xs with
  | nil =>
    intro ss c n w B _ _ _ _ _ hw
    exact ⟨w, rfl, by simpa [encBits] using hw⟩
  | cons s rest ih =>
    intro ss c n w B hn hb hwt hx hlt hw
    have hs : s < 256 := hx s (List.mem_cons_self _ _)
    have hrest : ∀ x ∈ rest, x < 256 := fun x h => hx x (List.mem_cons_of_mem _ h)
    simp only [List.length_cons] at hlt
    obtain ⟨h1, h2⟩ := comb_insert ss c n s hn hb hwt hs (by omega) fuel (by omega)
    obtain ⟨w1, h3, h4⟩ := comb_emit ss c w B s hs hn hb hw fuel hf
    obtain ⟨w2, h5, h6⟩ := ih (observe ss s) (bump ((observe ss s).indexOf s) c) (n + 1) w1 _
      (observe_nodup ss s hn) (observe_bytes ss s hs hb) h2 hrest (by omega) h4
    refine ⟨w2, ?_, ?_⟩
    · simp only [Encoder.loop, Encoder.step, h3, h1, Option.bind_eq_bind, Option.some_bind,
        firsts, countsAfter]
      exact h5
    · simpa [encBits, List.append_assoc] using h6

theorem wrote_new : Wrote (Bit_writer.new []) [] := by
  refine ⟨rfl, rfl, by decide, by intro y hy; simp [Bit_writer.new] at hy, [], [], rfl, rfl,
    rfl, by simp, fun _ => rfl, ?_⟩
  simp [Bit_writer.new, bits8_length]

/-- The output of the encoder is the bit sequence `encBits [] x` padded with at
most seven zero bits and cut into bytes. -/
theorem encoder_spec (x : List Nat) (hx : ∀ b ∈ x, b < 256) (hne : x ≠ [])
    (hlen : x.length < UINT) (fuel : Nat) (hf : 600 ≤ fuel) :
    ∃ out p, Encoder.Encoder fuel x = some out ∧ p ≤ 7
      ∧ bytesToBits out = encBits [] x ++ List.replicate p 0 ∧ (∀ y ∈ out, y < 256) := by
  obtain ⟨w1, h1, h2⟩ := comb_encoder_loop fuel hf x [] (fun _ => 0) 0 (Bit_writer.new []) []
    List.nodup_nil (by intro y hy; simp at hy) weights_zero hx (by omega) wrote_new
  have hB : [] ++ encBits [] x ≠ [] := by
    cases x with
    | nil => exact absurd rfl hne
    | cons s rest =>
      have := bits8_length s
      intro h
      have h8 := congrArg List.length h
      simp [encBits, this] at h8
  obtain ⟨w2, p, h3, h4, h5, h6⟩ := end_of_stream_spec w1 _ fuel h2 hB (by omega)
  refine ⟨w2.fout, p, ?_, h4, by simpa using h5, h6⟩
  cases x with
  | nil => exact absurd rfl hne
  | cons s rest =>
    simp only [Encoder.Encoder, fresh_eq_comb, h1, Option.bind_eq_bind, Option.some_bind, h3]

theorem bits8_getElem (x i : Nat) (hi : i < 8) :
    (bits8 x)[i]? = some (if (x &&& (128 >>> i)) != 0 then 1 else 0) := by
  simp only [bits8, tab_get, hi, if_true]

theorem bits8_drop (x i : Nat) (hi : i < 8) :
    (bits8 x).drop i = (if (x &&& (128 >>> i)) != 0 then 1 else 0) :: (bits8 x).drop (i + 1) := by
  have h := bits8_getElem x i hi
  have hl : i < (bits8 x).length := by rw [bits8_length]; exact hi
  rw [List.getElem?_eq_getElem hl] at h
  rw [List.drop_eq_getElem_cons hl]
  congr 1
  exact Option.some.inj h

/-- One call of `next_bit` on an active, aligned reader returns the next bit of the stream. -/
theorem next_bit_stream (d : Decoder) (b : Nat) (bs : List Nat) (h : Stream d (b :: bs)) :
    d.stream_is_active = true ∧ (d.next_bit).1 = (b != 0) ∧ Stream (d.next_bit).2 bs
      ∧ (d.next_bit).2.tree = d.tree ∧ (d.next_bit).2.adapter = d.adapter
      ∧ (d.next_bit).2.fout = d.fout := by
  obtain ⟨hmod, hi, h⟩ := h
  rcases h with ⟨_, hact, hmask, hpend⟩ | ⟨hnil, _⟩
  swap
  · exact absurd hnil (List.cons_ne_nil _ _)
  rw [bits8_drop _ _ hi, List.cons_append] at hpend
  have hb := (List.cons.inj hpend).1
  have hbs := (List.cons.inj hpend).2
  have hbit : (d.next_bit).1 = (b != 0) := by
    simp only [Decoder.next_bit, hmask, ← hb]
    by_cases hz : (d.current_byte &&& 128 >>> d.cnt.i) = 0
    · simp [hz]
    · simp [hz]
  refine ⟨hact, hbit, ?_⟩
  by_cases h7 : d.cnt.i < 7
  · have hinc : ((d.cnt.i + 1) % 256) % 8 = d.cnt.i + 1 := by omega
    refine ⟨⟨by simp [Decoder.next_bit, h7, counter.inc, hmod], ?_, ?_⟩, ?_, ?_, ?_⟩
    · simp only [Decoder.next_bit, h7, if_true, counter.inc, hmod, hinc]; omega
    · left
      refine ⟨?_, ?_, ?_, ?_⟩
      · rw [← hbs]
        intro hnil
        have := congrArg List.length hnil
        simp [bits8_length] at this
        omega
      · simp [Decoder.next_bit, h7, hact]
      · simp only [Decoder.next_bit, h7, if_true, counter.inc, hmod, hinc, hmask,
          Nat.shiftRight_add]
      · simp only [Decoder.next_bit, h7, if_true, counter.inc, hmod, hinc]
        exact hbs
    · simp [Decoder.next_bit, h7]
    · simp [Decoder.next_bit, h7]
    · simp [Decoder.next_bit, h7]
  · have hi7 : d.cnt.i = 7 := by omega
    have hdrop : (bits8 d.current_byte).drop (d.cnt.i + 1) = [] := by
      apply List.drop_of_length_le; rw [bits8_length]; omega
    rw [hdrop, List.nil_append] at hbs
    cases hfin : d.fin with
    | nil =>
      rw [hfin] at hbs
      refine ⟨⟨by simp [Decoder.next_bit, h7, hfin, counter.inc, hmod], ?_, ?_⟩, ?_, ?_, ?_⟩
      · simp [Decoder.next_bit, h7, hfin, counter.inc, hmod, hi7]
      · right
        refine ⟨by rw [← hbs]; rfl, ?_⟩
        simp [Decoder.next_bit, h7, hfin]
      · simp [Decoder.next_bit, h7, hfin]
      · simp [Decoder.next_bit, h7, hfin]
      · simp [Decoder.next_bit, h7, hfin]
    | cons c rest =>
      rw [hfin] at hbs
      refine ⟨⟨by simp [Decoder.next_bit, h7, hfin, counter.inc, hmod], ?_, ?_⟩, ?_, ?_, ?_⟩
      · simp [Decoder.next_bit, h7, hfin, counter.inc, hmod, hi7]
      · left
        refine ⟨?_, ?_, ?_, ?_⟩
        · rw [← hbs]
          intro hnil
          have := congrArg List.length hnil
          simp [bytesToBits, bits8_length] at this
        · simp [Decoder.next_bit, h7, hfin, hact]
        · simp [Decoder.next_bit, h7, hfin, counter.inc, hmod, hi7]
        · simpa [Decoder.next_bit, h7, hfin, counter.inc, hmod, hi7, bytesToBits] using hbs
      · simp [Decoder.next_bit, h7, hfin]
      · simp [Decoder.next_bit, h7, hfin]
      · simp [Decoder.next_bit, h7, hfin]

theorem next_bit_zero (d : Decoder) (h : ZeroTail d) :
    (d.next_bit).1 = false ∧ ZeroTail (d.next_bit).2
      ∧ (d.next_bit).2.tree = d.tree ∧ (d.next_bit).2.adapter = d.adapter
      ∧ (d.next_bit).2.fout = d.fout := by
  obtain ⟨hmod, hi, hfin, hz⟩ := h
  have h0 := hz 0
  simp only [Nat.shiftRight_zero] at h0
  have hlt : ((d.cnt.i + 1) % 256) % 8 < 8 := Nat.mod_lt _ (by norm_num)
  refine ⟨by simp [Decoder.next_bit, h0], ?_, ?_, ?_, ?_⟩
  · by_cases h7 : d.cnt.i < 7
    · refine ⟨by simp [Decoder.next_bit, h7, counter.inc, hmod], ?_, ?_, ?_⟩
      · simp only [Decoder.next_bit, h7, if_true, counter.inc, hmod]; exact hlt
      · simp [Decoder.next_bit, h7, hfin]
      · intro j
        have := hz (1 + j)
        simpa [Decoder.next_bit, h7, Nat.shiftRight_add] using this
    · refine ⟨by simp [Decoder.next_bit, h7, hfin, counter.inc, hmod], ?_, ?_, ?_⟩
      · simp only [Decoder.next_bit, h7, if_false, hfin, counter.inc, hmod]; exact hlt
      · simp [Decoder.next_bit, h7, hfin]
      · intro j
        simpa [Decoder.next_bit, h7, hfin] using hz j
  · by_cases h7 : d.cnt.i < 7 <;> simp [Decoder.next_bit, h7, hfin]
  · by_cases h7 : d.cnt.i < 7 <;> simp [Decoder.next_bit, h7, hfin]
  · by_cases h7 : d.cnt.i < 7 <;> simp [Decoder.next_bit, h7, hfin]

set_option maxRecDepth 100000 in
theorem val8_bits8 : ∀ c, c < 256 → val8 (bits8 c) = c := by
  decide

theorem stream_zero_tail (d : Decoder) (p : Nat) (h : Stream d (List.replicate p 0))
    (hp1 : 1 ≤ p) (hp7 : p ≤ 7) : ZeroTail d := by
  obtain ⟨hmod, hi, h⟩ := h
  rcases h with ⟨_, _, hmask, hpend⟩ | ⟨hnil, _⟩
  swap
  · have := congrArg List.length hnil
    simp at this
    omega
  have hlen := congrArg List.length hpend
  simp only [List.length_append, List.length_drop, bits8_length, bytesToBits_length,
    List.length_replicate] at hlen
  have hfin : d.fin = [] := by
    apply List.length_eq_zero.mp
    omega
  rw [hfin] at hpend
  simp only [bytesToBits, List.append_nil] at hpend
  refine ⟨hmod, hi, hfin, ?_⟩
  intro j
  rw [hmask, ← Nat.shiftRight_add]
  by_cases hj : d.cnt.i + j < 8
  · have h1 := bits8_getElem d.current_byte (d.cnt.i + j) hj
    have h2 : (List.drop d.cnt.i (bits8 d.current_byte))[j]? = some 0 := by
      rw [hpend, List.getElem?_replicate]
      have : j < p := by omega
      simp [this]
    rw [List.getElem?_drop, h1] at h2
    by_cases hz : (d.current_byte &&& 128 >>> (d.cnt.i + j)) = 0
    · exact hz
    · simp [hz] at h2
  · have : 128 >>> (d.cnt.i + j) = 0 := by
      rw [Nat.shiftRight_eq_div_pow]
      apply Nat.div_eq_of_lt
      calc 128 < 2 ^ 8 := by norm_num
        _ ≤ 2 ^ (d.cnt.i + j) := Nat.pow_le_pow_right (by norm_num) (by omega)
    rw [this, Nat.and_zero]

theorem read_literal_stream : ∀ (bs : List Nat) (d : Decoder) (acc : Nat) (rest : List Nat),
    (∀ b ∈ bs, b < 2) → Stream d (bs ++ rest) →
    (Decoder.read_literal bs.length d acc).1
        = bs.foldl (fun a b => ((a <<< 1) % 256) ||| b) acc
      ∧ Stream (Decoder.read_literal bs.length d acc).2 rest
      ∧ (Decoder.read_literal bs.length d acc).2.tree = d.tree
      ∧ (Decoder.read_literal bs.length d acc).2.adapter = d.adapter
      ∧ (Decoder.read_literal bs.length d acc).2.fout = d.fout := by
  intro bs
  induction bs with
  | nil =>
    intro d acc rest _ h
    exact ⟨rfl, h, rfl, rfl, rfl⟩
  | cons b bs ih =>
    intro d acc rest hb h
    have hb1 : b < 2 := hb b (List.mem_cons_self _ _)
    have hrest : ∀ x ∈ bs, x < 2 := fun x hx => hb x (List.mem_cons_of_mem _ hx)
    obtain ⟨_, h1, h2, h3, h4, h5⟩ := next_bit_stream d b (bs ++ rest) h
    have hbit : (if (d.next_bit).1 = true then 1 else 0) = b := by
      rw [h1]
      rcases Nat.lt_succ_iff_lt_or_eq.mp hb1 with h0 | h0
      · have : b = 0 := by omega
        subst this; rfl
      · subst h0; rfl
    obtain ⟨i1, i2, i3, i4, i5⟩ := ih (d.next_bit).2 (((acc <<< 1) % 256) ||| b) rest hrest h2
    simp only [List.length_cons, Decoder.read_literal, hbit, List.foldl_cons]
    exact ⟨i1, i2, i3.trans h3, i4.trans h4, i5.trans h5⟩

theorem read_literal_zero : ∀ (n : Nat) (d : Decoder), ZeroTail d →
    (Decoder.read_literal n d 0).1 = 0
      ∧ (Decoder.read_literal n d 0).2.tree = d.tree
      ∧ (Decoder.read_literal n d 0).2.adapter = d.adapter
      ∧ (Decoder.read_literal n d 0).2.fout = d.fout := by
  intro n
  induction n with
  | zero => intro d _; exact ⟨rfl, rfl, rfl, rfl⟩
  | succ n ih =>
    intro d h
    obtain ⟨h1, h2, h3, h4, h5⟩ := next_bit_zero d h
    obtain ⟨i1, i3, i4, i5⟩ := ih (d.next_bit).2 h2
    have e : ((0 <<< 1) % 256) ||| (if (d.next_bit).1 = true then 1 else 0) = 0 := by
      rw [h1]; rfl
    simp only [Decoder.read_literal, e]
    exact ⟨i1, i3.trans h3, i4.trans h4, i5.trans h5⟩

theorem getD_indexOf (ss : List Nat) (s : Nat) (h : s ∈ ss) : ss.getD (ss.indexOf s) 0 = s := by
  have hidx : ss.indexOf s < ss.length := List.indexOf_lt_length.mpr h
  rw [List.getD_eq_getElem?_getD, List.getElem?_eq_getElem hidx]
  simp

theorem zero_tail_congr (d d1 : Decoder)
    (h2 : d1.position_mask = d.position_mask)
    (h3 : d1.cnt = d.cnt) (h4 : d1.current_byte = d.current_byte) (h5 : d1.fin = d.fin)
    (h : ZeroTail d) : ZeroTail d1 := by
  unfold ZeroTail at h ⊢
  rw [h2, h3, h4, h5]
  exact h

/-- Zero bits move the adapter down the spine without resolving while the escape
leaf is not reached. -/
theorem loop_descend (fuel : Nat) (ss : List Nat) (c : Nat → Nat) :
    ∀ (a j n : Nat) (d : Decoder) (rest : List Nat), d.tree = combTree ss c →
      d.adapter = some (2 * j) → j + a < ss.length → Stream d (List.replicate a 0 ++ rest) →
      ∃ d1, Decoder.loop fuel (n + a) d = Decoder.loop fuel n d1 ∧ d1.tree = combTree ss c
        ∧ d1.adapter = some (2 * (j + a)) ∧ d1.fout = d.fout ∧ Stream d1 rest
        ∧ (ZeroTail d → ZeroTail d1) := by
  intro a
  induction a with
  | zero =>
    intro j n d rest ht ha _ hs
    exact ⟨d, rfl, ht, ha, rfl, by simpa using hs, fun h => h⟩
  | succ a ih =>
    intro j n d rest ht ha hj hs
    rw [List.replicate_succ, List.cons_append] at hs
    obtain ⟨hact, hbit, hst, h3, h4, h5⟩ := next_bit_stream d 0 _ hs
    have hmove := comb_move_left ss c j (by omega)
    have hdec : decide (j + 1 = ss.length) = false := by
      rw [decide_eq_false_iff_not]; omega
    rw [hdec] at hmove
    have hbit0 : (d.next_bit).1 = false := by rw [hbit]; rfl
    obtain ⟨d1, i1, i2, i3, i4, i5, i6⟩ := ih (j + 1) n
      { (d.next_bit).2 with adapter := some (2 * j + 2) } rest (by simpa using h3.trans ht)
      (by simp; omega) (by omega) hst
    refine ⟨d1, ?_, i2, ?_, ?_, i5, ?_⟩
    rotate_left 3
    · intro hz
      exact i6 (zero_tail_congr _ _ rfl rfl rfl rfl (next_bit_zero d hz).2.1)
    · have e : n + (a + 1) = (n + a) + 1 := by omega
      have hm : adapter_move (d.next_bit).2.tree (d.next_bit).2.adapter (d.next_bit).1
          = some (some (2 * j + 2), false) := by
        rw [h3, h4, ht, ha, hbit0]; exact hmove
      rw [e, Decoder.loop]
      simp only [hact, if_true, hm]
      exact i1
    · rw [i3]; congr 1; omega
    · rw [i4]; exact h5

theorem loop_inactive (fuel n : Nat) (d : Decoder) (h : d.stream_is_active = false) :
    Decoder.loop fuel (n + 1) d = some d := by
  rw [Decoder.loop]
  simp [h]

theorem combTree_root (ss : List Nat) (c : Nat → Nat) : (combTree ss c).root = 0 := rfl

theorem stream_congr (d d1 : Decoder) (bs : List Nat)
    (h1 : d1.stream_is_active = d.stream_is_active) (h2 : d1.position_mask = d.position_mask)
    (h3 : d1.cnt = d.cnt) (h4 : d1.current_byte = d.current_byte) (h5 : d1.fin = d.fin)
    (h : Stream d bs) : Stream d1 bs := by
  unfold Stream at h ⊢
  rw [h1, h2, h3, h4, h5]
  exact h

/-- The part of `resolve` after the symbol has been fixed: `tree.insert(symbol)` and
`adapter.rewind()`. -/
theorem resolve_finish_at (fuel : Nat) (s : Nat) (e : Decoder) (t1 : Huffman_Tree)
    (hins : insert fuel e.tree s = some t1) :
    ∃ d2, ((insert fuel e.tree s).bind fun t =>
          some ({ e with tree := t, adapter := some t.root } : Decoder)) = some d2
      ∧ d2.tree = t1 ∧ d2.adapter = some t1.root ∧ d2.fout = e.fout
      ∧ d2.stream_is_active = e.stream_is_active ∧ d2.position_mask = e.position_mask
      ∧ d2.cnt = e.cnt ∧ d2.current_byte = e.current_byte ∧ d2.fin = e.fin := by
  rw [hins]
  exact ⟨_, rfl, rfl, rfl, rfl, rfl, rfl, rfl, rfl, rfl⟩

theorem resolve_finish (fuel : Nat) (hf : 257 ≤ fuel) (ss : List Nat) (c : Nat → Nat)
    (n : Nat) (hn : ss.Nodup) (hb : ∀ x ∈ ss, x < 256) (w : Weights ss.length c n)
    (hlt : n + 1 < UINT) (s : Nat) (hs : s < 256) (e : Decoder) (ht : e.tree = combTree ss c) :
    ∃ d2, ((insert fuel e.tree s).bind fun t =>
          some ({ e with tree := t, adapter := some t.root } : Decoder)) = some d2
      ∧ d2.tree = combTree (observe ss s) (bump ((observe ss s).indexOf s) c)
      ∧ d2.adapter = some 0 ∧ d2.fout = e.fout
      ∧ d2.stream_is_active = e.stream_is_active ∧ d2.position_mask = e.position_mask
      ∧ d2.cnt = e.cnt ∧ d2.current_byte = e.current_byte ∧ d2.fin = e.fin := by
  obtain ⟨h3, _⟩ := comb_insert ss c n s hn hb w hs hlt fuel hf
  rw [ht, h3]
  exact ⟨_, rfl, rfl, rfl, rfl, rfl, rfl, rfl, rfl, rfl⟩

/-- Resolving at a leaf writes its symbol and inserts it. -/
theorem resolve_symbol_at (fuel : Nat) (d : Decoder) (s : Nat) (t1 : Huffman_Tree)
    (h1 : adapter_is_symbol_code d.tree d.adapter = some true)
    (h2 : adapter_get_symbol d.tree d.adapter = some s)
    (hins : insert fuel d.tree s = some t1) (rest : List Nat) (hst : Stream d rest) :
    ∃ d2, Decoder.resolve fuel d = some d2 ∧ d2.tree = t1 ∧ d2.adapter = some t1.root
      ∧ d2.fout = d.fout ++ [s] ∧ Stream d2 rest := by
  obtain ⟨d2, g1, g2, g3, g4, g5, g6, g7, g8, g9⟩ := resolve_finish_at fuel s
    { d with fout := d.fout ++ [s] } t1 hins
  refine ⟨d2, ?_, g2, g3, g4, stream_congr _ _ _ g5 g6 g7 g8 g9 hst⟩
  simp only [Decoder.resolve, h1, h2, Option.bind_eq_bind, Option.some_bind, if_true]
  exact g1

/-- Resolving at the leaf of an observed symbol of a comb writes it and inserts it. -/
theorem resolve_symbol (fuel : Nat) (ss : List Nat) (c : Nat → Nat)
    (hb : ∀ x ∈ ss, x < 256) (s : Nat) (hmem : s ∈ ss) (d : Decoder) (t1 : Huffman_Tree)
    (ht : d.tree = combTree ss c) (ha : d.adapter = some (2 * ss.indexOf s + 1))
    (hins : insert fuel (combTree ss c) s = some t1)
    (rest : List Nat) (hst : Stream d rest) :
    ∃ d2, Decoder.resolve fuel d = some d2 ∧ d2.tree = t1 ∧ d2.adapter = some t1.root
      ∧ d2.fout = d.fout ++ [s] ∧ Stream d2 rest := by
  have hidx : ss.indexOf s < ss.length := List.indexOf_lt_length.mpr hmem
  obtain ⟨h1, h2⟩ := comb_leaf_symbol ss c (ss.indexOf s) hidx hb
  rw [getD_indexOf ss s hmem] at h2
  exact resolve_symbol_at fuel d s t1 (by rw [ht, ha]; exact h1) (by rw [ht, ha]; exact h2)
    (by rw [ht]; exact hins) rest hst

/-- Resolving at the escape leaf when the literal read is the nonzero byte `s`. -/
theorem resolve_nonzero (fuel : Nat) (ss : List Nat) (c : Nat → Nat)
    (s : Nat) (hs : s < 256) (hs0 : s ≠ 0) (d : Decoder) (t1 : Huffman_Tree)
    (ht : d.tree = combTree ss c) (ha : d.adapter = some (2 * ss.length))
    (hins : insert fuel (combTree ss c) s = some t1)
    (rest : List Nat) (hst : Stream d (bits8 s ++ rest)) :
    ∃ d2, Decoder.resolve fuel d = some d2 ∧ d2.tree = t1 ∧ d2.adapter = some t1.root
      ∧ d2.fout = d.fout ++ [s] ∧ Stream d2 rest := by
  have hr := read_literal_stream (bits8 s) d 0 rest (bits8_bit s) hst
  rw [bits8_length] at hr
  obtain ⟨r1, r2, r3, r4, r5⟩ := hr
  have hv : (Decoder.read_literal 8 d 0).1 = s := by
    rw [r1]; exact val8_bits8 s hs
  have hnot := comb_escape_not_symbol ss c
  unfold Decoder.resolve
  rw [ht, ha, hnot]
  simp only [Option.bind_eq_bind, Option.some_bind, Bool.false_eq_true, if_false]
  generalize Decoder.read_literal 8 d 0 = r at hv r2 r3 r4 r5
  obtain ⟨sym, e⟩ := r
  simp only at hv r2 r3 r4 r5
  subst hv
  simp only [ne_eq, hs0, not_false_eq_true, if_true, Option.some_bind]
  obtain ⟨d2, g1, g2, g3, g4, g5, g6, g7, g8, g9⟩ := resolve_finish_at fuel sym
    { e with fout := e.fout ++ [sym] } t1 (by rw [← ht] at hins; rw [← r3] at hins; exact hins)
  refine ⟨d2, g1, g2, g3, by rw [g4, ← r5], stream_congr _ _ _ g5 g6 g7 g8 g9 r2⟩

/-- Resolving at the escape leaf when the literal read is zero: nothing is written
and the stream is stopped. -/
theorem resolve_zero (fuel : Nat) (hf : 257 ≤ fuel) (ss : List Nat) (c : Nat → Nat)
    (n : Nat) (hn : ss.Nodup) (hb : ∀ x ∈ ss, x < 256) (w : Weights ss.length c n)
    (hlt : n + 1 < UINT) (d : Decoder)
    (ht : d.tree = combTree ss c) (ha : d.adapter = some (2 * ss.length))
    (hv : (Decoder.read_literal 8 d 0).1 = 0)
    (r3 : (Decoder.read_literal 8 d 0).2.tree = d.tree)
    (r5 : (Decoder.read_literal 8 d 0).2.fout = d.fout) :
    ∃ d2, Decoder.resolve fuel d = some d2 ∧ d2.fout = d.fout
      ∧ d2.stream_is_active = false := by
  have hnot := comb_escape_not_symbol ss c
  unfold Decoder.resolve
  rw [ht, ha, hnot]
  simp only [Option.bind_eq_bind, Option.some_bind, Bool.false_eq_true, if_false]
  generalize Decoder.read_literal 8 d 0 = r at hv r3 r5
  obtain ⟨sym, e⟩ := r
  simp only at hv r3 r5
  subst hv
  simp only [ne_eq, not_true_eq_false, if_false, Option.some_bind]
  obtain ⟨d2, g1, g2, g3, g4, g5, g6, g7, g8, g9⟩ := resolve_finish fuel hf ss c n hn hb w hlt
    0 (by norm_num) { e with stream_is_active := false } (r3.trans ht)
  exact ⟨d2, g1, by rw [g4, ← r5], by rw [g5]⟩

/-- Decoding the code of an observed symbol. -/
theorem decode_known (fuel : Nat) (ss : List Nat) (c : Nat → Nat)
    (hb : ∀ x ∈ ss, x < 256) (s : Nat) (hmem : s ∈ ss) (d : Decoder) (k : Nat)
    (t1 : Huffman_Tree) (hins : insert fuel (combTree ss c) s = some t1)
    (ht : d.tree = combTree ss c) (ha : d.adapter = some 0) (rest : List Nat)
    (hst : Stream d (List.replicate (ss.indexOf s) 0 ++ [1] ++ rest)) :
    ∃ d2, Decoder.loop fuel (k + (ss.indexOf s + 1)) d = Decoder.loop fuel k d2
      ∧ d2.tree = t1 ∧ d2.adapter = some t1.root
      ∧ d2.fout = d.fout ++ [s] ∧ Stream d2 rest := by
  have hidx : ss.indexOf s < ss.length := List.indexOf_lt_length.mpr hmem
  rw [List.append_assoc] at hst
  obtain ⟨d1, i1, i2, i3, i4, i5, _⟩ := loop_descend fuel ss c (ss.indexOf s) 0 (k + 1) d
    ([1] ++ rest) ht (by simpa using ha) (by omega) hst
  obtain ⟨hact, hbit, hst2, h3, h4, h5⟩ := next_bit_stream d1 1 rest i5
  have hbit1 : (d1.next_bit).1 = true := by rw [hbit]; rfl
  have hmove := comb_move_right ss c (ss.indexOf s) hidx hb
  have hm : adapter_move (d1.next_bit).2.tree (d1.next_bit).2.adapter (d1.next_bit).1
      = some (some (2 * ss.indexOf s + 1), true) := by
    rw [h3, h4, i2, i3, hbit1]
    simpa using hmove
  obtain ⟨d2, g1, g2, g3, g4, g5⟩ := resolve_symbol fuel ss c hb s hmem
    { (d1.next_bit).2 with adapter := some (2 * ss.indexOf s + 1) } t1
    (h3.trans i2) rfl hins rest
    (stream_congr _ _ _ rfl rfl rfl rfl rfl hst2)
  refine ⟨d2, ?_, g2, g3, ?_, g5⟩
  · have e : k + (ss.indexOf s + 1) = (k + 1) + ss.indexOf s := by omega
    rw [e, i1, Decoder.loop]
    simp only [hact, if_true, hm, g1]
  · rw [g4]
    show (d1.next_bit).2.fout ++ [s] = d.fout ++ [s]
    rw [h5, i4]

/-- The adapter reaches the escape leaf on the last of `ss.length` zero bits. -/
theorem decode_escape (fuel : Nat) (ss : List Nat) (c : Nat → Nat) (hne : ss ≠ [])
    (d : Decoder) (k : Nat) (ht : d.tree = combTree ss c) (ha : d.adapter = some 0)
    (rest : List Nat) (hst : Stream d (List.replicate ss.length 0 ++ rest)) :
    ∃ d1, Decoder.loop fuel (k + ss.length) d
        = (Decoder.resolve fuel d1).bind (fun d2 => Decoder.loop fuel k d2)
      ∧ d1.tree = combTree ss c ∧ d1.adapter = some (2 * ss.length) ∧ d1.fout = d.fout
      ∧ Stream d1 rest ∧ (ZeroTail d → ZeroTail d1) := by
  have hpos : 0 < ss.length := List.length_pos.mpr hne
  obtain ⟨m, hm⟩ : ∃ m, ss.length = m + 1 := ⟨ss.length - 1, by omega⟩
  rw [hm, List.replicate_succ', List.append_assoc] at hst
  obtain ⟨d1, i1, i2, i3, i4, i5, i6⟩ := loop_descend fuel ss c m 0 (k + 1) d
    ([0] ++ rest) ht (by simpa using ha) (by omega) hst
  obtain ⟨hact, hbit, hst2, h3, h4, h5⟩ := next_bit_stream d1 0 rest i5
  have hbit0 : (d1.next_bit).1 = false := by rw [hbit]; rfl
  have hmove := comb_move_left ss c m (by omega)
  have hdec : decide (m + 1 = ss.length) = true := by
    rw [decide_eq_true_iff]; omega
  rw [hdec] at hmove
  have hmv : adapter_move (d1.next_bit).2.tree (d1.next_bit).2.adapter (d1.next_bit).1
      = some (some (2 * m + 2), true) := by
    rw [h3, h4, i2, i3, hbit0]
    simpa using hmove
  refine ⟨{ (d1.next_bit).2 with adapter := some (2 * m + 2) }, ?_, h3.trans i2, ?_, ?_,
    stream_congr _ _ _ rfl rfl rfl rfl rfl hst2, ?_⟩
  · have e : k + ss.length = (k + 1) + m := by omega
    rw [e, i1, Decoder.loop]
    simp only [hact, if_true, hmv]
    cases Decoder.resolve fuel { (d1.next_bit).2 with adapter := some (2 * m + 2) } <;> rfl
  · show some (2 * m + 2) = some (2 * ss.length)
    rw [hm]
    rfl
  · show (d1.next_bit).2.fout = d.fout
    rw [h5, i4]
  · intro hz
    exact zero_tail_congr _ _ rfl rfl rfl rfl (next_bit_zero d1 (i6 hz)).2.1

/-- Decoding the escape code followed by the eight raw bits of a nonzero byte. -/
theorem decode_new (fuel : Nat) (ss : List Nat) (c : Nat → Nat)
    (hne : ss ≠ []) (s : Nat) (hs : s < 256) (hs0 : s ≠ 0)
    (d : Decoder) (k : Nat) (t1 : Huffman_Tree)
    (hins : insert fuel (combTree ss c) s = some t1)
    (ht : d.tree = combTree ss c) (ha : d.adapter = some 0)
    (rest : List Nat) (hst : Stream d (List.replicate ss.length 0 ++ bits8 s ++ rest)) :
    ∃ d2, Decoder.loop fuel (k + ss.length) d = Decoder.loop fuel k d2
      ∧ d2.tree = t1 ∧ d2.adapter = some t1.root ∧ d2.fout = d.fout ++ [s]
      ∧ Stream d2 rest := by
  rw [List.append_assoc] at hst
  obtain ⟨d1, i1, i2, i3, i4, i5, _⟩ := decode_escape fuel ss c hne d k ht ha _ hst
  obtain ⟨d2, g1, g2, g3, g4, g5⟩ := resolve_nonzero fuel ss c s hs hs0 d1 t1
    i2 i3 hins rest i5
  refine ⟨d2, ?_, g2, g3, by rw [g4, i4], g5⟩
  rw [i1, g1]
  rfl

/-- The escape code followed by eight zero bits stops the decoder with nothing written. -/
theorem decode_sentinel (fuel : Nat) (hf : 257 ≤ fuel) (ss : List Nat) (c : Nat → Nat)
    (n : Nat) (hn : ss.Nodup) (hb : ∀ x ∈ ss, x < 256) (w : Weights ss.length c n)
    (hlt : n + 1 < UINT) (hne : ss ≠ []) (d : Decoder) (k : Nat)
    (ht : d.tree = combTree ss c) (ha : d.adapter = some 0)
    (rest : List Nat) (hst : Stream d (List.replicate ss.length 0 ++ bits8 0 ++ rest)) :
    ∃ d2, Decoder.loop fuel (k + 1 + ss.length) d = some d2 ∧ d2.fout = d.fout := by
  rw [List.append_assoc] at hst
  obtain ⟨d1, i1, i2, i3, i4, i5, _⟩ := decode_escape fuel ss c hne d (k + 1) ht ha _ hst
  have hr := read_literal_stream (bits8 0) d1 0 rest (bits8_bit 0) i5
  rw [bits8_length] at hr
  obtain ⟨r1, _, r3, _, r5⟩ := hr
  have hv : (Decoder.read_literal 8 d1 0).1 = 0 := by
    rw [r1]; exact val8_bits8 0 (by norm_num)
  obtain ⟨d2, g1, g2, g3⟩ := resolve_zero fuel hf ss c n hn hb w hlt d1 i2 i3 hv r3 r5
  refine ⟨d2, ?_, by rw [g2, i4]⟩
  rw [i1, g1]
  exact loop_inactive fuel k d2 g3

/-- Zero padding after the last code: the decoder stops with nothing more written. -/
theorem decode_padding (fuel : Nat) (hf : 257 ≤ fuel) (ss : List Nat) (c : Nat → Nat)
    (n : Nat) (hn : ss.Nodup) (hb : ∀ x ∈ ss, x < 256) (w : Weights ss.length c n)
    (hlt : n + 1 < UINT) (hne : ss ≠ []) (d : Decoder) (k p : Nat) (hp : p ≤ 7)
    (ht : d.tree = combTree ss c) (ha : d.adapter = some 0)
    (hst : Stream d (List.replicate p 0)) :
    ∃ d2, Decoder.loop fuel (k + 1 + p) d = some d2 ∧ d2.fout = d.fout := by
  rcases Nat.eq_zero_or_pos p with hp0 | hp0
  · subst hp0
    have hina : d.stream_is_active = false := by
      obtain ⟨_, _, h⟩ := hst
      rcases h with ⟨h1, _⟩ | ⟨_, h2⟩
      · exact absurd rfl h1
      · exact h2
    exact ⟨d, loop_inactive fuel k d hina, rfl⟩
  · by_cases hpk : p < ss.length
    · obtain ⟨d1, i1, _, _, i4, i5, _⟩ := loop_descend fuel ss c p 0 (k + 1) d [] ht
        (by simpa using ha) (by omega) (by simpa using hst)
      have hina : d1.stream_is_active = false := by
        obtain ⟨_, _, h⟩ := i5
        rcases h with ⟨h1, _⟩ | ⟨_, h2⟩
        · exact absurd rfl h1
        · exact h2
      exact ⟨d1, by rw [i1]; exact loop_inactive fuel k d1 hina, i4⟩
    · have hz : ZeroTail d := stream_zero_tail d p hst hp0 hp
      obtain ⟨q, hq⟩ : ∃ q, p = ss.length + q := ⟨p - ss.length, by omega⟩
      rw [hq, List.replicate_add] at hst
      obtain ⟨d1, i1, i2, i3, i4, i5, i6⟩ := decode_escape fuel ss c hne d (k + 1 + q) ht ha _ hst
      obtain ⟨r1, r3, _, r5⟩ := read_literal_zero 8 d1 (i6 hz)
      obtain ⟨d2, g1, g2, g3⟩ := resolve_zero fuel hf ss c n hn hb w hlt d1 i2 i3 r1 r3 r5
      refine ⟨d2, ?_, by rw [g2, i4]⟩
      have e : k + 1 + p = (k + 1 + q) + ss.length := by omega
      rw [e, i1, g1]
      have e2 : k + 1 + q = (k + q) + 1 := by omega
      rw [e2]
      exact loop_inactive fuel (k + q) d2 g3

theorem encBits_length_pos (ss : List Nat) (s : Nat) (rest : List Nat) :
    0 < (encBits ss (s :: rest)).length := by
  simp only [encBits, List.length_append]
  split
  · simp
  · simp [bits8_length]

/-- Round trip of the decoding loop: from a comb state, reading the bits `encBits ss xs`
followed by at most seven zero bits writes exactly `xs`. -/
theorem decode_rest (fuel : Nat) (hf : 257 ≤ fuel) :
    ∀ (xs ss : List Nat) (c : Nat → Nat) (n : Nat) (d : Decoder) (k p : Nat),
      ss.Nodup → (∀ x ∈ ss, x < 256) → Weights ss.length c n → ss ≠ [] →
      (∀ x ∈ xs, x < 256) → n + xs.length + 1 < UINT → (0 ∈ ss ∨ 0 ∉ xs) → p ≤ 7 →
      d.tree = combTree ss c → d.adapter = some 0 →
      Stream d (encBits ss xs ++ List.replicate p 0) →
      (encBits ss xs).length + p < k →
      ∃ d2, Decoder.loop fuel k d = some d2 ∧ d2.fout = d.fout ++ xs := by
  intro xs
  induction xs with
  | nil =>
    intro ss c n d k p hn hb w hne _ hlt _ hp ht ha hst hk
    simp only [encBits, List.nil_append, List.length_nil, Nat.zero_add] at hst hk
    obtain ⟨k0, rfl⟩ : ∃ k0, k = k0 + 1 + p := ⟨k - 1 - p, by omega⟩
    obtain ⟨d2, h1, h2⟩ := decode_padding fuel hf ss c n hn hb w (by omega) hne d k0 p hp ht ha
      hst
    exact ⟨d2, h1, by simpa using h2⟩
  | cons s rest ih =>
    intro ss c n d k p hn hb w hne hx hlt hz hp ht ha hst hk
    have hs : s < 256 := hx s (List.mem_cons_self _ _)
    have hrest : ∀ x ∈ rest, x < 256 := fun x h => hx x (List.mem_cons_of_mem _ h)
    simp only [List.length_cons] at hlt
    obtain ⟨hw1, hw2⟩ := comb_insert ss c n s hn hb w hs (by omega) fuel hf
    have hne2 : observe ss s ≠ [] := by
      intro h
      have : s ∈ observe ss s := (mem_observe ss s s).mpr (Or.inr rfl)
      rw [h] at this
      simp at this
    have hz2 : 0 ∈ observe ss s ∨ 0 ∉ rest := by
      rcases hz with hz | hz
      · exact Or.inl ((mem_observe ss s 0).mpr (Or.inl hz))
      · exact Or.inr (fun h => hz (List.mem_cons_of_mem _ h))
    simp only [encBits, List.append_assoc, List.length_append] at hst hk
    by_cases hmem : s ∈ ss
    · simp only [hmem, if_true, List.length_append, List.length_replicate,
        List.length_singleton] at hst hk
      have hobs : observe ss s = ss := by simp [observe, hmem]
      obtain ⟨k0, rfl⟩ : ∃ k0, k = k0 + (ss.indexOf s + 1) :=
        ⟨k - (ss.indexOf s + 1), by omega⟩
      rw [hobs] at hw1
      obtain ⟨d1, i1, i2, i3, i4, i5⟩ := decode_known fuel ss c hb s hmem
        d k0 _ hw1 ht ha _ (by simpa [List.append_assoc] using hst)
      rw [hobs] at hw2 hne2 hz2
      obtain ⟨d2, j1, j2⟩ := ih ss (bump (ss.indexOf s) c) (n + 1) d1 k0 p hn hb hw2 hne2
        hrest (by omega) hz2 hp i2 i3 (by rw [hobs] at i5; exact i5) (by rw [hobs] at hk; omega)
      exact ⟨d2, by rw [i1]; exact j1, by rw [j2, i4]; simp⟩
    · simp only [hmem, if_false, List.length_append, List.length_replicate, bits8_length]
        at hst hk
      have hs0 : s ≠ 0 := by
        intro h0
        subst h0
        rcases hz with hz | hz
        · exact hmem hz
        · exact hz (List.mem_cons_self _ _)
      obtain ⟨k0, rfl⟩ : ∃ k0, k = k0 + ss.length := ⟨k - ss.length, by omega⟩
      obtain ⟨d1, i1, i2, i3, i4, i5⟩ := decode_new fuel ss c hne s hs
        hs0 d k0 _ hw1 ht ha _ (by simpa [List.append_assoc] using hst)
      obtain ⟨d2, j1, j2⟩ := ih (observe ss s) (bump ((observe ss s).indexOf s) c) (n + 1) d1
        k0 p (observe_nodup ss s hn) (observe_bytes ss s hs hb) hw2 hne2 hrest (by omega) hz2
        hp i2 i3 i5 (by omega)
      exact ⟨d2, by rw [i1]; exact j1, by rw [j2, i4]; simp⟩

theorem bits8_inj (a b : Nat) (ha : a < 256) (hb : b < 256) (h : bits8 a = bits8 b) : a = b := by
  have := congrArg val8 h
  rwa [val8_bits8 a ha, val8_bits8 b hb] at this

theorem first_byte_split (out : List Nat) (x0 : Nat) (R : List Nat) (hx0 : x0 < 256)
    (hout : ∀ y ∈ out, y < 256) (h : bytesToBits out = bits8 x0 ++ R) :
    ∃ orest, out = x0 :: orest ∧ bytesToBits orest = R := by
  cases out with
  | nil =>
    have := congrArg List.length h
    simp [bytesToBits, bits8_length] at this
    omega
  | cons o0 orest =>
    simp only [bytesToBits] at h
    have hl : (bits8 o0).length = (bits8 x0).length := by rw [bits8_length, bits8_length]
    obtain ⟨h1, h2⟩ := List.append_inj h hl
    have := bits8_inj o0 x0 (hout o0 (List.mem_cons_self _ _)) hx0 h1
    subst this
    exact ⟨orest, rfl, h2⟩

theorem first_insert (fuel : Nat) (hf : 257 ≤ fuel) (x0 : Nat) (hx0 : x0 < 256) :
    insert fuel Huffman_Tree.fresh x0 = some (combTree [x0] (bump 0 (fun _ => 0)))
      ∧ Weights 1 (bump 0 (fun _ => 0)) 1 := by
  have h := comb_insert [] (fun _ => 0) 0 x0 List.nodup_nil (by intro y hy; simp at hy)
    weights_zero hx0 (by decide) fuel hf
  have hobs : observe [] x0 = [x0] := by simp [observe]
  rw [hobs] at h
  simpa [fresh_eq_comb] using h

theorem stream_start (t : Huffman_Tree) (a : Option Nat) (c2 : Nat) (rest2 fout : List Nat) :
    Stream { tree := t, adapter := a, delimiter_reached := false, stream_is_active := true,
             position_mask := 128, cnt := counter.new 8, current_byte := c2, fin := rest2,
             fout := fout } (bytesToBits (c2 :: rest2)) := by
  refine ⟨rfl, by simp [counter.new], Or.inl ⟨?_, rfl, rfl, ?_⟩⟩
  · intro h
    have := congrArg List.length h
    simp [bytesToBits, bits8_length] at this
  · simp [counter.new, bytesToBits]

/-- Round trip on byte sequences whose only possible zero byte problem is absent. -/
theorem roundtrip_cons (x0 : Nat) (rest : List Nat) (hx : ∀ b ∈ x0 :: rest, b < 256)
    (hz : x0 = 0 ∨ 0 ∉ rest) (hlen : (x0 :: rest).length + 1 < UINT)
    (fe : Nat) (hfe : 600 ≤ fe) :
    ∃ out, Encoder.Encoder fe (x0 :: rest) = some out
      ∧ ∀ fd, 8 * out.length + 257 ≤ fd → Decoder.Decoder fd out = some (x0 :: rest) := by
  have hx0 : x0 < 256 := hx x0 (List.mem_cons_self _ _)
  have hrest : ∀ b ∈ rest, b < 256 := fun b h => hx b (List.mem_cons_of_mem _ h)
  obtain ⟨out, p, h1, h2, h3, h4⟩ := encoder_spec (x0 :: rest) hx (List.cons_ne_nil _ _)
    (by omega) fe hfe
  have hobs : observe [] x0 = [x0] := by simp [observe]
  have hmem : x0 ∉ ([] : List Nat) := by simp
  simp only [encBits, hmem, if_false, List.length_nil, List.replicate_zero, List.nil_append,
    hobs, List.append_assoc] at h3
  obtain ⟨orest, rfl, h5⟩ := first_byte_split out x0 _ hx0 h4 h3
  refine ⟨x0 :: orest, h1, ?_⟩
  intro fd hfd
  obtain ⟨hi, hw⟩ := first_insert fd (by omega) x0 hx0
  simp only [List.length_cons] at hfd hlen
  cases orest with
  | nil =>
    have hnil : rest = [] := by
      cases rest with
      | nil => rfl
      | cons s r =>
        have hpos := encBits_length_pos [x0] s r
        have := congrArg List.length h5
        simp [bytesToBits] at this
        omega
    subst hnil
    simp [Decoder.Decoder, hi]
  | cons c2 rest2 =>
    have hst := stream_start (combTree [x0] (bump 0 (fun _ => 0))) (some 0) c2 rest2 [x0]
    rw [h5] at hst
    have hlen5 := congrArg List.length h5
    simp only [bytesToBits_length, List.length_cons, List.length_append,
      List.length_replicate] at hlen5 hfd
    obtain ⟨d2, j1, j2⟩ := decode_rest fd (by omega) rest [x0] (bump 0 (fun _ => 0)) 1 _ fd p
      (List.nodup_singleton x0) (by intro y hy; simp at hy; omega) hw (List.cons_ne_nil _ _)
      hrest (by omega)
      (by rcases hz with hz | hz
          · left; simp [hz]
          · right; exact hz)
      h2 rfl rfl hst (by omega)
    simp only [Decoder.Decoder, hi, Option.bind_eq_bind, Option.some_bind, combTree_root, j1]
    rw [j2]
    rfl

/-- Decoding up to the first zero byte that is a first occurrence: the bytes before
it are written, then the escape code and the literal zero stop the decoder. -/
theorem decode_until_zero (fuel : Nat) (hf : 257 ≤ fuel) :
    ∀ (pre ss : List Nat) (c : Nat → Nat) (n : Nat) (d : Decoder) (k : Nat)
      (post tail : List Nat),
      ss.Nodup → (∀ x ∈ ss, x < 256) → Weights ss.length c n → ss ≠ [] →
      (∀ x ∈ pre, x < 256) → n + pre.length + 1 < UINT → 0 ∉ ss → 0 ∉ pre →
      d.tree = combTree ss c → d.adapter = some 0 →
      Stream d (encBits ss (pre ++ 0 :: post) ++ tail) →
      (encBits ss (pre ++ 0 :: post)).length < k →
      ∃ d2, Decoder.loop fuel k d = some d2 ∧ d2.fout = d.fout ++ pre := by
  intro pre
  induction pre with
  | nil =>
    intro ss c n d k post tail hn hb w hne _ hlt hz _ ht ha hst hk
    simp only [List.nil_append, encBits, hz, if_false, List.append_assoc, List.length_append,
      List.length_replicate, bits8_length] at hst hk
    obtain ⟨k0, rfl⟩ : ∃ k0, k = k0 + 1 + ss.length := ⟨k - 1 - ss.length, by omega⟩
    obtain ⟨d2, h1, h2⟩ := decode_sentinel fuel hf ss c n hn hb w (by omega) hne d k0 ht ha _
      (by simpa [List.append_assoc] using hst)
    exact ⟨d2, h1, by simpa using h2⟩
  | cons s rest ih =>
    intro ss c n d k post tail hn hb w hne hx hlt hz hzp ht ha hst hk
    have hs : s < 256 := hx s (List.mem_cons_self _ _)
    have hrest : ∀ x ∈ rest, x < 256 := fun x h => hx x (List.mem_cons_of_mem _ h)
    have hs0 : s ≠ 0 := fun h => hzp (by rw [h]; exact List.mem_cons_self _ _)
    have hzr : 0 ∉ rest := fun h => hzp (List.mem_cons_of_mem _ h)
    simp only [List.length_cons] at hlt
    obtain ⟨hw1, hw2⟩ := comb_insert ss c n s hn hb w hs (by omega) fuel hf
    have hne2 : observe ss s ≠ [] := by
      intro h
      have : s ∈ observe ss s := (mem_observe ss s s).mpr (Or.inr rfl)
      rw [h] at this
      simp at this
    have hz2 : 0 ∉ observe ss s := by
      intro h
      rcases (mem_observe ss s 0).mp h with h | h
      · exact hz h
      · exact hs0 h.symm
    simp only [List.cons_append, encBits, List.append_assoc, List.length_append,
      List.append_eq] at hst hk
    by_cases hmem : s ∈ ss
    · simp only [hmem, if_true, List.length_append, List.length_replicate,
        List.length_singleton] at hst hk
      have hobs : observe ss s = ss := by simp [observe, hmem]
      obtain ⟨k0, rfl⟩ : ∃ k0, k = k0 + (ss.indexOf s + 1) :=
        ⟨k - (ss.indexOf s + 1), by omega⟩
      rw [hobs] at hw1
      obtain ⟨d1, i1, i2, i3, i4, i5⟩ := decode_known fuel ss c hb s hmem
        d k0 _ hw1 ht ha _ (by simpa [List.append_assoc] using hst)
      rw [hobs] at hw2 hne2 hz2
      obtain ⟨d2, j1, j2⟩ := ih ss (bump (ss.indexOf s) c) (n + 1) d1 k0 post tail hn hb hw2
        hne2 hrest (by omega) hz2 hzr i2 i3 (by rw [hobs] at i5; exact i5)
        (by rw [hobs] at hk; omega)
      exact ⟨d2, by rw [i1]; exact j1, by rw [j2, i4]; simp⟩
    · simp only [hmem, if_false, List.length_append, List.length_replicate, bits8_length]
        at hst hk
      obtain ⟨k0, rfl⟩ : ∃ k0, k = k0 + ss.length := ⟨k - ss.length, by omega⟩
      obtain ⟨d1, i1, i2, i3, i4, i5⟩ := decode_new fuel ss c hne s hs
        hs0 d k0 _ hw1 ht ha _ (by simpa [List.append_assoc] using hst)
      obtain ⟨d2, j1, j2⟩ := ih (observe ss s) (bump ((observe ss s).indexOf s) c) (n + 1) d1
        k0 post tail (observe_nodup ss s hn) (observe_bytes ss s hs hb) hw2 hne2 hrest
        (by omega) hz2 hzr i2 i3 i5 (by omega)
      exact ⟨d2, by rw [i1]; exact j1, by rw [j2, i4]; simp⟩

/-- Sentinel collision: a zero byte that is a first occurrence after the first byte
ends the decoded output right before it. -/
theorem sentinel_cons (x0 : Nat) (pre post : List Nat)
    (hx : ∀ b ∈ x0 :: (pre ++ 0 :: post), b < 256) (hx0 : x0 ≠ 0) (hpre : 0 ∉ pre)
    (hlen : (x0 :: (pre ++ 0 :: post)).length < UINT) (fe : Nat) (hfe : 600 ≤ fe) :
    ∃ out, Encoder.Encoder fe (x0 :: (pre ++ 0 :: post)) = some out
      ∧ ∀ fd, 8 * out.length + 257 ≤ fd → Decoder.Decoder fd out = some (x0 :: pre) := by
  have hb0 : x0 < 256 := hx x0 (List.mem_cons_self _ _)
  have hbpre : ∀ b ∈ pre, b < 256 := fun b h =>
    hx b (List.mem_cons_of_mem _ (List.mem_append_left _ h))
  obtain ⟨out, p, h1, h2, h3, h4⟩ := encoder_spec _ hx (List.cons_ne_nil _ _) hlen fe hfe
  have hobs : observe [] x0 = [x0] := by simp [observe]
  have hmem : x0 ∉ ([] : List Nat) := by simp
  simp only [encBits, hmem, if_false, List.length_nil, List.replicate_zero, List.nil_append,
    hobs, List.append_assoc] at h3
  obtain ⟨orest, rfl, h5⟩ := first_byte_split out x0 _ hb0 h4 h3
  refine ⟨x0 :: orest, h1, ?_⟩
  intro fd hfd
  obtain ⟨hi, hw⟩ := first_insert fd (by omega) x0 hb0
  simp only [List.length_cons, List.length_append] at hlen
  have hpos : 0 < (encBits [x0] (pre ++ 0 :: post)).length := by
    cases pre with
    | nil => exact encBits_length_pos _ _ _
    | cons s r => exact encBits_length_pos _ _ _
  cases orest with
  | nil =>
    have := congrArg List.length h5
    simp [bytesToBits] at this
    omega
  | cons c2 rest2 =>
    have hst := stream_start (combTree [x0] (bump 0 (fun _ => 0))) (some 0) c2 rest2 [x0]
    rw [h5] at hst
    have hlen5 := congrArg List.length h5
    simp only [bytesToBits_length, List.length_cons, List.length_append,
      List.length_replicate] at hlen5 hfd
    obtain ⟨d2, j1, j2⟩ := decode_until_zero fd (by omega) pre [x0] (bump 0 (fun _ => 0)) 1 _
      fd post (List.replicate p 0)
      (List.nodup_singleton x0) (by intro y hy; simp at hy; omega) hw (List.cons_ne_nil _ _)
      hbpre (by omega) (by simp; exact fun h => hx0 h.symm) hpre rfl rfl hst (by omega)
    simp only [Decoder.Decoder, hi, Option.bind_eq_bind, Option.some_bind, combTree_root, j1]
    rw [j2]
    rfl

theorem rebalance_loop_mono (s : Nat) : ∀ (f : Nat) (t : Huffman_Tree) (cur : Nat)
    (r : Huffman_Tree), rebalance_loop s f t cur = some r →
    rebalance_loop s (f + 1) t cur = some r := by
  intro f
  induction f with
  | zero => intro t cur r h; simp [rebalance_loop] at h
  | succ f ih =>
    intro t cur r h
    rw [rebalance_loop] at h
    rw [rebalance_loop]
    by_cases hc : cur = t.root
    · simpa [hc] using h
    · simp only [hc, if_false] at h ⊢
      cases hd : getData t.symbols_in_stock s with
      | none => simp [hd] at h
      | some d =>
        simp only [hd] at h ⊢
        cases hi : d.iter with
        | none => simp [hi] at h
        | some iter =>
          simp only [hi] at h ⊢
          cases hg : rebalance_guard t iter with
          | none => simp [hg] at h
          | some g =>
            cases g with
            | true =>
              simp only [hg] at h ⊢
              cases hs : rebalance_swap t cur iter with
              | none => simp [hs] at h
              | some t2 =>
                simp only [hs] at h ⊢
                exact ih _ _ _ h
            | false =>
              simp only [hg] at h ⊢
              cases hs : rebalance_climb t cur with
              | none => simp [hs] at h
              | some p =>
                obtain ⟨t1, par⟩ := p
                simp only [hs] at h ⊢
                exact ih _ _ _ h

theorem rebalance_loop_mono_le (s : Nat) (f g : Nat) (hfg : f ≤ g) (t : Huffman_Tree)
    (cur : Nat) (r : Huffman_Tree) (h : rebalance_loop s f t cur = some r) :
    rebalance_loop s g t cur = some r := by
  induction hfg with
  | refl => exact h
  | step _ ih => exact rebalance_loop_mono s _ t cur r ih

theorem increase_mono (f g : Nat) (hfg : f ≤ g) (t : Huffman_Tree) (s : Nat) (r : Huffman_Tree)
    (h : increase_and_rebalance f t s = some r) : increase_and_rebalance g t s = some r := by
  simp only [increase_and_rebalance, Option.bind_eq_bind] at h ⊢
  cases hd : getData t.symbols_in_stock s with
  | none => simp [hd] at h
  | some d =>
    simp only [hd, Option.some_bind] at h ⊢
    cases hp : d.ptr with
    | none => simp [hp] at h
    | some cur =>
      simp only [hp, Option.some_bind] at h ⊢
      cases hl : rebalance_loop s f t cur with
      | none => simp [hl] at h
      | some t1 =>
        rw [rebalance_loop_mono_le s f g hfg t cur t1 hl]
        simpa [hl] using h

theorem insert_mono (f g : Nat) (hfg : f ≤ g) (t : Huffman_Tree) (s : Nat) (r : Huffman_Tree)
    (h : insert f t s = some r) : insert g t s = some r := by
  simp only [insert, Option.bind_eq_bind] at h ⊢
  cases hd : getData t.symbols_in_stock s with
  | none => simp [hd] at h
  | some d =>
    simp only [hd, Option.some_bind] at h ⊢
    by_cases he : d.exists_ = true
    · simp only [he, if_true, insert_existing] at h ⊢
      exact increase_mono f g hfg t s r h
    · simp only [he, if_false, insert_new, Option.bind_eq_bind] at h ⊢
      cases ha : attach_children t s ((t.current_empty_value + 1) % UINT) with
      | none => simp [ha] at h
      | some p1 =>
        obtain ⟨hp, ll⟩ := p1
        simp only [ha, Option.some_bind] at h ⊢
        cases hr : register_children t s ((t.current_empty_value + 1) % UINT) with
        | none => simp [hr] at h
        | some p2 =>
          obtain ⟨sis, l⟩ := p2
          simp only [hr, Option.some_bind] at h ⊢
          exact increase_mono f g hfg _ s r h

theorem insertAll_mono (f g : Nat) (hfg : f ≤ g) : ∀ (xs : List Nat) (t r : Huffman_Tree),
    insertAll f t xs = some r → insertAll g t xs = some r := by
  intro xs
  induction xs with
  | nil => intro t r h; exact h
  | cons s rest ih =>
    intro t r h
    simp only [insertAll, Option.bind_eq_bind] at h ⊢
    cases hi : insert f t s with
    | none => simp [hi] at h
    | some t1 =>
      rw [insert_mono f g hfg t s t1 hi]
      simp only [hi, Option.some_bind] at h ⊢
      exact ih t1 r h

theorem insertAll_append (fuel : Nat) : ∀ (xs ys : List Nat) (t : Huffman_Tree),
    insertAll fuel t (xs ++ ys) = (insertAll fuel t xs).bind (fun t1 => insertAll fuel t1 ys) := by
  intro xs
  induction xs with
  | nil => intro ys t; rfl
  | cons s rest ih =>
    intro ys t
    simp only [List.cons_append, insertAll, Option.bind_eq_bind]
    cases insert fuel t s with
    | none => rfl
    | some t1 => simp only [Option.some_bind]; exact ih ys t1

theorem firsts_replicate (s : Nat) : ∀ n, firsts [s] (List.replicate n s) = [s] := by
  intro n
  induction n with
  | zero => rfl
  | succ n ih =>
    simp only [List.replicate_succ, firsts]
    have : observe [s] s = [s] := by simp [observe]
    rw [this, ih]

theorem firsts_replicate_nil (s : Nat) (n : Nat) : firsts [] (List.replicate (n + 1) s) = [s] := by
  simp only [List.replicate_succ, firsts]
  have : observe [] s = [s] := by simp [observe]
  rw [this, firsts_replicate]

/-- The 2^32-th insert of one and the same byte: the counter of the root has reached
`2^32 - 1`, the guard of `increase_and_rebalance` wraps to `0 < count`, and the
backward scan steps before the first list entry. -/
theorem insert_wrap (fuel : Nat) (c : Nat → Nat) (s : Nat) (hs : s < 256)
    (h0 : c 0 = 4294967295) (h1 : c 1 = 4294967295) :
    insert fuel (combTree [s] c) s = none := by
  have hmem : s ∈ [s] := List.mem_singleton.mpr rfl
  have hidx : List.indexOf s [s] = 0 := by simp
  have hU : UINT = 4294967296 := rfl
  have e0 : entryCount (combTree [s] c) 0 = some 4294967295 := by
    rw [comb_entryCount _ _ _ (by simp), h0]
  have e1 : entryCount (combTree [s] c) 1 = some 4294967295 := by
    rw [comb_entryCount _ _ _ (by simp), h1]
  have hguard : rebalance_guard (combTree [s] c) 1 = some true := by
    have := comb_guard [s] c 0 (by simp)
    simp only [Nat.mul_zero, Nat.zero_add, h0, h1, hU] at this
    rw [this]
    rfl
  have hscan : scan_back (combTree [s] c) 1 = none := by
    simp only [scan_back, e0, e1, Option.bind_eq_bind, Option.some_bind, hU]
    rfl
  have hswap : rebalance_swap (combTree [s] c) 1 1 = none := by
    simp only [rebalance_swap, hscan, Option.bind_eq_bind, Option.none_bind]
  have hloop : rebalance_loop s fuel (combTree [s] c) 1 = none := by
    cases fuel with
    | zero => rfl
    | succ f =>
      rw [rebalance_loop]
      have hroot : (combTree [s] c).root = 0 := rfl
      simp only [hroot, comb_getData _ _ _ (show s < 513 by omega),
        combData_mem _ _ hs hmem, hidx, hguard, hswap]
      rfl
  simp only [insert, comb_getData _ _ _ (show s < 513 by omega), combData_mem _ _ hs hmem,
    hidx, Option.bind_eq_bind, Option.some_bind, Data.exists_, Option.isSome_some, if_true,
    insert_existing, increase_and_rebalance, hloop, Option.none_bind]

/-- State after `n + 1` inserts of one and the same byte `s`. -/
theorem replicate_state (fuel : Nat) (hf : 257 ≤ fuel) (s : Nat) (hs : s < 256) (n : Nat)
    (hn : n + 1 < UINT) :
    ∃ c, insertAll fuel Huffman_Tree.fresh (List.replicate (n + 1) s) = some (combTree [s] c)
      ∧ c 0 = n + 1 ∧ c 1 = n + 1 ∧ c 2 = 0 ∧ Weights 1 c (n + 1) := by
  obtain ⟨k1, _, _, k4⟩ := comb_insertAll fuel hf (List.replicate (n + 1) s)
    [] (fun _ => 0) 0 List.nodup_nil (by intro y hy; simp at hy) weights_zero
    (by intro x hx; rw [List.mem_replicate] at hx; omega)
    (by simp only [List.length_replicate]; omega)
  rw [firsts_replicate_nil] at k1 k4
  simp only [List.length_replicate, List.length_singleton, Nat.zero_add] at k4
  refine ⟨_, by rw [fresh_eq_comb]; exact k1, k4.root, ?_, k4.esc 2 (by omega), k4⟩
  have c0 := k4.root
  have c2 := k4.esc 2 (by omega)
  have c1 := k4.sum 0 (by omega)
  simp only [Nat.mul_zero, Nat.zero_add] at c1
  omega

/-- No budget makes the tree accept 2^32 inserts of the byte 0x41. -/
theorem overflow_undefined (fuel : Nat) :
    insertAll fuel Huffman_Tree.fresh (List.replicate 4294967296 65) = none := by
  cases h : insertAll fuel Huffman_Tree.fresh (List.replicate 4294967296 65) with
  | none => rfl
  | some r =>
    exfalso
    have h2 := insertAll_mono fuel (fuel + 257) (by omega) _ _ _ h
    obtain ⟨c, k1, c0, c1, _, _⟩ := replicate_state (fuel + 257) (by omega) 65 (by norm_num)
      4294967294 (by decide)
    have e : List.replicate 4294967296 65 = List.replicate (4294967294 + 1) 65 ++ [65] := by
      rw [← List.replicate_succ']
    rw [e, insertAll_append, k1] at h2
    simp only [Option.bind_eq_bind, Option.some_bind, insertAll] at h2
    rw [insert_wrap (fuel + 257) c 65 (by norm_num) c0 c1] at h2
    simp at h2

theorem sameView_refl (t : Huffman_Tree) : SameView t t :=
  ⟨rfl, rfl, fun _ d h => ⟨d, h, rfl⟩⟩

theorem sameView_trans {a b c : Huffman_Tree} (h1 : SameView a b) (h2 : SameView b c) :
    SameView a c := by
  refine ⟨h2.1.trans h1.1, h2.2.1.trans h1.2.1, ?_⟩
  intro i d hd
  obtain ⟨d1, g1, g2⟩ := h1.2.2 i d hd
  obtain ⟨d2, g3, g4⟩ := h2.2.2 i d1 g1
  exact ⟨d2, g3, g4.trans g2⟩

theorem incCount_view (t t1 : Huffman_Tree) (p : Nat) (h : incCount t p = some t1) :
    SameView t t1 := by
  simp only [incCount, Option.bind_eq_bind] at h
  cases hs : setNode t.heap p (fun n => { n with count := (n.count + 1) % UINT }) with
  | none => simp [hs] at h
  | some hp =>
    simp only [hs, Option.some_bind, Option.some.injEq] at h
    subst h
    exact ⟨rfl, rfl, fun _ d hd => ⟨d, hd, rfl⟩⟩

theorem getData_set (s : List Data) (i j : Nat) (v : Data) :
    getData (s.set i v) j = if i = j then (if i < s.length then some v else none)
      else getData s j := by
  simp only [getData, List.getElem?_set]

theorem swap_iters_view (s s1 : List Data) (a b : Nat) (h : swap_iters s a b = some s1) :
    s1.length = s.length ∧ ∀ i d, getData s i = some d →
      ∃ d1, getData s1 i = some d1 ∧ d1.ptr = d.ptr := by
  simp only [swap_iters, Option.bind_eq_bind] at h
  cases h1 : getData s a with
  | none => simp [h1] at h
  | some da =>
    cases h2 : getData s b with
    | none => simp [h1, h2] at h
    | some db =>
      simp only [h1, h2, Option.some_bind, Option.some.injEq] at h
      subst h
      refine ⟨by simp, ?_⟩
      intro i d hd
      have hia : a < s.length := by
        simp only [getData] at h1
        exact (List.getElem?_eq_some_iff.mp h1).1
      have hib : b < s.length := by
        simp only [getData] at h2
        exact (List.getElem?_eq_some_iff.mp h2).1
      rw [getData_set, getData_set]
      by_cases e2 : b = i
      · subst e2
        rw [h2] at hd
        simp only [Option.some.injEq] at hd
        subst hd
        simp [hib]
      · by_cases e1 : a = i
        · subst e1
          rw [h1] at hd
          simp only [Option.some.injEq] at hd
          subst hd
          simp [e2, hia]
        · simp [e1, e2, hd]

theorem swap_nodes_view (t t1 : Huffman_Tree) (a b : Nat) (h : swap_nodes t a b = some t1) :
    SameView t t1 := by
  simp only [swap_nodes, Option.bind_eq_bind] at h
  cases h1 : getData t.symbols_in_stock a with
  | none => simp [h1] at h
  | some d1 =>
  cases h2 : getData t.symbols_in_stock b with
  | none => simp [h1, h2] at h
  | some d2 =>
  cases h3 : d1.ptr with
  | none => simp [h1, h2, h3] at h
  | some p1 =>
  cases h4 : d2.ptr with
  | none => simp [h1, h2, h3, h4] at h
  | some p2 =>
  cases h5 : swap_iters t.symbols_in_stock a b with
  | none => simp [h1, h2, h3, h4, h5] at h
  | some sis =>
  simp only [h1, h2, h3, h4, h5, Option.some_bind] at h
  cases h6 : shift_parent_count t.heap p1 p2 with
  | none => simp [h6] at h
  | some g1 =>
  simp only [h6, Option.some_bind] at h
  cases h7 : shift_parent_count g1 p2 p1 with
  | none => simp [h7] at h
  | some g2 =>
  simp only [h7, Option.some_bind] at h
  cases h8 : swap_slots g2 p1 p2 with
  | none => simp [h8] at h
  | some g3 =>
  simp only [h8, Option.some_bind] at h
  cases h9 : swap_sides g3 p1 p2 with
  | none => simp [h9] at h
  | some g4 =>
  simp only [h9, Option.some_bind, Option.some.injEq] at h
  subst h
  obtain ⟨k1, k2⟩ := swap_iters_view _ _ _ _ h5
  exact ⟨rfl, k1, k2⟩

theorem rebalance_swap_view (t t1 : Huffman_Tree) (cur iter : Nat)
    (h : rebalance_swap t cur iter = some t1) : SameView t t1 := by
  simp only [rebalance_swap, Option.bind_eq_bind] at h
  cases h1 : scan_back t iter with
  | none => simp [h1] at h
  | some j =>
  simp only [h1, Option.some_bind] at h
  cases h2 : incCount t cur with
  | none => simp [h2] at h
  | some t2 =>
  simp only [h2, Option.some_bind] at h
  cases h3 : entrySymbol t2 iter with
  | none => simp [h3] at h
  | some s1 =>
  simp only [h3, Option.some_bind] at h
  cases h4 : entrySymbol t2 (j + 1) with
  | none => simp [h4] at h
  | some s2 =>
  simp only [h4, Option.some_bind] at h
  exact sameView_trans (incCount_view _ _ _ h2) (swap_nodes_view _ _ _ _ h)

theorem rebalance_climb_view (t t1 : Huffman_Tree) (cur par : Nat)
    (h : rebalance_climb t cur = some (t1, par)) : SameView t t1 := by
  simp only [rebalance_climb, Option.bind_eq_bind] at h
  cases h2 : incCount t cur with
  | none => simp [h2] at h
  | some t2 =>
  simp only [h2, Option.some_bind] at h
  cases h3 : getNode t2.heap cur with
  | none => simp [h3] at h
  | some nd =>
  simp only [h3, Option.some_bind] at h
  cases h4 : nd.parent with
  | none => simp [h4] at h
  | some q =>
  simp only [h4, Option.some_bind, Option.some.injEq, Prod.mk.injEq] at h
  rw [← h.1]
  exact incCount_view _ _ _ h2

theorem rebalance_loop_view (s : Nat) : ∀ (f : Nat) (t : Huffman_Tree) (cur : Nat)
    (r : Huffman_Tree), rebalance_loop s f t cur = some r → SameView t r := by
  intro f
  induction f with
  | zero => intro t cur r h; simp [rebalance_loop] at h
  | succ f ih =>
    intro t cur r h
    rw [rebalance_loop] at h
    by_cases hc : cur = t.root
    · simp only [hc, if_true, Option.some.injEq] at h
      subst h
      exact sameView_refl _
    · simp only [hc, if_false] at h
      cases hd : getData t.symbols_in_stock s with
      | none => simp [hd] at h
      | some d =>
        simp only [hd] at h
        cases hi : d.iter with
        | none => simp [hi] at h
        | some iter =>
          simp only [hi] at h
          cases hg : rebalance_guard t iter with
          | none => simp [hg] at h
          | some g =>
            cases g with
            | true =>
              simp only [hg] at h
              cases hs : rebalance_swap t cur iter with
              | none => simp [hs] at h
              | some t2 =>
                simp only [hs] at h
                exact sameView_trans (rebalance_swap_view _ _ _ _ hs) (ih _ _ _ h)
            | false =>
              simp only [hg] at h
              cases hs : rebalance_climb t cur with
              | none => simp [hs] at h
              | some p =>
                obtain ⟨t1, par⟩ := p
                simp only [hs] at h
                exact sameView_trans (rebalance_climb_view _ _ _ _ hs) (ih _ _ _ h)

theorem increase_view (f : Nat) (t r : Huffman_Tree) (s : Nat)
    (h : increase_and_rebalance f t s = some r) : SameView t r := by
  simp only [increase_and_rebalance, Option.bind_eq_bind] at h
  cases hd : getData t.symbols_in_stock s with
  | none => simp [hd] at h
  | some d =>
    simp only [hd, Option.some_bind] at h
    cases hp : d.ptr with
    | none => simp [hp] at h
    | some cur =>
      simp only [hp, Option.some_bind] at h
      cases hl : rebalance_loop s f t cur with
      | none => simp [hl] at h
      | some t1 =>
        simp only [hl, Option.some_bind] at h
        exact sameView_trans (rebalance_loop_view s f t cur t1 hl) (incCount_view _ _ _ h)

theorem setPtr_spec (s s1 : List Data) (i p : Nat) (h : setPtr s i p = some s1) :
    i < s.length ∧ s1.length = s.length
      ∧ (∃ d, getData s1 i = some d ∧ d.ptr = some p)
      ∧ ∀ j, j ≠ i → getData s1 j = getData s j := by
  simp only [setPtr, Option.bind_eq_bind] at h
  cases h1 : getData s i with
  | none => simp [h1] at h
  | some d =>
    simp only [h1, Option.some_bind, Option.some.injEq] at h
    subst h
    have hi : i < s.length := by
      simp only [getData] at h1
      exact (List.getElem?_eq_some_iff.mp h1).1
    refine ⟨hi, by simp, ⟨{ d with ptr := some p }, by rw [getData_set]; simp [hi], rfl⟩, ?_⟩
    intro j hj
    rw [getData_set]
    simp [Ne.symm hj]

theorem setIter_spec (s s1 : List Data) (i p : Nat) (h : setIter s i p = some s1) :
    s1.length = s.length
      ∧ ∀ j d, getData s j = some d → ∃ d1, getData s1 j = some d1 ∧ d1.ptr = d.ptr := by
  simp only [setIter, Option.bind_eq_bind] at h
  cases h1 : getData s i with
  | none => simp [h1] at h
  | some d =>
    simp only [h1, Option.some_bind, Option.some.injEq] at h
    subst h
    have hi : i < s.length := by
      simp only [getData] at h1
      exact (List.getElem?_eq_some_iff.mp h1).1
    refine ⟨by simp, ?_⟩
    intro j dj hj
    rw [getData_set]
    by_cases e : i = j
    · subst e
      rw [h1] at hj
      simp only [Option.some.injEq] at hj
      subst hj
      simp [hi]
    · simp [e, hj]

theorem seen_view (t t1 : Huffman_Tree) (S : List Nat) (h : Seen t S) (v : SameView t t1) :
    Seen t1 S := by
  obtain ⟨h1, h2, h3, h4⟩ := h
  obtain ⟨v1, v2, v3⟩ := v
  refine ⟨v2.trans h1, by rw [v1]; exact h2, by rw [v1]; exact h3, ?_⟩
  intro c hc
  obtain ⟨d, g1, g2⟩ := h4 c hc
  obtain ⟨d1, g3, g4⟩ := v3 c d g1
  exact ⟨d1, g3, by rw [g4]; exact g2⟩

theorem seen_congr (t : Huffman_Tree) (S S1 : List Nat) (h : Seen t S)
    (e : ∀ c, c ∈ S ↔ c ∈ S1) : Seen t S1 := by
  obtain ⟨h1, h2, h3, h4⟩ := h
  refine ⟨h1, h2, h3, ?_⟩
  intro c hc
  obtain ⟨d, g1, g2⟩ := h4 c hc
  refine ⟨d, g1, ?_⟩
  rw [g2, decide_eq_decide]
  exact e c

theorem register_seen (t : Huffman_Tree) (S : List Nat) (s : Nat) (hs : s < 256)
    (h : Seen t S) (sis : List Data) (l : List Nat)
    (hr : register_children t s ((t.current_empty_value + 1) % UINT) = some (sis, l)) :
    sis.length = 513 ∧ t.current_empty_value + 1 ≤ 513
      ∧ ∀ c, c < 256 → ∃ d, getData sis c = some d
          ∧ d.ptr.isSome = decide (c ∈ s :: S) := by
  obtain ⟨h1, h2, h3, h4⟩ := h
  have hU : UINT = 4294967296 := rfl
  have he : ((t.current_empty_value + 1) % UINT + UINT - 1) % UINT = t.current_empty_value := by
    rw [hU]; omega
  simp only [register_children, he, Option.bind_eq_bind, Option.bind_eq_some,
    Option.some.injEq, Prod.mk.injEq] at hr
  obtain ⟨s1, k1, s2, k2, s3, k3, s4, k4, hr1, _⟩ := hr
  subst hr1
  obtain ⟨a1, a2, ⟨da, a3, a4⟩, a5⟩ := setPtr_spec _ _ _ _ k1
  obtain ⟨b1, b2, _, b5⟩ := setPtr_spec _ _ _ _ k2
  obtain ⟨c1, c2⟩ := setIter_spec _ _ _ _ k3
  obtain ⟨e1, e2⟩ := setIter_spec _ _ _ _ k4
  refine ⟨by rw [e1, c1, b2, a2, h1], by rw [a2, h1] at b1; omega, ?_⟩
  intro c hc
  have hce : c ≠ t.current_empty_value := by omega
  by_cases hcs : c = s
  · subst hcs
    have g1 : getData s2 c = some da := by rw [b5 c hce, a3]
    obtain ⟨d3, g3, g4⟩ := c2 c da g1
    obtain ⟨d4, g5, g6⟩ := e2 c d3 g3
    refine ⟨d4, g5, ?_⟩
    rw [g6, g4, a4]
    simp
  · obtain ⟨d, g0, g00⟩ := h4 c hc
    have g1 : getData s2 c = some d := by rw [b5 c hce, a5 c hcs, g0]
    obtain ⟨d3, g3, g4⟩ := c2 c d g1
    obtain ⟨d4, g5, g6⟩ := e2 c d3 g3
    refine ⟨d4, g5, ?_⟩
    rw [g6, g4, g00, decide_eq_decide]
    simp [hcs]

theorem insert_seen (fuel : Nat) (t t1 : Huffman_Tree) (S : List Nat) (s : Nat) (hs : s < 256)
    (h : Seen t S) (hi : insert fuel t s = some t1) : Seen t1 (s :: S) := by
  obtain ⟨d, g1, g2⟩ := h.2.2.2 s hs
  simp only [insert, g1, Option.bind_eq_bind, Option.some_bind, Data.exists_] at hi
  by_cases hmem : s ∈ S
  · have hd : d.ptr.isSome = true := by rw [g2]; simpa using hmem
    simp only [hd, if_true, insert_existing] at hi
    refine seen_congr _ S _ (seen_view _ _ _ h (increase_view _ _ _ _ hi)) ?_
    intro c
    simp only [List.mem_cons]
    constructor
    · intro hc; exact Or.inr hc
    · intro hc
      rcases hc with hc | hc
      · rw [hc]; exact hmem
      · exact hc
  · have hd : d.ptr.isSome = false := by rw [g2]; simpa using hmem
    simp only [hd, Bool.false_eq_true, if_false, insert_new, Option.bind_eq_bind] at hi
    cases ha : attach_children t s ((t.current_empty_value + 1) % UINT) with
    | none => simp [ha] at hi
    | some p1 =>
      obtain ⟨hp, ll⟩ := p1
      simp only [ha, Option.some_bind] at hi
      cases hr : register_children t s ((t.current_empty_value + 1) % UINT) with
      | none => simp [hr] at hi
      | some p2 =>
        obtain ⟨sis, l⟩ := p2
        simp only [hr, Option.some_bind] at hi
        obtain ⟨r1, r2, r3⟩ := register_seen t S s hs h sis l hr
        have hU : UINT = 4294967296 := rfl
        have h2 := h.2.1
        refine seen_view _ _ _ ?_ (increase_view _ _ _ _ hi)
        refine ⟨r1, ?_, ?_, r3⟩
        · show 256 ≤ (t.current_empty_value + 1) % UINT
          rw [hU]; omega
        · show (t.current_empty_value + 1) % UINT ≤ 513
          rw [hU]; omega

theorem insertAll_seen (fuel : Nat) : ∀ (xs : List Nat) (t t1 : Huffman_Tree) (S : List Nat),
    (∀ x ∈ xs, x < 256) → Seen t S → insertAll fuel t xs = some t1 →
    Seen t1 (xs.reverse ++ S) := by
  intro xs
  induction xs with
  | nil => intro t t1 S _ h hi; simp only [insertAll, Option.some.injEq] at hi; subst hi; simpa using h
  | cons s rest ih =>
    intro t t1 S hx h hi
    simp only [insertAll, Option.bind_eq_bind] at hi
    cases h1 : insert fuel t s with
    | none => simp [h1] at hi
    | some t2 =>
      simp only [h1, Option.some_bind] at hi
      have := ih t2 t1 (s :: S) (fun x hx2 => hx x (List.mem_cons_of_mem _ hx2))
        (insert_seen fuel t t2 S s (hx s (List.mem_cons_self _ _)) h h1) hi
      simpa using this

theorem fresh_seen : Seen Huffman_Tree.fresh [] := by
  refine ⟨by simp only [Huffman_Tree.fresh, List.length_replicate], by decide, by decide, ?_⟩
  intro c hc
  refine ⟨{ ptr := none, iter := none }, ?_, by simp⟩
  simp only [getData, Huffman_Tree.fresh, List.getElem?_replicate]
  have : c < 513 := by omega
  simp [this]

theorem seen_exists (t : Huffman_Tree) (S : List Nat) (h : Seen t S) (c : Nat) (hc : c < 256) :
    t.exists_ c = some (decide (c ∈ S)) := by
  obtain ⟨d, g1, g2⟩ := h.2.2.2 c hc
  simp only [Huffman_Tree.exists_, g1, Option.bind_eq_bind, Option.some_bind, Data.exists_, g2]

theorem write_first (b : Nat) : ∀ (fuel : Nat) (w w1 : Bit_writer), FirstByte b w →
    Bit_writer.write fuel w = some w1 → FirstByte b w1 := by
  intro fuel
  induction fuel with
  | zero => intro w w1 _ h; simp [Bit_writer.write] at h
  | succ f ih =>
    intro w w1 hw h
    rw [Bit_writer.write] at h
    cases hb : w.bit_buffer with
    | nil =>
      simp only [hb, Option.some.injEq] at h
      subst h
      exact hw
    | cons x rest =>
      simp only [hb] at h
      obtain ⟨hmod, hcase⟩ := hw
      by_cases hc : w.cnt.i < 8
      · simp only [hc, if_true] at h
        refine ih _ _ ⟨by simp [counter.inc, hmod], ?_⟩ h
        rcases hcase with ⟨_, h8, _⟩ | ⟨o, ho⟩
        · omega
        · exact Or.inr ⟨o, ho⟩
      · simp only [hc, if_false] at h
        refine ih _ _ ⟨by simp [counter.inc, hmod], ?_⟩ h
        rcases hcase with ⟨h0, _, hbt⟩ | ⟨o, ho⟩
        · exact Or.inr ⟨[], by simp [h0, hbt]⟩
        · exact Or.inr ⟨o ++ [w.bit_to_write], by simp [ho]⟩

theorem push_back_first (b fuel : Nat) (w w1 : Bit_writer) (code : List Nat)
    (hw : FirstByte b w) (h : Bit_writer.push_back fuel w code = some w1) : FirstByte b w1 := by
  simp only [Bit_writer.push_back] at h
  exact write_first b fuel { w with bit_buffer := w.bit_buffer ++ code } w1 ⟨hw.1, hw.2⟩ h

theorem pad_first (b : Nat) : ∀ (fuel : Nat) (w w1 : Bit_writer), FirstByte b w →
    Bit_writer.pad fuel w = some w1 → FirstByte b w1 := by
  intro fuel
  induction fuel with
  | zero => intro w w1 _ h; simp [Bit_writer.pad] at h
  | succ f ih =>
    intro w w1 hw h
    rw [Bit_writer.pad] at h
    obtain ⟨hmod, hcase⟩ := hw
    by_cases hc : w.cnt.i < 8
    · simp only [hc, if_true] at h
      refine ih _ _ ⟨by simp [counter.inc, hmod], ?_⟩ h
      rcases hcase with ⟨_, h8, _⟩ | ⟨o, ho⟩
      · omega
      · exact Or.inr ⟨o, ho⟩
    · simp only [hc, if_false, Option.some.injEq] at h
      subst h
      exact ⟨hmod, hcase⟩

theorem end_of_stream_first (b fuel : Nat) (w w1 : Bit_writer) (hw : FirstByte b w)
    (h : Bit_writer.end_of_stream_notifier fuel w = some w1) : ∃ o, w1.fout = b :: o := by
  simp only [Bit_writer.end_of_stream_notifier, Option.bind_eq_bind, Option.bind_eq_some,
    Option.some.injEq] at h
  obtain ⟨w2, h1, h2⟩ := h
  subst h2
  obtain ⟨_, hcase⟩ := pad_first b fuel w w2 hw h1
  rcases hcase with ⟨h0, _, hbt⟩ | ⟨o, ho⟩
  · exact ⟨[], by simp [h0, hbt]⟩
  · exact ⟨o ++ [w2.bit_to_write], by simp [ho]⟩

theorem emit_first (b fuel : Nat) (e : Encoder) (c : Nat) (w1 : Bit_writer)
    (hw : FirstByte b e.bit_writer) (h : Encoder.emit fuel e c = some w1) : FirstByte b w1 := by
  simp only [Encoder.emit, Option.bind_eq_bind, Option.bind_eq_some] at h
  obtain ⟨known, _, h2⟩ := h
  cases known with
  | true =>
    simp only [if_true, Option.bind_eq_some] at h2
    obtain ⟨code, _, h3⟩ := h2
    exact push_back_first b fuel _ _ code hw h3
  | false =>
    simp only [Bool.false_eq_true, if_false, Option.bind_eq_some] at h2
    obtain ⟨delim, _, w2, h3, h4⟩ := h2
    exact push_back_first b fuel _ _ _ (push_back_first b fuel _ _ delim hw h3) h4

theorem loop_first (b fuel : Nat) : ∀ (xs : List Nat) (e e1 : Encoder),
    FirstByte b e.bit_writer → Encoder.loop fuel e xs = some e1 → FirstByte b e1.bit_writer := by
  intro xs
  induction xs with
  | nil => intro e e1 hw h; simp only [Encoder.loop, Option.some.injEq] at h; subst h; exact hw
  | cons c rest ih =>
    intro e e1 hw h
    simp only [Encoder.loop, Encoder.step, Option.bind_eq_bind, Option.bind_eq_some,
      Option.some.injEq] at h
    obtain ⟨e2, ⟨w, h1, t, _, h3⟩, h4⟩ := h
    subst h3
    exact ih _ _ (emit_first b fuel e c w hw h1) h4

/-- The tree of the encoder goes through exactly the inserts of its input. -/
theorem loop_tree (fuel : Nat) : ∀ (xs : List Nat) (e e1 : Encoder),
    Encoder.loop fuel e xs = some e1 → insertAll fuel e.tree xs = some e1.tree := by
  intro xs
  induction xs with
  | nil => intro e e1 h; simp only [Encoder.loop, Option.some.injEq] at h; subst h; rfl
  | cons c rest ih =>
    intro e e1 h
    simp only [Encoder.loop, Encoder.step, Option.bind_eq_bind, Option.bind_eq_some,
      Option.some.injEq] at h
    obtain ⟨e2, ⟨w, _, t, h2, h3⟩, h4⟩ := h
    subst h3
    simp only [insertAll, h2, Option.bind_eq_bind, Option.some_bind]
    exact ih _ _ h4

theorem encoder_tree (fuel : Nat) (x out : List Nat) (h : Encoder.Encoder fuel x = some out) :
    ∃ t, insertAll fuel Huffman_Tree.fresh x = some t := by
  cases x with
  | nil => exact ⟨_, rfl⟩
  | cons s rest =>
    simp only [Encoder.Encoder, Option.bind_eq_bind, Option.bind_eq_some] at h
    obtain ⟨e, h1, _⟩ := h
    have h2 := loop_tree fuel (s :: rest)
      { tree := Huffman_Tree.fresh, bit_writer := Bit_writer.new [] } e h1
    exact ⟨e.tree, h2⟩

/-- After the first byte has been encoded it is pending in the bit writer as one whole byte. -/
theorem first_step (fuel : Nat) (hf : 600 ≤ fuel) (b : Nat) (hb : b < 256) (e1 : Encoder)
    (h : Encoder.step fuel { tree := Huffman_Tree.fresh, bit_writer := Bit_writer.new [] } b
      = some e1) : FirstByte b e1.bit_writer := by
  obtain ⟨w1, h1, h2⟩ := comb_emit [] (fun _ => 0) (Bit_writer.new []) [] b hb List.nodup_nil
    (by intro y hy; simp at hy) wrote_new fuel hf
  rw [fresh_eq_comb] at h
  simp only [Encoder.step, h1, Option.bind_eq_bind, Option.some_bind, Option.bind_eq_some,
    Option.some.injEq] at h
  obtain ⟨t, _, h3⟩ := h
  subst h3
  simp only [List.not_mem_nil, if_false, List.length_nil, List.replicate_zero,
    List.nil_append] at h2
  obtain ⟨_, hmod, hbyte, _, done, pending, hsplit, hdone, hlen, hle, hemp, hbits⟩ := h2
  have hl := congrArg List.length hsplit
  have hdl := congrArg List.length hdone
  simp only [bits8_length, List.length_append, bytesToBits_length] at hl hdl
  have hp0 : pending ≠ [] := by
    intro hp
    have := congrArg List.length (hemp hp)
    simp [bits8_length] at this
  have hpl : 0 < pending.length := List.length_pos.mpr hp0
  have hf0 : w1.fout = [] := by
    apply List.length_eq_zero.mp
    omega
  have hd0 : done = [] := by
    apply List.length_eq_zero.mp
    rw [← hdl, hf0]; rfl
  subst hd0
  simp only [List.nil_append] at hsplit
  subst hsplit
  rw [bits8_length] at hlen hbits
  simp only [Nat.sub_self, List.drop_zero] at hbits
  exact ⟨hmod, Or.inl ⟨hf0, hlen.symm, bits8_inj _ _ hbyte hb hbits⟩⟩

theorem encoder_first (fuel : Nat) (hf : 600 ≤ fuel) (b : Nat) (rest out : List Nat)
    (hb : b < 256) (h : Encoder.Encoder fuel (b :: rest) = some out) : ∃ o, out = b :: o := by
  simp only [Encoder.Encoder, Encoder.loop, Option.bind_eq_bind, Option.bind_eq_some,
    Option.some.injEq] at h
  obtain ⟨e, ⟨e1, h1, h2⟩, w, h3, h4⟩ := h
  subst h4
  exact end_of_stream_first b fuel _ _ (loop_first b fuel rest e1 e (first_step fuel hf b hb e1 h1)
    h2) h3

theorem encoder_single (fuel : Nat) (hf : 600 ≤ fuel) (b : Nat) (hb : b < 256) :
    Encoder.Encoder fuel [b] = some [b] := by
  obtain ⟨out, p, h1, h2, h3, h4⟩ := encoder_spec [b] (by intro y hy; simp at hy; omega)
    (List.cons_ne_nil _ _) (by simp only [List.length_singleton]; decide) fuel hf
  have hmem : b ∉ ([] : List Nat) := by simp
  simp only [encBits, hmem, if_false, List.length_nil, List.replicate_zero, List.nil_append,
    List.append_nil] at h3
  obtain ⟨orest, rfl, h5⟩ := first_byte_split out b _ hb h4 h3
  have hl := congrArg List.length h5
  simp only [bytesToBits_length, List.length_replicate] at hl
  have : orest = [] := by
    apply List.length_eq_zero.mp
    omega
  subst this
  exact h1

theorem unary_prefix_unary (i j : Nat)
    (h : List.replicate i 0 ++ [1] <+: List.replicate j 0 ++ [1]) : i = j := by
  obtain ⟨t, ht⟩ := h
  have h1 : ∀ (i j : Nat) (t : List Nat),
      List.replicate i 0 ++ [1] ++ t = List.replicate j 0 ++ [1] → i = j := by
    intro i
    induction i with
    | zero =>
      intro j t h
      cases j with
      | zero => rfl
      | succ j => simp [List.replicate_succ] at h
    | succ i ih =>
      intro j t h
      cases j with
      | zero => simp [List.replicate_succ] at h
      | succ j =>
        simp only [List.replicate_succ, List.cons_append, List.cons.injEq, true_and] at h
        rw [ih j t h]
  exact h1 i j t ht

theorem unary_prefix_zeros (i k : Nat) :
    ¬ (List.replicate i 0 ++ [1] <+: List.replicate k 0) := by
  rintro ⟨t, ht⟩
  have hm : (1 : Nat) ∈ List.replicate k 0 := by
    rw [← ht]; simp
  have := List.eq_of_mem_replicate hm
  omega

theorem zeros_prefix_unary (i k : Nat) (hik : i < k) :
    ¬ (List.replicate k 0 <+: List.replicate i 0 ++ [1]) := by
  rintro ⟨t, ht⟩
  have h1 : ∀ (i k : Nat) (t : List Nat), i < k →
      List.replicate k 0 ++ t = List.replicate i 0 ++ [1] → False := by
    intro i
    induction i with
    | zero =>
      intro k t hk h
      cases k with
      | zero => omega
      | succ k => simp [List.replicate_succ] at h
    | succ i ih =>
      intro k t hk h
      cases k with
      | zero => omega
      | succ k =>
        simp only [List.replicate_succ, List.cons_append, List.cons.injEq, true_and] at h
        exact ih k t (by omega) h
  exact h1 i k t hik ht

theorem comb_feed_zeros (ss : List Nat) (c : Nat → Nat) :
    ∀ (m j : Nat) (tail : List Nat), j + m < ss.length →
      adapter_feed (combTree ss c) (some (2 * j)) (List.replicate m 0 ++ tail)
        = (adapter_feed (combTree ss c) (some (2 * (j + m))) tail).map
            (fun r => (List.replicate m false ++ r.1, r.2)) := by
  intro m
  induction m with
  | zero =>
    intro j tail _
    simp only [List.replicate_zero, List.nil_append, Nat.add_zero]
    cases adapter_feed (combTree ss c) (some (2 * j)) tail <;> rfl
  | succ m ih =>
    intro j tail hj
    have hd : decide (j + 1 = ss.length) = false := by
      simp only [decide_eq_false_iff_not]; omega
    have hmove := comb_move_left ss c j (by omega)
    rw [hd] at hmove
    have hb : ((0 : Nat) != 0) = false := rfl
    rw [List.replicate_succ, List.cons_append, adapter_feed, hb, hmove]
    simp only
    have e : 2 * j + 2 = 2 * (j + 1) := by ring
    rw [e, ih (j + 1) tail (by omega)]
    have e2 : j + 1 + m = j + (m + 1) := by ring
    rw [e2]
    cases adapter_feed (combTree ss c) (some (2 * (j + (m + 1)))) tail with
    | none => rfl
    | some r => simp [List.replicate_succ]

theorem comb_feed_symbol (ss : List Nat) (c : Nat → Nat) (hb : ∀ x ∈ ss, x < 256) (m : Nat)
    (hm : m < ss.length) :
    adapter_feed (combTree ss c) (some (combTree ss c).root) (List.replicate m 0 ++ [1])
      = some (List.replicate m false ++ [true], some (2 * m + 1)) := by
  have hr : (combTree ss c).root = 2 * 0 := rfl
  rw [hr, comb_feed_zeros ss c m 0 [1] (by omega)]
  have hb1 : ((1 : Nat) != 0) = true := rfl
  rw [adapter_feed, hb1, Nat.zero_add, comb_move_right ss c m hm hb]
  rfl

theorem comb_feed_delim (ss : List Nat) (c : Nat → Nat) (k : Nat) (hk : ss.length = k + 1) :
    adapter_feed (combTree ss c) (some (combTree ss c).root) (List.replicate ss.length 0)
      = some (List.replicate k false ++ [true], some (2 * ss.length)) := by
  have hr : (combTree ss c).root = 2 * 0 := rfl
  have hl : List.replicate ss.length (0 : Nat) = List.replicate k 0 ++ [0] := by
    rw [hk, List.replicate_succ']
  rw [hr, hl, comb_feed_zeros ss c k 0 [0] (by omega)]
  have hb0 : ((0 : Nat) != 0) = false := rfl
  have hd : decide (k + 1 = ss.length) = true := by
    simp only [decide_eq_true_eq]; omega
  rw [adapter_feed, hb0, Nat.zero_add, comb_move_left ss c k (by omega), hd]
  have e : 2 * k + 2 = 2 * ss.length := by omega
  rw [e]
  rfl

theorem reach_comb (x : List Nat) (hx : ∀ b ∈ x, b < 256) (hlen : x.length < UINT)
    (fuel : Nat) (hf : 257 ≤ fuel) :
    ∃ ss c, insertAll fuel Huffman_Tree.fresh x = some (combTree ss c) ∧ ss.Nodup
      ∧ (∀ b ∈ ss, b < 256) ∧ Weights ss.length c x.length ∧ (∀ s, s ∈ ss ↔ s ∈ x)
      ∧ ss.length ≤ 256 := by
  have h := comb_insertAll fuel hf x [] (fun _ => 0) 0 List.nodup_nil
    (by intro b hb; cases hb) weights_zero hx (by omega)
  obtain ⟨h1, h2, h3, h4⟩ := h
  refine ⟨firsts [] x, countsAfter [] (fun _ => 0) x, ?_, h2, h3, ?_, ?_, ?_⟩
  · rw [fresh_eq_comb]; exact h1
  · rw [Nat.zero_add] at h4; exact h4
  · intro s
    rw [mem_firsts]
    simp
  · exact nodup_bytes_length _ h2 h3

theorem comb_getNode_some (ss : List Nat) (c : Nat → Nat) (p : Nat) (n : Node)
    (h : getNode (combTree ss c).heap p = some n) :
    p < 2 * ss.length + 1 ∧ n = combNode ss c p := by
  by_cases hp : p < 2 * ss.length + 1
  · rw [comb_getNode ss c p hp] at h
    exact ⟨hp, (Option.some.inj h).symm⟩
  · simp only [getNode, combTree, tab_get, hp, if_false] at h
    cases h

theorem comb_entryCount_some (ss : List Nat) (c : Nat → Nat) (i w : Nat)
    (h : entryCount (combTree ss c) i = some w) : i < 2 * ss.length + 1 ∧ w = c i := by
  by_cases hp : i < 2 * ss.length + 1
  · rw [comb_entryCount ss c i hp] at h
    exact ⟨hp, (Option.some.inj h).symm⟩
  · have hl : (combTree ss c).lst[i]? = none := by
      simp only [combTree]
      rw [List.getElem?_eq_none]
      simp only [List.length_range]; omega
    simp only [entryCount, hl] at h
    cases h

theorem comb_entrySymbol_some (ss : List Nat) (c : Nat → Nat) (i s : Nat)
    (h : entrySymbol (combTree ss c) i = some s) :
    i < 2 * ss.length + 1 ∧ s = (combNode ss c i).symbol := by
  by_cases hp : i < 2 * ss.length + 1
  · have hl : (combTree ss c).lst[i]? = some i := by
      simp only [combTree]
      exact List.getElem?_range hp
    have hh : (combTree ss c).heap[i]? = some (combNode ss c i) := comb_getNode ss c i hp
    simp only [entrySymbol, hl, hh] at h
    exact ⟨hp, (Option.some.inj h).symm⟩
  · have hl : (combTree ss c).lst[i]? = none := by
      simp only [combTree]
      rw [List.getElem?_eq_none]
      simp only [List.length_range]; omega
    simp only [entrySymbol, hl] at h
    cases h

theorem spine_descends {k : Nat} {c : Nat → Nat} {n : Nat} (w : Weights k c n) :
    ∀ (d a : Nat), a + d ≤ k → c (2 * (a + d)) ≤ c (2 * a) := by
  intro d
  induction d with
  | zero => intro a _; exact Nat.le_refl _
  | succ d ih =>
    intro a h
    have h1 := ih a (by omega)
    have h2 := w.sum (a + d) (by omega)
    have e : 2 * (a + (d + 1)) = 2 * (a + d) + 2 := by ring
    rw [e]
    omega

theorem comb_leaf_count (ss : List Nat) (c : Nat → Nat) (s : Nat) (hs : s < 256)
    (hmem : s ∈ ss) : leaf_count (combTree ss c) s = some (c (2 * ss.indexOf s + 1)) := by
  have hidx : ss.indexOf s < ss.length := List.indexOf_lt_length.mpr hmem
  have hd := comb_getData ss c s (by omega)
  have hn := comb_getNode ss c (2 * ss.indexOf s + 1) (by omega)
  simp only [leaf_count, hd, combData_mem ss s hs hmem, Option.bind_eq_bind, Option.some_bind, hn]
  simp only [combNode]
  split <;> rfl

theorem combNode_count (ss : List Nat) (c : Nat → Nat) (i : Nat) :
    (combNode ss c i).count = c i := by
  simp only [combNode]
  split <;> rfl

theorem combNode_internal (ss : List Nat) (c : Nat → Nat) (hb : ∀ x ∈ ss, x < 256) (i : Nat)
    (hi : i < 2 * ss.length + 1) (h : 256 ≤ (combNode ss c i).symbol) : i % 2 = 0 := by
  by_contra ho
  have hlt : i / 2 < ss.length := by omega
  have hs : (combNode ss c i).symbol = ss.getD (i / 2) 0 := by
    simp only [combNode, ho, if_false]
  have hg : ss.getD (i / 2) 0 = ss[i / 2] := by
    rw [List.getD_eq_getElem?_getD, List.getElem?_eq_getElem hlt]
    rfl
  have := hb _ (List.getElem_mem hlt)
  omega

theorem bump_iterate (m : Nat) : ∀ (j : Nat) (c : Nat → Nat) (i : Nat),
    (bump m)^[j + 1] c i
      = if i = 2 * m + 1 ∨ (i % 2 = 0 ∧ i ≤ 2 * m) then (c i + (j + 1)) % UINT else c i := by
  intro j
  induction j with
  | zero =>
    intro c i
    simp only [Function.iterate_succ, Function.iterate_zero, Function.comp_apply, id_eq, bump,
      Nat.zero_add]
  | succ j ih =>
    intro c i
    rw [Function.iterate_succ_apply']
    simp only [bump]
    rw [ih c i]
    by_cases hP : i = 2 * m + 1 ∨ (i % 2 = 0 ∧ i ≤ 2 * m)
    · simp only [hP, if_true]
      rw [Nat.add_mod, Nat.mod_mod, ← Nat.add_mod]
      rfl
    · simp only [hP, if_false]

theorem combTree_congr (ss : List Nat) (c d : Nat → Nat)
    (h : ∀ i, i < 2 * ss.length + 1 → c i = d i) : combTree ss c = combTree ss d := by
  have hh : (List.range (2 * ss.length + 1)).map (combNode ss c)
      = (List.range (2 * ss.length + 1)).map (combNode ss d) := by
    apply tab_congr
    intro i hi
    simp only [combNode, h i hi]
  simp only [combTree, hh]

theorem insertAll_cons (fuel : Nat) (t : Huffman_Tree) (s : Nat) (rest : List Nat) :
    insertAll fuel t (s :: rest) = (insert fuel t s).bind (fun t1 => insertAll fuel t1 rest) :=
  rfl

theorem split_at_zero : ∀ (rest : List Nat), 0 ∈ rest →
    ∃ post, rest = rest.takeWhile (fun b => b != 0) ++ 0 :: post
      ∧ 0 ∉ rest.takeWhile (fun b => b != 0) := by
  intro rest
  induction rest with
  | nil => intro h; cases h
  | cons a l ih =>
    intro h
    by_cases ha : a = 0
    · subst ha
      exact ⟨l, by simp [List.takeWhile], by simp [List.takeWhile]⟩
    · have hl : 0 ∈ l := by
        rcases List.mem_cons.mp h with h1 | h1
        · exact absurd h1.symm ha
        · exact h1
      obtain ⟨post, h1, h2⟩ := ih hl
      have hne : (a != 0) = true := by simpa using ha
      refine ⟨post, ?_, ?_⟩
      · rw [List.takeWhile_cons, hne]
        simp only [if_true, List.cons_append]
        rw [← h1]
      · rw [List.takeWhile_cons, hne]
        simp only [if_true, List.mem_cons, not_or]
        exact ⟨fun h0 => ha h0.symm, h2⟩

/-- No budget makes the encoder finish on an input that starts with `2^32` bytes
0x41: the `2^32`-th insert wraps the counts of the root and of the leaf and steps
an iterator back from the first entry of `lst`. -/
theorem encoder_wrap (fe : Nat) (tail out : List Nat)
    (h : Encoder.Encoder fe (List.replicate 4294967296 65 ++ tail) = some out) : False := by
  obtain ⟨t, ht⟩ := encoder_tree fe _ out h
  rw [insertAll_append, overflow_undefined fe] at ht
  cases ht

theorem fresh_delim (fuel : Nat) (hf : 1 ≤ fuel) :
    get_delim_code fuel Huffman_Tree.fresh = some [] := by
  rw [fresh_eq_comb]
  exact comb_delim_code [] _ fuel hf

theorem comb_insert_ok (ss : List Nat) (c : Nat → Nat) (s : Nat) (hn : ss.Nodup)
    (hb : ∀ x ∈ ss, x < 256) (hs : s < 256) (ok : StepOk ss c s) (fuel : Nat)
    (hf : 257 ≤ fuel) :
    insert fuel (combTree ss c) s
      = some (combTree (observe ss s) (bump ((observe ss s).indexOf s) c)) := by
  have hlen := nodup_bytes_length ss hn hb
  unfold StepOk at ok
  by_cases hmem : s ∈ ss
  · rw [if_pos hmem] at ok
    have hobs : observe ss s = ss := by simp [observe, hmem]
    have hidx : ss.indexOf s < ss.length := List.indexOf_lt_length.mpr hmem
    rw [hobs]
    exact comb_insert_existing ss c s hs hmem fuel (by omega) ok.1 ok.2.1 ok.2.2
  · rw [if_neg hmem] at ok
    have hobs : observe ss s = ss ++ [s] := by simp [observe, hmem]
    have hidx : List.indexOf s (ss ++ [s]) = ss.length := by
      rw [List.indexOf_append_of_not_mem hmem]; simp
    have hk := nodup_bytes_length_lt ss hn hb s hs hmem
    rw [hobs, hidx]
    exact comb_insert_fresh ss c s hs hmem hn hb fuel (by omega) ok

theorem observe_ne_nil (ss : List Nat) (s : Nat) : observe ss s ≠ [] := by
  intro h
  have : s ∈ observe ss s := (mem_observe ss s s).mpr (Or.inr rfl)
  rw [h] at this
  cases this

theorem firsts_append : ∀ (xs ys ss : List Nat),
    firsts ss (xs ++ ys) = firsts (firsts ss xs) ys := by
  intro xs
  induction xs with
  | nil => intro ys ss; rfl
  | cons s rest ih => intro ys ss; exact ih ys (observe ss s)

theorem countsAfter_append : ∀ (xs ys ss : List Nat) (c : Nat → Nat),
    countsAfter ss c (xs ++ ys) = countsAfter (firsts ss xs) (countsAfter ss c xs) ys := by
  intro xs
  induction xs with
  | nil => intro ys ss c; rfl
  | cons s rest ih => intro ys ss c; exact ih ys (observe ss s) _

theorem safe_append : ∀ (xs ys ss : List Nat) (c : Nat → Nat),
    Safe ss c xs → Safe (firsts ss xs) (countsAfter ss c xs) ys → Safe ss c (xs ++ ys) := by
  intro xs
  induction xs with
  | nil => intro ys ss c _ h; exact h
  | cons s rest ih =>
    intro ys ss c h1 h2
    exact ⟨h1.1, ih ys (observe ss s) _ h1.2 h2⟩

theorem firsts_repeat (ss : List Nat) (s : Nat) (hmem : s ∈ ss) :
    ∀ j, firsts ss (List.replicate j s) = ss := by
  have hobs : observe ss s = ss := by simp [observe, hmem]
  intro j
  induction j with
  | zero => rfl
  | succ j ih =>
    rw [List.replicate_succ, firsts, hobs]
    exact ih

theorem countsAfter_repeat (ss : List Nat) (s : Nat) (hmem : s ∈ ss) :
    ∀ (j : Nat) (c : Nat → Nat),
      countsAfter ss c (List.replicate j s) = (bump (ss.indexOf s))^[j] c := by
  have hobs : observe ss s = ss := by simp [observe, hmem]
  intro j
  induction j with
  | zero => intro c; rfl
  | succ j ih =>
    intro c
    rw [List.replicate_succ, countsAfter, hobs, ih, Function.iterate_succ_apply]

theorem safe_repeat (ss : List Nat) (s : Nat) (hmem : s ∈ ss) :
    ∀ (j : Nat) (c : Nat → Nat), c (2 * ss.indexOf s + 1) ≤ c (2 * ss.indexOf s) →
      c (2 * ss.indexOf s) + j + 1 < UINT → Safe ss c (List.replicate j s) := by
  have hobs : observe ss s = ss := by simp [observe, hmem]
  intro j
  induction j with
  | zero => intro c _ _; exact trivial
  | succ j ih =>
    intro c hle hlt
    have h1 : bump (ss.indexOf s) c (2 * ss.indexOf s + 1) = c (2 * ss.indexOf s + 1) + 1 := by
      unfold bump
      rw [if_pos (Or.inl rfl)]
      exact Nat.mod_eq_of_lt (by omega)
    have h2 : bump (ss.indexOf s) c (2 * ss.indexOf s) = c (2 * ss.indexOf s) + 1 := by
      unfold bump
      rw [if_pos (Or.inr ⟨by omega, Nat.le_refl _⟩)]
      exact Nat.mod_eq_of_lt (by omega)
    rw [List.replicate_succ]
    refine ⟨?_, ?_⟩
    · unfold StepOk
      rw [if_pos hmem]
      exact ⟨hle, by omega, fun _ => by omega⟩
    · rw [hobs]
      exact ih _ (by omega) (by omega)

/-- A new symbol followed by `j` repetitions of it. -/
theorem block_new (ss : List Nat) (c : Nat → Nat) (s j : Nat) (hnot : s ∉ ss)
    (hz : ∀ i, 2 * ss.length ≤ i → c i = 0) (hj : j + 2 < UINT) :
    Safe ss c (s :: List.replicate j s) ∧ firsts ss (s :: List.replicate j s) = ss ++ [s]
      ∧ countsAfter ss c (s :: List.replicate j s)
          = (bump ss.length)^[j] (bump ss.length c) := by
  have hobs : observe ss s = ss ++ [s] := by simp [observe, hnot]
  have hidx : List.indexOf s (ss ++ [s]) = ss.length := by
    rw [List.indexOf_append_of_not_mem hnot]; simp
  have hmem : s ∈ ss ++ [s] := by simp
  have h1 : bump ss.length c (2 * ss.length + 1) = 1 := by
    unfold bump
    rw [if_pos (Or.inl rfl), hz _ (by omega)]
    rfl
  have h2 : bump ss.length c (2 * ss.length) = 1 := by
    unfold bump
    rw [if_pos (Or.inr ⟨by omega, Nat.le_refl _⟩), hz _ (by omega)]
    rfl
  refine ⟨⟨?_, ?_⟩, ?_, ?_⟩
  · unfold StepOk
    rw [if_neg hnot]
    exact hz
  · rw [hobs, hidx]
    have h := safe_repeat (ss ++ [s]) s hmem j (bump ss.length c)
    rw [hidx] at h
    exact h (by rw [h1, h2]) (by rw [h2]; omega)
  · rw [firsts, hobs]
    exact firsts_repeat _ s hmem j
  · rw [countsAfter, hobs, hidx, countsAfter_repeat _ s hmem, hidx]

theorem encoder_loop_safe (fuel : Nat) (hf : 600 ≤ fuel) :
    ∀ (xs ss : List Nat) (c : Nat → Nat) (w : Bit_writer) (B : List Nat),
      ss.Nodup → (∀ x ∈ ss, x < 256) → (∀ x ∈ xs, x < 256) → Safe ss c xs → Wrote w B →
      ∃ w1, Encoder.loop fuel { tree := combTree ss c, bit_writer := w } xs
          = some { tree := combTree (firsts ss xs) (countsAfter ss c xs), bit_writer := w1 }
        ∧ Wrote w1 (B ++ encBits ss xs) := by
  intro xs
  induction xs with
  | nil =>
    intro ss c w B _ _ _ _ hw
    exact ⟨w, rfl, by simpa [encBits] using hw⟩
  | cons s rest ih =>
    intro ss c w B hn hb hx hsafe hw
    have hs : s < 256 := hx s (List.mem_cons_self _ _)
    have hrest : ∀ x ∈ rest, x < 256 := fun x h => hx x (List.mem_cons_of_mem _ h)
    have h1 := comb_insert_ok ss c s hn hb hs hsafe.1 fuel (by omega)
    obtain ⟨w1, h3, h4⟩ := comb_emit ss c w B s hs hn hb hw fuel hf
    obtain ⟨w2, h5, h6⟩ := ih (observe ss s) (bump ((observe ss s).indexOf s) c) w1 _
      (observe_nodup ss s hn) (observe_bytes ss s hs hb) hrest hsafe.2 h4
    refine ⟨w2, ?_, ?_⟩
    · simp only [Encoder.loop, Encoder.step, h3, h1, Option.bind_eq_bind, Option.some_bind,
        firsts, countsAfter]
      exact h5
    · simpa [encBits, List.append_assoc] using h6

/-- The decoding loop reads the bits `encBits ss xs` from a comb state, writes
`xs` and arrives at the comb state after `xs`. -/
theorem decode_prefix (fuel : Nat) (hf : 257 ≤ fuel) :
    ∀ (xs ss : List Nat) (c : Nat → Nat) (d : Decoder) (k : Nat) (tail : List Nat),
      ss.Nodup → (∀ x ∈ ss, x < 256) → ss ≠ [] → (∀ x ∈ xs, x < 256) → 0 ∉ xs →
      Safe ss c xs → d.tree = combTree ss c → d.adapter = some 0 →
      Stream d (encBits ss xs ++ tail) →
      ∃ d2, Decoder.loop fuel (k + walkBits ss xs) d = Decoder.loop fuel k d2
        ∧ d2.tree = combTree (firsts ss xs) (countsAfter ss c xs) ∧ d2.adapter = some 0
        ∧ d2.fout = d.fout ++ xs ∧ Stream d2 tail := by
  intro xs
  induction xs with
  | nil =>
    intro ss c d k tail _ _ _ _ _ _ ht ha hst
    exact ⟨d, rfl, ht, ha, by simp, by simpa [encBits] using hst⟩
  | cons s rest ih =>
    intro ss c d k tail hn hb hne hx hz hsafe ht ha hst
    have hs : s < 256 := hx s (List.mem_cons_self _ _)
    have hrest : ∀ x ∈ rest, x < 256 := fun x h => hx x (List.mem_cons_of_mem _ h)
    have hs0 : s ≠ 0 := fun h => hz (by rw [h]; exact List.mem_cons_self _ _)
    have hzr : 0 ∉ rest := fun h => hz (List.mem_cons_of_mem _ h)
    have hw1 := comb_insert_ok ss c s hn hb hs hsafe.1 fuel hf
    simp only [encBits, List.append_assoc] at hst
    simp only [walkBits]
    by_cases hmem : s ∈ ss
    · simp only [hmem, if_true] at hst ⊢
      have e : k + (ss.indexOf s + 1 + walkBits (observe ss s) rest)
          = (k + walkBits (observe ss s) rest) + (ss.indexOf s + 1) := by omega
      obtain ⟨d1, i1, i2, i3, i4, i5⟩ := decode_known fuel ss c hb s hmem
        d (k + walkBits (observe ss s) rest) _ hw1 ht ha _
        (by simpa [List.append_assoc] using hst)
      obtain ⟨d2, j1, j2, j3, j4, j5⟩ := ih (observe ss s) _ d1 k tail
        (observe_nodup ss s hn) (observe_bytes ss s hs hb) (observe_ne_nil ss s) hrest hzr
        hsafe.2 i2 i3 i5
      refine ⟨d2, ?_, j2, j3, ?_, j5⟩
      · rw [e, i1]; exact j1
      · rw [j4, i4]; simp
    · simp only [hmem, if_false] at hst ⊢
      have e : k + (ss.length + walkBits (observe ss s) rest)
          = (k + walkBits (observe ss s) rest) + ss.length := by omega
      obtain ⟨d1, i1, i2, i3, i4, i5⟩ := decode_new fuel ss c hne s hs hs0 d
        (k + walkBits (observe ss s) rest) _ hw1 ht ha _
        (by simpa [List.append_assoc] using hst)
      obtain ⟨d2, j1, j2, j3, j4, j5⟩ := ih (observe ss s) _ d1 k tail
        (observe_nodup ss s hn) (observe_bytes ss s hs hb) (observe_ne_nil ss s) hrest hzr
        hsafe.2 i2 i3 i5
      refine ⟨d2, ?_, j2, j3, ?_, j5⟩
      · rw [e, i1]; exact j1
      · rw [j4, i4]; simp

theorem next_bit_fout (d : Decoder) : (d.next_bit).2.fout = d.fout := by
  unfold Decoder.next_bit
  simp only
  split
  · rfl
  · split <;> rfl

theorem read_literal_fout : ∀ (n : Nat) (d : Decoder) (acc : Nat),
    (Decoder.read_literal n d acc).2.fout = d.fout := by
  intro n
  induction n with
  | zero => intro d acc; rfl
  | succ n ih =>
    intro d acc
    rw [Decoder.read_literal, ih, next_bit_fout]

theorem resolve_mono (f g : Nat) (hfg : f ≤ g) (d d2 : Decoder)
    (h : Decoder.resolve f d = some d2) : Decoder.resolve g d = some d2 := by
  simp only [Decoder.resolve, Option.bind_eq_bind, Option.bind_eq_some] at h ⊢
  obtain ⟨b, hb, r, hr, t, ht, he⟩ := h
  exact ⟨b, hb, r, hr, t, insert_mono f g hfg _ _ _ ht, he⟩

theorem decoder_loop_mono (f g : Nat) (hfg : f ≤ g) : ∀ (k k2 : Nat) (d r : Decoder),
    k ≤ k2 → Decoder.loop f k d = some r → Decoder.loop g k2 d = some r := by
  intro k
  induction k with
  | zero => intro k2 d r _ h; simp [Decoder.loop] at h
  | succ k ih =>
    intro k2 d r hk h
    obtain ⟨k3, rfl⟩ : ∃ k3, k2 = k3 + 1 := ⟨k2 - 1, by omega⟩
    rw [Decoder.loop] at h
    rw [Decoder.loop]
    by_cases hact : d.stream_is_active = true
    · simp only [hact, if_true] at h ⊢
      cases hm : adapter_move (d.next_bit).2.tree (d.next_bit).2.adapter (d.next_bit).1 with
      | none => simp [hm] at h
      | some pr =>
        obtain ⟨p, b⟩ := pr
        cases b with
        | false =>
          simp only [hm] at h ⊢
          exact ih _ _ _ (by omega) h
        | true =>
          simp only [hm] at h ⊢
          cases hr : Decoder.resolve f { (d.next_bit).2 with adapter := p } with
          | none => simp [hr] at h
          | some d1 =>
            simp only [hr] at h
            simp only [resolve_mono f g hfg _ _ hr]
            exact ih _ _ _ (by omega) h
    · simp only [hact] at h ⊢
      exact h

theorem decoder_mono (f g : Nat) (hfg : f ≤ g) (input r : List Nat)
    (h : Decoder.Decoder f input = some r) : Decoder.Decoder g input = some r := by
  cases input with
  | nil => exact h
  | cons c rest =>
    simp only [Decoder.Decoder, Option.bind_eq_bind, Option.bind_eq_some] at h ⊢
    obtain ⟨t, ht, h2⟩ := h
    refine ⟨t, insert_mono f g hfg _ _ _ ht, ?_⟩
    cases rest with
    | nil => exact h2
    | cons c2 rest2 =>
      simp only [Option.bind_eq_some] at h2 ⊢
      obtain ⟨d, hd, he⟩ := h2
      exact ⟨d, decoder_loop_mono f g hfg f g _ _ hfg hd, he⟩

theorem resolve_fout (f : Nat) (d d2 : Decoder) (h : Decoder.resolve f d = some d2) :
    d.fout <+: d2.fout := by
  simp only [Decoder.resolve, Option.bind_eq_bind, Option.bind_eq_some] at h
  obtain ⟨b, _, r, hr, t, _, he⟩ := h
  have he2 := Option.some.inj he
  rw [← he2]
  show d.fout <+: r.2.fout
  cases b with
  | true =>
    simp only [if_true, Option.bind_eq_some] at hr
    obtain ⟨s, _, hs⟩ := hr
    have := Option.some.inj hs
    rw [← this]
    exact List.prefix_append _ _
  | false =>
    simp only [Bool.false_eq_true, if_false] at hr
    have hq := read_literal_fout 8 d 0
    generalize Decoder.read_literal 8 d 0 = q at hr hq
    split at hr
    · have := Option.some.inj hr
      rw [← this]
      show d.fout <+: q.2.fout ++ [q.1]
      rw [hq]
      exact List.prefix_append _ _
    · have := Option.some.inj hr
      rw [← this]
      show d.fout <+: q.2.fout
      rw [hq]

theorem loop_fout (f : Nat) : ∀ (k : Nat) (d r : Decoder),
    Decoder.loop f k d = some r → d.fout <+: r.fout := by
  intro k
  induction k with
  | zero => intro d r h; simp [Decoder.loop] at h
  | succ k ih =>
    intro d r h
    rw [Decoder.loop] at h
    by_cases hact : d.stream_is_active = true
    · simp only [hact, if_true] at h
      cases hm : adapter_move (d.next_bit).2.tree (d.next_bit).2.adapter (d.next_bit).1 with
      | none => simp [hm] at h
      | some pr =>
        obtain ⟨p, b⟩ := pr
        cases b with
        | false =>
          simp only [hm] at h
          have := ih _ _ h
          rw [← next_bit_fout d]
          exact this
        | true =>
          simp only [hm] at h
          cases hr : Decoder.resolve f { (d.next_bit).2 with adapter := p } with
          | none => simp [hr] at h
          | some d1 =>
            simp only [hr] at h
            have h1 := resolve_fout f _ _ hr
            have h2 := ih _ _ h
            rw [← next_bit_fout d]
            exact h1.trans h2
    · simp only [hact] at h
      have := Option.some.inj h
      rw [this]

theorem resolve_symbol_out (f : Nat) (d d3 : Decoder) (s : Nat)
    (h1 : adapter_is_symbol_code d.tree d.adapter = some true)
    (h2 : adapter_get_symbol d.tree d.adapter = some s)
    (h : Decoder.resolve f d = some d3) : d3.fout = d.fout ++ [s] := by
  simp only [Decoder.resolve, h1, h2, Option.bind_eq_bind, Option.some_bind, if_true,
    Option.bind_eq_some] at h
  obtain ⟨t, _, he⟩ := h
  rw [← Option.some.inj he]

theorem feed_one (t : Huffman_Tree) (p q : Option Nat) (b : Bool)
    (h : adapter_feed t p [1] = some ([b], q)) : adapter_move t p true = some (q, b) := by
  have hb : ((1 : Nat) != 0) = true := rfl
  rw [adapter_feed, hb] at h
  cases hm : adapter_move t p true with
  | none => rw [hm] at h; cases h
  | some pr =>
    obtain ⟨p1, r⟩ := pr
    rw [hm] at h
    simp only [adapter_feed, Option.some.injEq, Prod.mk.injEq, List.cons.injEq, and_true] at h
    rw [h.1, h.2]

theorem encoder_unfold (fuel : Nat) (x : List Nat) (hne : x ≠ []) :
    Encoder.Encoder fuel x
      = (Encoder.loop fuel { tree := Huffman_Tree.fresh, bit_writer := Bit_writer.new [] } x).bind
          (fun e => (e.bit_writer.end_of_stream_notifier fuel).bind (fun w => some w.fout)) := by
  cases x with
  | nil => exact absurd rfl hne
  | cons s rest => rfl

theorem encoder_loop_append (fuel : Nat) : ∀ (xs ys : List Nat) (e : Encoder),
    Encoder.loop fuel e (xs ++ ys)
      = (Encoder.loop fuel e xs).bind (fun e1 => Encoder.loop fuel e1 ys) := by
  intro xs
  induction xs with
  | nil => intro ys e; rfl
  | cons s rest ih =>
    intro ys e
    simp only [List.cons_append, Encoder.loop, Option.bind_eq_bind]
    cases Encoder.step fuel e s with
    | none => rfl
    | some e1 => exact ih ys e1

theorem wrap_counts (c1 : Nat → Nat) (a0 : c1 0 = 2147483648) (a1 : c1 1 = 2147483648)
    (hz1 : ∀ i, 2 ≤ i → c1 i = 0) (i : Nat) (hi : i < 7) :
    (bump 2)^[2147483648] (bump 2 ((bump 1)^[4294967292] (bump 1 c1))) i = wrapCounts i := by
  have v5 := bump_iterate 2 2147483647 (bump 2 ((bump 1)^[4294967292] (bump 1 c1))) i
  have v3 := bump_iterate 1 4294967291 (bump 1 c1) i
  rw [v5]
  simp only [bump]
  rw [v3]
  simp only [bump]
  have h2 := hz1 2 (by omega)
  have h3 := hz1 3 (by omega)
  have h4 := hz1 4 (by omega)
  have h5 := hz1 5 (by omega)
  have h6 := hz1 6 (by omega)
  interval_cases i <;> simp [a0, a1, h2, h3, h4, h5, h6, UINT, wrapCounts]

theorem wrapInput_cons : wrapInput = 65 :: (List.replicate 2147483647 65
    ++ (List.replicate 4294967293 66 ++ List.replicate 2147483649 67)) := by
  unfold wrapInput
  rw [show List.replicate 2147483648 65 = 65 :: List.replicate 2147483647 65 from
    List.replicate_succ _ _]
  rfl

theorem wrapInput_bytes : ∀ b ∈ wrapInput, b < 256 ∧ b ≠ 0 := by
  intro b hb
  simp only [wrapInput, List.mem_append, List.mem_replicate] at hb
  omega

theorem wrap_safe : Safe [] (fun _ => 0) wrapInput
    ∧ firsts [] wrapInput = [65, 66, 67]
    ∧ ∀ i, i < 7 → countsAfter [] (fun _ => 0) wrapInput i = wrapCounts i := by
  have hA := block_new [] (fun _ => 0) 65 2147483647 (by simp) (fun _ _ => rfl) (by decide)
  have e65 : List.replicate 2147483648 65 = 65 :: List.replicate 2147483647 65 :=
    List.replicate_succ _ _
  have e66 : List.replicate 4294967293 66 = 66 :: List.replicate 4294967292 66 :=
    List.replicate_succ _ _
  have e67 : List.replicate 2147483649 67 = 67 :: List.replicate 2147483648 67 :=
    List.replicate_succ _ _
  rw [← e65] at hA
  obtain ⟨sA, fA, cA⟩ := hA
  simp only [List.nil_append, List.length_nil] at fA cA
  have vA : ∀ i, (bump 0)^[2147483647] (bump 0 (fun _ => 0)) i
      = if i = 2 * 0 + 1 ∨ (i % 2 = 0 ∧ i ≤ 2 * 0) then
          (bump 0 (fun _ => 0) i + (2147483646 + 1)) % UINT
        else bump 0 (fun _ => 0) i :=
    fun i => bump_iterate 0 2147483646 _ i
  have a0 : (bump 0)^[2147483647] (bump 0 (fun _ => 0)) 0 = 2147483648 := by
    rw [vA]; simp [bump, UINT]
  have a1 : (bump 0)^[2147483647] (bump 0 (fun _ => 0)) 1 = 2147483648 := by
    rw [vA]; simp [bump, UINT]
  have hz1 : ∀ i, 2 ≤ i → (bump 0)^[2147483647] (bump 0 (fun _ => 0)) i = 0 := by
    intro i hi
    rw [vA]
    have hP : ¬ (i = 2 * 0 + 1 ∨ (i % 2 = 0 ∧ i ≤ 2 * 0)) := by omega
    rw [if_neg hP]
    unfold bump
    rw [if_neg hP]
  have hB := block_new [65] ((bump 0)^[2147483647] (bump 0 (fun _ => 0))) 66 4294967292
    (by decide) (fun i hi => hz1 i (by simpa using hi)) (by decide)
  rw [← e66] at hB
  obtain ⟨sB, fB0, cB0⟩ := hB
  have fB : firsts [65] (List.replicate 4294967293 66) = [65, 66] := fB0
  have cB : countsAfter [65] ((bump 0)^[2147483647] (bump 0 (fun _ => 0)))
      (List.replicate 4294967293 66)
      = (bump 1)^[4294967292] (bump 1 ((bump 0)^[2147483647] (bump 0 (fun _ => 0)))) := cB0
  have hz3 : ∀ i, 4 ≤ i →
      (bump 1)^[4294967292] (bump 1 ((bump 0)^[2147483647] (bump 0 (fun _ => 0)))) i = 0 := by
    intro i hi
    have v3 := bump_iterate 1 4294967291 (bump 1 ((bump 0)^[2147483647] (bump 0 (fun _ => 0)))) i
    rw [v3]
    have hP : ¬ (i = 2 * 1 + 1 ∨ (i % 2 = 0 ∧ i ≤ 2 * 1)) := by omega
    rw [if_neg hP]
    unfold bump
    rw [if_neg hP]
    exact hz1 i (by omega)
  have hC := block_new [65, 66]
    ((bump 1)^[4294967292] (bump 1 ((bump 0)^[2147483647] (bump 0 (fun _ => 0))))) 67 2147483648
    (by decide) (fun i hi => hz3 i (by simpa using hi)) (by decide)
  rw [← e67] at hC
  obtain ⟨sC, fC0, cC0⟩ := hC
  have fC : firsts [65, 66] (List.replicate 2147483649 67) = [65, 66, 67] := fC0
  have cC : countsAfter [65, 66]
      ((bump 1)^[4294967292] (bump 1 ((bump 0)^[2147483647] (bump 0 (fun _ => 0)))))
      (List.replicate 2147483649 67)
      = (bump 2)^[2147483648] (bump 2
          ((bump 1)^[4294967292] (bump 1 ((bump 0)^[2147483647] (bump 0 (fun _ => 0)))))) :=
    cC0
  unfold wrapInput
  refine ⟨?_, ?_, ?_⟩
  · apply safe_append _ _ _ _ sA
    rw [fA, cA]
    apply safe_append _ _ _ _ sB
    rw [fB, cB]
    exact sC
  · rw [firsts_append, fA, firsts_append, fB, fC]
  · intro i hi
    rw [countsAfter_append, fA, cA, countsAfter_append, fB, cB, cC]
    exact wrap_counts _ a0 a1 hz1 i hi

theorem wrap_state (fuel : Nat) (hf : 600 ≤ fuel) :
    insertAll fuel Huffman_Tree.fresh wrapInput = some (combTree [65, 66, 67] wrapCounts) := by
  obtain ⟨hsafe, hfirsts, hcounts⟩ := wrap_safe
  have hb : ∀ b ∈ wrapInput, b < 256 := fun b h => (wrapInput_bytes b h).1
  obtain ⟨w1, h1, _⟩ := encoder_loop_safe fuel hf wrapInput [] (fun _ => 0)
    (Bit_writer.new []) [] List.nodup_nil (by intro x hx; cases hx) hb hsafe wrote_new
  have h2 := loop_tree fuel wrapInput _ _ h1
  dsimp only at h2
  rw [hfirsts, combTree_congr [65, 66, 67] _ wrapCounts hcounts, ← fresh_eq_comb] at h2
  exact h2

set_option maxRecDepth 1000000 in
set_option maxHeartbeats 4000000 in
theorem wrap_insert_codes :
    (insert 600 (combTree [65, 66, 67] wrapCounts) 66).bind
      (fun t => some (get_symbol_code 600 t 65, get_symbol_code 600 t 66,
        get_symbol_code 600 t 67, get_delim_code 600 t))
      = some (some [1], some [0, 0], some [0, 0, 1], some [0, 0, 1]) := by
  decide

set_option maxRecDepth 1000000 in
set_option maxHeartbeats 4000000 in
theorem wrap_insert_walk :
    (insert 600 (combTree [65, 66, 67] wrapCounts) 66).bind
      (fun t => some (adapter_feed t (some t.root) [1], adapter_is_symbol_code t (some 3),
        adapter_get_symbol t (some 3)))
      = some (some ([true], some 3), some true, some 66) := by
  decide

set_option maxRecDepth 1000000 in
set_option maxHeartbeats 4000000 in
theorem wrap_insert_next :
    (insert 600 (combTree [65, 66, 67] wrapCounts) 66).bind
      (fun t => (insert 600 t 65).bind
        (fun t2 => some (get_delim_code 600 t2, (insert 600 t2 0).isSome)))
      = some (some [0, 0, 1], true) := by
  decide

theorem wrap_final :
    ∃ t, insertAll 600 Huffman_Tree.fresh (wrapInput ++ [66]) = some t
      ∧ t.exists_ 65 = some true ∧ t.exists_ 66 = some true ∧ t.exists_ 67 = some true
      ∧ get_symbol_code 600 t 65 = some [1] ∧ get_symbol_code 600 t 66 = some [0, 0]
      ∧ get_symbol_code 600 t 67 = some [0, 0, 1] ∧ get_delim_code 600 t = some [0, 0, 1]
      ∧ adapter_feed t (some t.root) [1] = some ([true], some 3)
      ∧ adapter_is_symbol_code t (some 3) = some true
      ∧ adapter_get_symbol t (some 3) = some 66 := by
  obtain ⟨t, ht, hobs⟩ := Option.bind_eq_some.mp wrap_insert_codes
  obtain ⟨t2, ht2, hobs2⟩ := Option.bind_eq_some.mp wrap_insert_walk
  rw [ht] at ht2
  have e := Option.some.inj ht2
  rw [← e] at hobs2
  simp only [Option.some.injEq, Prod.mk.injEq] at hobs hobs2
  have hins : insertAll 600 Huffman_Tree.fresh (wrapInput ++ [66]) = some t := by
    rw [insertAll_append, wrap_state 600 (by decide), Option.some_bind, insertAll_cons, ht,
      Option.some_bind]
    rfl
  have hb : ∀ b ∈ wrapInput ++ [66], b < 256 := by
    intro b hb
    simp only [wrapInput, List.mem_append, List.mem_replicate, List.mem_singleton] at hb
    omega
  have hseen := insertAll_seen 600 _ _ _ [] hb fresh_seen hins
  have hex : ∀ c, c < 256 → c ∈ wrapInput → t.exists_ c = some true := by
    intro c hc hm
    rw [seen_exists t _ hseen c hc]
    simp only [List.append_nil, List.mem_reverse, List.mem_append, hm, true_or, decide_True]
  refine ⟨t, hins, hex 65 (by norm_num) ?_, hex 66 (by norm_num) ?_, hex 67 (by norm_num) ?_,
    hobs.1, hobs.2.1, hobs.2.2.1, hobs.2.2.2, hobs2.1, hobs2.2.1, hobs2.2.2⟩
  · simp only [wrapInput, List.mem_append, List.mem_replicate]
    exact Or.inl ⟨by decide, trivial⟩
  · simp only [wrapInput, List.mem_append, List.mem_replicate]
    exact Or.inr (Or.inl ⟨by decide, trivial⟩)
  · simp only [wrapInput, List.mem_append, List.mem_replicate]
    exact Or.inr (Or.inr ⟨by decide, trivial⟩)

/-- The three trees after the inserts of 0x42, 0x41 and 0x00 that follow
`wrapInput`, with what the coders read from them. -/
theorem wrap_trees :
    ∃ t1 t2 t3, insert 600 (combTree [65, 66, 67] wrapCounts) 66 = some t1
      ∧ insert 600 t1 65 = some t2 ∧ insert 600 t2 0 = some t3
      ∧ t1.exists_ 65 = some true ∧ get_symbol_code 600 t1 65 = some [1]
      ∧ adapter_move t1 (some t1.root) true = some (some 3, true)
      ∧ adapter_is_symbol_code t1 (some 3) = some true
      ∧ adapter_get_symbol t1 (some 3) = some 66
      ∧ t2.exists_ 0 = some false ∧ get_delim_code 600 t2 = some [0, 0, 1] := by
  obtain ⟨t1, ht1, hc⟩ := Option.bind_eq_some.mp wrap_insert_codes
  obtain ⟨t1b, ht1b, hw⟩ := Option.bind_eq_some.mp wrap_insert_walk
  obtain ⟨t1c, ht1c, hn⟩ := Option.bind_eq_some.mp wrap_insert_next
  rw [ht1] at ht1b ht1c
  rw [← Option.some.inj ht1b] at hw
  rw [← Option.some.inj ht1c] at hn
  obtain ⟨t2, ht2, hn2⟩ := Option.bind_eq_some.mp hn
  simp only [Option.some.injEq, Prod.mk.injEq] at hc hw hn2
  obtain ⟨t3, ht3⟩ := Option.isSome_iff_exists.mp hn2.2
  have hb : ∀ b ∈ wrapInput, b < 256 := fun b h => (wrapInput_bytes b h).1
  have hseen := insertAll_seen 600 _ _ _ [] hb fresh_seen (wrap_state 600 (by decide))
  have hseen1 := insert_seen 600 _ t1 _ 66 (by norm_num) hseen ht1
  have hseen2 := insert_seen 600 _ t2 _ 65 (by norm_num) hseen1 ht2
  refine ⟨t1, t2, t3, ht1, ht2, ht3, ?_, hc.1, feed_one _ _ _ _ hw.1, hw.2.1, hw.2.2, ?_,
    hn2.1⟩
  · rw [seen_exists t1 _ hseen1 65 (by norm_num)]
    have : 65 ∈ wrapInput := by
      simp only [wrapInput, List.mem_append, List.mem_replicate]
      exact Or.inl ⟨by decide, trivial⟩
    simp only [List.append_nil, List.mem_cons, List.mem_reverse, this, or_true, decide_True]
  · rw [seen_exists t2 _ hseen2 0 (by norm_num)]
    have : 0 ∉ wrapInput := fun h => (wrapInput_bytes 0 h).2 rfl
    simp [this]

/-- The encoder after `wrapInput` and one more 0x42: the bits written so far and
the tree, which is no comb any more. -/
theorem wrap_encoder (t1 : Huffman_Tree)
    (ht1 : insert 600 (combTree [65, 66, 67] wrapCounts) 66 = some t1) :
    ∃ w, Encoder.loop 600 { tree := Huffman_Tree.fresh, bit_writer := Bit_writer.new [] }
          (wrapInput ++ [66]) = some { tree := t1, bit_writer := w }
      ∧ Wrote w (encBits [] wrapInput ++ [0, 1]) := by
  obtain ⟨hsafe, hfirsts, hcounts⟩ := wrap_safe
  have hb : ∀ b ∈ wrapInput, b < 256 := fun b h => (wrapInput_bytes b h).1
  obtain ⟨w1, h1, h2⟩ := encoder_loop_safe 600 (by decide) wrapInput [] (fun _ => 0)
    (Bit_writer.new []) [] List.nodup_nil (by intro x hx; cases hx) hb hsafe wrote_new
  rw [hfirsts, combTree_congr [65, 66, 67] _ wrapCounts hcounts, ← fresh_eq_comb] at h1
  obtain ⟨w2, h3, h4⟩ := comb_emit [65, 66, 67] wrapCounts w1 _ 66 (by norm_num) (by decide)
    (by decide) h2 600 (by decide)
  refine ⟨w2, ?_, ?_⟩
  · rw [encoder_loop_append, h1]
    simp only [Option.some_bind, Encoder.loop, Encoder.step, h3, ht1, Option.bind_eq_bind]
  · have e : (if 66 ∈ [65, 66, 67] then List.replicate (List.indexOf 66 [65, 66, 67]) 0 ++ [1]
        else List.replicate [65, 66, 67].length 0 ++ bits8 66) = [0, 1] := by decide
    rw [e, List.nil_append] at h4
    exact h4

/-- After `wrapInput` and one more 0x42 the decoder reads the bit 1, which the
encoder writes for 0x41, as the code of 0x42: whatever it writes in the end
starts with `wrapInput` followed by 0x42 0x42. -/
theorem wrap_decoder (out rest : List Nat) (hout : ∀ y ∈ out, y < 256)
    (hbits : bytesToBits out = encBits [] wrapInput ++ ([0, 1] ++ (1 :: rest)))
    (fd : Nat) (r : List Nat) (h : Decoder.Decoder fd out = some r) :
    wrapInput ++ [66, 66] <+: r := by
  obtain ⟨t1, _, _, ht1, _, _, _, _, hmove, hsym, hget, _, _⟩ := wrap_trees
  obtain ⟨hsafe, hfirsts, hcounts⟩ := wrap_safe
  have hbytes := wrapInput_bytes
  obtain ⟨W, hW⟩ : ∃ W, wrapInput = 65 :: W := ⟨_, wrapInput_cons⟩
  rw [hW] at hsafe hfirsts hcounts hbytes hbits ⊢
  have hsafe2 : Safe [65] (bump 0 (fun _ => 0)) W := hsafe.2
  have hfirsts2 : firsts [65] W = [65, 66, 67] := hfirsts
  have hcounts2 : ∀ i, i < 7 → countsAfter [65] (bump 0 (fun _ => 0)) W i = wrapCounts i :=
    hcounts
  have hWb : ∀ x ∈ W, x < 256 := fun x hx => (hbytes x (List.mem_cons_of_mem _ hx)).1
  have hW0 : 0 ∉ W := fun h0 => (hbytes 0 (List.mem_cons_of_mem _ h0)).2 rfl
  have henc : encBits [] (65 :: W) = bits8 65 ++ encBits [65] W := by
    have hobs : observe [] 65 = [65] := by simp [observe]
    simp only [encBits, List.not_mem_nil, if_false, List.length_nil, List.replicate_zero,
      List.nil_append, hobs]
  rw [henc, List.append_assoc] at hbits
  obtain ⟨orest, rfl, h5⟩ := first_byte_split out 65 _ (by norm_num) hout hbits
  obtain ⟨FD, hFD⟩ : ∃ FD, FD = fd + 600 + 2 + walkBits [65] W := ⟨_, rfl⟩
  have h2 := decoder_mono fd FD (by omega) _ _ h
  obtain ⟨hi, _⟩ := first_insert FD (by omega) 65 (by norm_num)
  cases orest with
  | nil =>
    have := congrArg List.length h5
    simp [bytesToBits] at this
    omega
  | cons c2 rest2 =>
    have hst := stream_start (combTree [65] (bump 0 (fun _ => 0))) (some 0) c2 rest2 [65]
    rw [h5] at hst
    obtain ⟨d1, i1, i2, i3, i4, i5⟩ := decode_prefix FD (by omega) W [65]
      (bump 0 (fun _ => 0)) _ (fd + 600 + 2) ([0, 1] ++ (1 :: rest))
      (List.nodup_singleton 65) (by decide) (List.cons_ne_nil _ _) hWb hW0 hsafe2 rfl rfl hst
    rw [← hFD] at i1
    rw [hfirsts2, combTree_congr [65, 66, 67] _ wrapCounts hcounts2] at i2
    have i66 : List.indexOf 66 [65, 66, 67] = 1 := by decide
    have hk := decode_known FD [65, 66, 67] wrapCounts (by decide) 66 (by decide) d1
      (fd + 600) t1 (insert_mono 600 FD (by omega) _ _ _ ht1) i2 i3 (1 :: rest)
    rw [i66] at hk
    obtain ⟨d2, j1, j2, j3, j4, j5⟩ := hk i5
    obtain ⟨hact, hbit, hst2, k3, k4, k5⟩ := next_bit_stream d2 1 rest j5
    have hbit1 : (d2.next_bit).1 = true := by rw [hbit]; rfl
    have hm : adapter_move (d2.next_bit).2.tree (d2.next_bit).2.adapter (d2.next_bit).1
        = some (some 3, true) := by
      rw [k3, k4, j2, j3, hbit1]
      exact hmove
    simp only [Decoder.Decoder, hi, Option.bind_eq_bind, Option.some_bind, combTree_root]
      at h2
    rw [i1] at h2
    have e : fd + 600 + 2 = (fd + 599 + 1) + (1 + 1) := by omega
    rw [e, j1, Decoder.loop] at h2
    simp only [hact, if_true, hm] at h2
    cases hr : Decoder.resolve FD { (d2.next_bit).2 with adapter := some 3 } with
    | none => simp [hr] at h2
    | some d3 =>
      simp only [hr, Option.bind_eq_some] at h2
      obtain ⟨d4, hd4, he⟩ := h2
      have hout3 := resolve_symbol_out FD _ d3 66
        (by show adapter_is_symbol_code (d2.next_bit).2.tree (some 3) = some true
            rw [k3, j2]; exact hsym)
        (by show adapter_get_symbol (d2.next_bit).2.tree (some 3) = some 66
            rw [k3, j2]; exact hget) hr
      have hpre := loop_fout FD _ _ _ hd4
      rw [hout3] at hpre
      have hf2 : (d2.next_bit).2.fout = 65 :: W ++ [66] := by
        rw [k5, j4, i4]
        rfl
      change ({ (d2.next_bit).2 with adapter := some 3 } : Decoder).fout ++ [66] <+: d4.fout
        at hpre
      have hf3 : ({ (d2.next_bit).2 with adapter := some 3 } : Decoder).fout
          = (d2.next_bit).2.fout := rfl
      rw [hf3, hf2, List.append_assoc] at hpre
      rw [← Option.some.inj he]
      exact hpre

theorem wrap_no_zero (tail : List Nat) (h : 0 ∉ tail) : 0 ∉ wrapInput ++ tail := by
  intro h0
  rcases List.mem_append.mp h0 with h1 | h1
  · exact (wrapInput_bytes 0 h1).2 rfl
  · exact h h1

/-- The encoder run on `wrapInput` followed by 0x42 0x41. -/
theorem wrap_encoder_one :
    ∃ out p, Encoder.Encoder 600 (wrapInput ++ [66, 65]) = some out ∧ (∀ y ∈ out, y < 256)
      ∧ bytesToBits out = encBits [] wrapInput ++ ([0, 1] ++ (1 :: List.replicate p 0)) := by
  obtain ⟨t1, t2, _, ht1, ht2, _, hex, hcode, _, _, _, _, _⟩ := wrap_trees
  obtain ⟨w, hl, hw⟩ := wrap_encoder t1 ht1
  obtain ⟨w3, hp, hw3⟩ := push_back_spec w _ [1] 600 (by decide) hw (by decide)
  have hstep : Encoder.step 600 { tree := t1, bit_writer := w } 65
      = some { tree := t2, bit_writer := w3 } := by
    simp only [Encoder.step, Encoder.emit, hex, hcode, hp, ht2, Option.bind_eq_bind,
      Option.some_bind, if_true]
  obtain ⟨w4, p, h3, _, h5, h6⟩ := end_of_stream_spec w3 _ 600 hw3 (by simp) (by decide)
  refine ⟨w4.fout, p, ?_, h6, ?_⟩
  · have e : wrapInput ++ [66, 65] = (wrapInput ++ [66]) ++ [65] := by
      rw [List.append_assoc]; rfl
    have hne : wrapInput ++ [66, 65] ≠ [] := by
      intro h
      have := (List.append_eq_nil.mp h).2
      cases this
    rw [encoder_unfold 600 _ hne, e, encoder_loop_append, hl]
    simp only [Option.some_bind, Encoder.loop, hstep, Option.bind_eq_bind, h3]
  · rw [h5]
    simp only [List.append_assoc, List.singleton_append, List.cons_append, List.nil_append]

/-- The encoder run on `wrapInput` followed by 0x42 0x41 0x00. -/
theorem wrap_encoder_two :
    ∃ out p, Encoder.Encoder 600 (wrapInput ++ [66, 65, 0]) = some out ∧ (∀ y ∈ out, y < 256)
      ∧ bytesToBits out = encBits [] wrapInput
          ++ ([0, 1] ++ (1 :: ([0, 0, 1] ++ (bits8 0 ++ List.replicate p 0)))) := by
  obtain ⟨t1, t2, t3, ht1, ht2, ht3, hex, hcode, _, _, _, hex0, hdelim⟩ := wrap_trees
  obtain ⟨w, hl, hw⟩ := wrap_encoder t1 ht1
  obtain ⟨w3, hp, hw3⟩ := push_back_spec w _ [1] 600 (by decide) hw (by decide)
  have hstep : Encoder.step 600 { tree := t1, bit_writer := w } 65
      = some { tree := t2, bit_writer := w3 } := by
    simp only [Encoder.step, Encoder.emit, hex, hcode, hp, ht2, Option.bind_eq_bind,
      Option.some_bind, if_true]
  obtain ⟨w5, hp5, hw5⟩ := push_back_spec w3 _ [0, 0, 1] 600 (by decide) hw3 (by decide)
  obtain ⟨w6, hp6, hw6⟩ := push_back_spec w5 _ (bits8 0) 600 (bits8_bit 0) hw5
    (by rw [bits8_length]; decide)
  have hstep0 : Encoder.step 600 { tree := t2, bit_writer := w3 } 0
      = some { tree := t3, bit_writer := w6 } := by
    simp only [Encoder.step, Encoder.emit, hex0, hdelim, hp5, base_code_eq 0 (by norm_num),
      hp6, ht3, Option.bind_eq_bind, Option.some_bind, Bool.false_eq_true, if_false]
  obtain ⟨w7, p, h3, _, h5, h6⟩ := end_of_stream_spec w6 _ 600 hw6 (by simp) (by decide)
  refine ⟨w7.fout, p, ?_, h6, ?_⟩
  · have e : wrapInput ++ [66, 65, 0] = (wrapInput ++ [66]) ++ [65, 0] := by
      rw [List.append_assoc]; rfl
    have hne : wrapInput ++ [66, 65, 0] ≠ [] := by
      intro h
      have := (List.append_eq_nil.mp h).2
      cases this
    rw [encoder_unfold 600 _ hne, e, encoder_loop_append, hl]
    simp only [Option.some_bind, Encoder.loop, hstep, hstep0, Option.bind_eq_bind, h3]
  · rw [h5]
    simp only [List.append_assoc, List.singleton_append, List.cons_append, List.nil_append]

/-- Round trip while the 32-bit counts do not wrap: for every byte sequence `x` of
at most `2^32 - 2` bytes in which 0x00 does not occur or is the first byte (the
empty sequence included), the encoder writes some bytes `out`, and the decoder
run on `out` writes exactly `x`. -/
theorem roundtrip (x : List Nat) (hx : ∀ b ∈ x, b < 256) (hz : 0 ∉ x ∨ x.head? = some 0)
    (hlen : x.length + 1 < UINT) (fe : Nat) (hfe : 600 ≤ fe) :
    ∃ out, Encoder.Encoder fe x = some out
      ∧ ∀ fd, 8 * out.length + 257 ≤ fd → Decoder.Decoder fd out = some x := by
  cases x with
  | nil => exact ⟨[], rfl, fun _ _ => rfl⟩
  | cons x0 rest =>
    apply roundtrip_cons x0 rest hx _ hlen fe hfe
    rcases hz with h | h
    · right
      intro h0
      exact h (List.mem_cons_of_mem _ h0)
    · left
      simpa using h

/-- Instance of `roundtrip`: the round trip on the input `0x41 0x42 0x41`. -/
theorem roundtrip_witness :
    ∃ out, Encoder.Encoder 600 [65, 66, 65] = some out
      ∧ ∀ fd, 8 * out.length + 257 ≤ fd → Decoder.Decoder fd out = some [65, 66, 65] :=
  roundtrip [65, 66, 65] (by decide) (Or.inl (by decide)) (by decide) 600 (by decide)

/-- C1 (code bug): the input of `2^31` bytes 0x41, `2^32 - 3` bytes 0x42,
`2^31 + 1` bytes 0x43 and then 0x42 0x41 contains no 0x00; the encoder finishes
on it, but no budget makes the decoder return the input from the encoder's
output. After the 32-bit counts have wrapped `swap_nodes` runs and leaves the
parent pointers and the child pointers inconsistent, and the decoder reads the
bit the encoder wrote for the last 0x41 as the code of 0x42. -/
theorem roundtrip_fails_after_wrap :
    0 ∉ wrapInput ++ [66, 65]
      ∧ ∃ out, Encoder.Encoder 600 (wrapInput ++ [66, 65]) = some out
          ∧ ¬ ∃ fd, Decoder.Decoder fd out = some (wrapInput ++ [66, 65]) := by
  refine ⟨wrap_no_zero _ (by decide), ?_⟩
  obtain ⟨out, p, h1, h2, h3⟩ := wrap_encoder_one
  refine ⟨out, h1, ?_⟩
  rintro ⟨fd, h⟩
  have hp := wrap_decoder out _ h2 h3 fd _ h
  have h4 := (List.prefix_append_right_inj wrapInput).mp hp
  revert h4
  decide

/-- Sentinel collision while the 32-bit counts do not wrap: for every byte sequence of fewer
than `2^32` bytes whose first byte is not 0x00 and that contains 0x00 later, the
encoder writes some bytes `out`, and the decoder run on `out` writes the bytes
of the input strictly before its first 0x00, which is not the input. -/
theorem sentinel_truncates (x0 : Nat) (rest : List Nat) (hx : ∀ b ∈ x0 :: rest, b < 256)
    (hx0 : x0 ≠ 0) (hmem : 0 ∈ rest) (hlen : (x0 :: rest).length < UINT)
    (fe : Nat) (hfe : 600 ≤ fe) :
    ∃ out, Encoder.Encoder fe (x0 :: rest) = some out
      ∧ ∀ fd, 8 * out.length + 257 ≤ fd →
          Decoder.Decoder fd out = some ((x0 :: rest).takeWhile (fun b => b != 0))
          ∧ Decoder.Decoder fd out ≠ some (x0 :: rest) := by
  obtain ⟨post, h1, h2⟩ := split_at_zero rest hmem
  have hne : (x0 != 0) = true := by simpa using hx0
  have ht : (x0 :: rest).takeWhile (fun b => b != 0)
      = x0 :: rest.takeWhile (fun b => b != 0) := by
    rw [List.takeWhile_cons, hne]
    rfl
  have hx2 : ∀ b ∈ x0 :: (rest.takeWhile (fun b => b != 0) ++ 0 :: post), b < 256 := by
    rw [← h1]; exact hx
  have hl2 : (x0 :: (rest.takeWhile (fun b => b != 0) ++ 0 :: post)).length < UINT := by
    rw [← h1]; exact hlen
  obtain ⟨out, ho, hd⟩ := sentinel_cons x0 (rest.takeWhile (fun b => b != 0)) post hx2 hx0 h2
    hl2 fe hfe
  rw [← h1] at ho
  refine ⟨out, ho, ?_⟩
  intro fd hfd
  have h3 := hd fd hfd
  rw [ht]
  refine ⟨h3, ?_⟩
  rw [h3]
  intro he
  have he2 : rest.takeWhile (fun b => b != 0) = rest := by
    have := Option.some.inj he
    exact (List.cons.inj this).2
  rw [he2] at h2
  exact h2 hmem

/-- Instance of `sentinel_truncates`: the truncation on the input
`0x41 0x42 0x00 0x43`. -/
theorem sentinel_truncates_witness :
    ∃ out, Encoder.Encoder 600 [65, 66, 0, 67] = some out
      ∧ ∀ fd, 8 * out.length + 257 ≤ fd →
          Decoder.Decoder fd out = some ([65, 66, 0, 67].takeWhile (fun b => b != 0))
          ∧ Decoder.Decoder fd out ≠ some [65, 66, 0, 67] :=
  sentinel_truncates 65 [66, 0, 67] (by decide) (by decide) (by decide) (by decide) 600
    (by decide)

/-- C2 (code bug): the input of `2^31` bytes 0x41, `2^32 - 3` bytes 0x42,
`2^31 + 1` bytes 0x43 and then 0x42 0x41 0x00 starts with a nonzero byte and has
its only 0x00 at the end; the encoder finishes on it, but no budget makes the
decoder return the bytes before the 0x00 from the encoder's output: after the
wrap of the 32-bit counts `swap_nodes` has left the tree inconsistent. -/
theorem sentinel_fails_after_wrap :
    0 ∉ wrapInput ++ [66, 65]
      ∧ ∃ out, Encoder.Encoder 600 (wrapInput ++ [66, 65] ++ [0]) = some out
          ∧ ¬ ∃ fd, Decoder.Decoder fd out = some (wrapInput ++ [66, 65]) := by
  refine ⟨wrap_no_zero _ (by decide), ?_⟩
  obtain ⟨out, p, h1, h2, h3⟩ := wrap_encoder_two
  have e : wrapInput ++ [66, 65] ++ [0] = wrapInput ++ [66, 65, 0] := by
    rw [List.append_assoc]; rfl
  rw [e]
  refine ⟨out, h1, ?_⟩
  rintro ⟨fd, h⟩
  have hp := wrap_decoder out _ h2 h3 fd _ h
  have h4 := (List.prefix_append_right_inj wrapInput).mp hp
  revert h4
  decide

/-- Prefix-freeness while the 32-bit counts do not wrap: after fewer than `2^32`
inserts of bytes on a fresh tree the escape code and the code of every observed
symbol exist, no code of an observed symbol is a prefix of the escape code or the
other way round, and no code of an observed symbol is a prefix of the code of
another observed symbol; in particular the codes are pairwise distinct. -/
theorem codes_prefix_free (x : List Nat) (hx : ∀ b ∈ x, b < 256) (hlen : x.length < UINT)
    (fuel : Nat) (hf : 257 ≤ fuel) :
    ∃ t delim, insertAll fuel Huffman_Tree.fresh x = some t
      ∧ get_delim_code fuel t = some delim
      ∧ ∀ s, s < 256 → t.exists_ s = some true →
          ∃ cs, get_symbol_code fuel t s = some cs ∧ ¬ cs <+: delim ∧ ¬ delim <+: cs
            ∧ ∀ r cr, r < 256 → r ≠ s → t.exists_ r = some true →
                get_symbol_code fuel t r = some cr → ¬ cs <+: cr := by
  obtain ⟨ss, c, hins, hn, hb, w, hmem, hk⟩ := reach_comb x hx hlen fuel hf
  refine ⟨combTree ss c, List.replicate ss.length 0, hins,
    comb_delim_code ss c fuel (by omega), ?_⟩
  intro s hs hex
  rw [comb_exists ss c s hs] at hex
  have hsm : s ∈ ss := by simpa using hex
  have hidx : ss.indexOf s < ss.length := List.indexOf_lt_length.mpr hsm
  refine ⟨List.replicate (ss.indexOf s) 0 ++ [1],
    comb_symbol_code ss c s fuel hs hsm (by omega), unary_prefix_zeros _ _,
    zeros_prefix_unary _ _ hidx, ?_⟩
  intro r cr hr hne hexr hcr hp
  rw [comb_exists ss c r hr] at hexr
  have hrm : r ∈ ss := by simpa using hexr
  have hidr : ss.indexOf r < ss.length := List.indexOf_lt_length.mpr hrm
  rw [comb_symbol_code ss c r fuel hr hrm (by omega)] at hcr
  have hcr2 := Option.some.inj hcr
  rw [← hcr2] at hp
  have he := unary_prefix_unary _ _ hp
  exact hne ((List.indexOf_inj hrm hsm).mp he.symm)

/-- C3 witness: prefix-freeness on the input `0x41 0x42 0x41`. -/
theorem codes_prefix_free_witness :
    ∃ t delim, insertAll 257 Huffman_Tree.fresh [65, 66, 65] = some t
      ∧ get_delim_code 257 t = some delim
      ∧ ∀ s, s < 256 → t.exists_ s = some true →
          ∃ cs, get_symbol_code 257 t s = some cs ∧ ¬ cs <+: delim ∧ ¬ delim <+: cs
            ∧ ∀ r cr, r < 256 → r ≠ s → t.exists_ r = some true →
                get_symbol_code 257 t r = some cr → ¬ cs <+: cr :=
  codes_prefix_free [65, 66, 65] (by decide) (by decide) 257 (by decide)

/-- C3 (code bug): after `2^31` inserts of 0x41, `2^32 - 3` of 0x42,
`2^31 + 1` of 0x43 and one more of 0x42 the 32-bit counts have wrapped,
`swap_nodes` has run, and the code `00` of 0x42 is a prefix of the code `001` of
0x43, which is also the escape code. -/
theorem codes_collide_after_wrap :
    ∃ t, insertAll 600 Huffman_Tree.fresh (wrapInput ++ [66]) = some t
      ∧ t.exists_ 66 = some true ∧ t.exists_ 67 = some true
      ∧ get_symbol_code 600 t 66 = some [0, 0] ∧ get_symbol_code 600 t 67 = some [0, 0, 1]
      ∧ get_delim_code 600 t = some [0, 0, 1] := by
  obtain ⟨t, h0, _, h2, h3, _, h5, h6, h7, _, _, _⟩ := wrap_final
  exact ⟨t, h0, h2, h3, h5, h6, h7⟩

/-- The order the list does keep: after fewer than `2^32` inserts of bytes on a fresh tree, an
entry of `lst` that belongs to a node with a synthetic id (the root, an inner
node or the escape leaf) weighs at least as much as every later entry of such a
node and as the entry that directly follows it: the list runs from the heaviest
node, the root, downwards. -/
theorem weights_descend (x : List Nat) (hx : ∀ b ∈ x, b < 256) (hlen : x.length < UINT)
    (fuel : Nat) (hf : 257 ≤ fuel) :
    ∃ t, insertAll fuel Huffman_Tree.fresh x = some t
      ∧ ∀ i j si sj wi wj, i < j → entrySymbol t i = some si → entrySymbol t j = some sj →
          entryCount t i = some wi → entryCount t j = some wj → 256 ≤ si →
          (256 ≤ sj ∨ j = i + 1) → wj ≤ wi := by
  obtain ⟨ss, c, hins, hn, hb, w, hmem, hk⟩ := reach_comb x hx hlen fuel hf
  refine ⟨combTree ss c, hins, ?_⟩
  intro i j si sj wi wj hij hsi hsj hwi hwj h256 hor
  obtain ⟨hi, hsi2⟩ := comb_entrySymbol_some _ _ _ _ hsi
  obtain ⟨hj, hsj2⟩ := comb_entrySymbol_some _ _ _ _ hsj
  obtain ⟨_, hwi2⟩ := comb_entryCount_some _ _ _ _ hwi
  obtain ⟨_, hwj2⟩ := comb_entryCount_some _ _ _ _ hwj
  rw [hwi2, hwj2]
  rw [hsi2] at h256
  have hie : i % 2 = 0 := combNode_internal ss c hb i hi h256
  have e2 : 2 * (i / 2) = i := by omega
  rcases hor with h2 | h2
  · rw [hsj2] at h2
    have hje : j % 2 = 0 := combNode_internal ss c hb j hj h2
    have h3 := spine_descends w (j / 2 - i / 2) (i / 2) (by omega)
    have e1 : 2 * (i / 2 + (j / 2 - i / 2)) = j := by omega
    rw [e1, e2] at h3
    exact h3
  · have h3 := w.sum (i / 2) (by omega)
    rw [e2] at h3
    rw [h2]
    omega

/-- Instance of `weights_descend`: the input `0x41 0x42 0x42`. -/
theorem weights_descend_witness :
    ∃ t, insertAll 257 Huffman_Tree.fresh [65, 66, 66] = some t
      ∧ ∀ i j si sj wi wj, i < j → entrySymbol t i = some si → entrySymbol t j = some sj →
          entryCount t i = some wi → entryCount t j = some wj → 256 ≤ si →
          (256 ≤ sj ∨ j = i + 1) → wj ≤ wi :=
  weights_descend [65, 66, 66] (by decide) (by decide) 257 (by decide)

/-- The list starts with the root: after the single insert of 0x41 the entries of
`lst` weigh 1 (root), 1 (leaf of 0x41) and 0 (escape leaf), so the second entry
is heavier than the third one, which follows it. -/
theorem weights_not_ascending :
    ∃ t, insertAll 257 Huffman_Tree.fresh [65] = some t
      ∧ entryCount t 0 = some 1 ∧ entryCount t 1 = some 1 ∧ entryCount t 2 = some 0 := by
  have h := (first_insert 257 (Nat.le_refl _) 65 (by norm_num)).1
  refine ⟨combTree [65] (bump 0 (fun _ => 0)), ?_, ?_, ?_, ?_⟩
  · rw [insertAll_cons, h]
    rfl
  · rw [comb_entryCount [65] _ 0 (by decide)]
    decide
  · rw [comb_entryCount [65] _ 1 (by decide)]
    decide
  · rw [comb_entryCount [65] _ 2 (by decide)]
    decide

/-- C4 (code bug): after the inserts 0x41 0x42 0x42 the five entries of `lst`
weigh 3, 1, 2, 2, 0 in list order (root, leaf of 0x41, inner node, leaf of 0x42,
escape leaf). The first entry is heavier than the second, which follows it, and
the second is lighter than the third, which follows it: the list is ordered by
weight in neither direction, the rebalancing that would reorder it never runs. -/
theorem weights_unordered :
    ∃ t, insertAll 257 Huffman_Tree.fresh [65, 66, 66] = some t
      ∧ t.lst.length = 5
      ∧ entryCount t 0 = some 3 ∧ entryCount t 1 = some 1 ∧ entryCount t 2 = some 2
      ∧ entryCount t 3 = some 2 ∧ entryCount t 4 = some 0
      ∧ entrySymbol t 0 = some 256 ∧ entrySymbol t 1 = some 65 ∧ entrySymbol t 2 = some 257
      ∧ entrySymbol t 3 = some 66 ∧ entrySymbol t 4 = some 258
      ∧ (∃ wi wj, entryCount t 0 = some wi ∧ entryCount t 1 = some wj ∧ ¬ wi ≤ wj)
      ∧ (∃ wi wj, entryCount t 1 = some wi ∧ entryCount t 2 = some wj ∧ ¬ wj ≤ wi) := by
  obtain ⟨h1, _, _, _⟩ := comb_insertAll 257 (Nat.le_refl _) [65, 66, 66] [] (fun _ => 0) 0
    List.nodup_nil (by intro b hb; cases hb) weights_zero (by decide) (by decide)
  have hf : firsts [] [65, 66, 66] = [65, 66] := by decide
  rw [hf, ← fresh_eq_comb] at h1
  have e0 : entryCount (combTree [65, 66] (countsAfter [] (fun _ => 0) [65, 66, 66])) 0
      = some 3 := by
    rw [comb_entryCount [65, 66] _ 0 (by decide)]; decide
  have e1 : entryCount (combTree [65, 66] (countsAfter [] (fun _ => 0) [65, 66, 66])) 1
      = some 1 := by
    rw [comb_entryCount [65, 66] _ 1 (by decide)]; decide
  have e2 : entryCount (combTree [65, 66] (countsAfter [] (fun _ => 0) [65, 66, 66])) 2
      = some 2 := by
    rw [comb_entryCount [65, 66] _ 2 (by decide)]; decide
  have e3 : entryCount (combTree [65, 66] (countsAfter [] (fun _ => 0) [65, 66, 66])) 3
      = some 2 := by
    rw [comb_entryCount [65, 66] _ 3 (by decide)]; decide
  have e4 : entryCount (combTree [65, 66] (countsAfter [] (fun _ => 0) [65, 66, 66])) 4
      = some 0 := by
    rw [comb_entryCount [65, 66] _ 4 (by decide)]; decide
  exact ⟨_, h1, rfl, e0, e1, e2, e3, e4, rfl, rfl, rfl, rfl, rfl,
    ⟨3, 1, e0, e1, by decide⟩, ⟨1, 2, e1, e2, by decide⟩⟩

/-- C6 (code bug): after the inserts 0x41 0x42 0x42 the leaves weigh 1 (0x41),
2 (0x42) and 0 (escape leaf) and have the codes `1`, `01` and `00`, of cost
`1 * 1 + 2 * 2 + 0 * 2 = 5`; the prefix-free code `01`, `1`, `00` for the same
weights costs 4, so the tree is not an optimal prefix code. -/
theorem comb_not_optimal :
    ∃ t e, insertAll 257 Huffman_Tree.fresh [65, 66, 66] = some t
      ∧ leaf_count t 65 = some 1 ∧ leaf_count t 66 = some 2
      ∧ getNode t.heap t.last_leave = some e ∧ e.count = 0
      ∧ get_symbol_code 257 t 65 = some [1] ∧ get_symbol_code 257 t 66 = some [0, 1]
      ∧ get_delim_code 257 t = some [0, 0]
      ∧ PrefixFree [[0, 1], [1], [0, 0]]
      ∧ code_cost [(1, [0, 1]), (2, [1]), (0, [0, 0])]
          < code_cost [(1, [1]), (2, [0, 1]), (0, [0, 0])] := by
  obtain ⟨h1, _, _, _⟩ := comb_insertAll 257 (Nat.le_refl _) [65, 66, 66] [] (fun _ => 0) 0
    List.nodup_nil (by intro b hb; cases hb) weights_zero (by decide) (by decide)
  have hf : firsts [] [65, 66, 66] = [65, 66] := by decide
  rw [hf, ← fresh_eq_comb] at h1
  refine ⟨_, combNode [65, 66] (countsAfter [] (fun _ => 0) [65, 66, 66]) 4, h1, ?_, ?_,
    comb_getNode [65, 66] _ 4 (by decide), ?_,
    comb_symbol_code [65, 66] _ 65 257 (by norm_num) (by decide) (by decide),
    comb_symbol_code [65, 66] _ 66 257 (by norm_num) (by decide) (by decide),
    comb_delim_code [65, 66] _ 257 (by decide), ?_, by decide⟩
  · rw [comb_leaf_count [65, 66] _ 65 (by norm_num) (by decide)]
    decide
  · rw [comb_leaf_count [65, 66] _ 66 (by norm_num) (by decide)]
    decide
  · rw [combNode_count]
    decide
  · unfold PrefixFree
    decide

/-- Agreement of codes and walker while the 32-bit counts do not wrap: after fewer than `2^32`
inserts of bytes on a fresh tree, feeding the code of an observed symbol `s` to
a rewound walker makes `move` return false on every bit but the last and true on
the last, after which `is_symbol_code()` is true and `get_symbol()` is `s`;
feeding a non-empty escape code resolves on its last bit only, with
`is_symbol_code()` false. -/
theorem walker_agrees (x : List Nat) (hx : ∀ b ∈ x, b < 256) (hlen : x.length < UINT)
    (fuel : Nat) (hf : 257 ≤ fuel) :
    ∃ t delim, insertAll fuel Huffman_Tree.fresh x = some t
      ∧ get_delim_code fuel t = some delim
      ∧ (delim ≠ [] → ∃ q, adapter_feed t (some t.root) delim
            = some (List.replicate (delim.length - 1) false ++ [true], q)
          ∧ adapter_is_symbol_code t q = some false)
      ∧ ∀ s, s < 256 → t.exists_ s = some true →
          ∃ cs q, get_symbol_code fuel t s = some cs
            ∧ adapter_feed t (some t.root) cs
                = some (List.replicate (cs.length - 1) false ++ [true], q)
            ∧ adapter_is_symbol_code t q = some true ∧ adapter_get_symbol t q = some s := by
  obtain ⟨ss, c, hins, hn, hb, w, hmem, hk⟩ := reach_comb x hx hlen fuel hf
  refine ⟨combTree ss c, List.replicate ss.length 0, hins,
    comb_delim_code ss c fuel (by omega), ?_, ?_⟩
  · intro hne
    have hpos : ss.length ≠ 0 := by
      intro h0
      rw [h0] at hne
      exact hne rfl
    obtain ⟨k, hk1⟩ := Nat.exists_eq_succ_of_ne_zero hpos
    refine ⟨some (2 * ss.length), ?_, comb_escape_not_symbol ss c⟩
    rw [comb_feed_delim ss c k hk1, List.length_replicate, hk1]
    rfl
  · intro s hs hex
    rw [comb_exists ss c s hs] at hex
    have hsm : s ∈ ss := by simpa using hex
    have hidx : ss.indexOf s < ss.length := List.indexOf_lt_length.mpr hsm
    have hls := comb_leaf_symbol ss c (ss.indexOf s) hidx hb
    rw [getD_indexOf ss s hsm] at hls
    refine ⟨List.replicate (ss.indexOf s) 0 ++ [1], some (2 * ss.indexOf s + 1),
      comb_symbol_code ss c s fuel hs hsm (by omega), ?_, hls.1, hls.2⟩
    rw [comb_feed_symbol ss c hb (ss.indexOf s) hidx]
    simp

/-- Instance of `walker_agrees`: the input `0x41 0x42 0x41`. -/
theorem walker_agrees_witness :
    ∃ t delim, insertAll 257 Huffman_Tree.fresh [65, 66, 65] = some t
      ∧ get_delim_code 257 t = some delim
      ∧ (delim ≠ [] → ∃ q, adapter_feed t (some t.root) delim
            = some (List.replicate (delim.length - 1) false ++ [true], q)
          ∧ adapter_is_symbol_code t q = some false)
      ∧ ∀ s, s < 256 → t.exists_ s = some true →
          ∃ cs q, get_symbol_code 257 t s = some cs
            ∧ adapter_feed t (some t.root) cs
                = some (List.replicate (cs.length - 1) false ++ [true], q)
            ∧ adapter_is_symbol_code t q = some true ∧ adapter_get_symbol t q = some s :=
  walker_agrees [65, 66, 65] (by decide) (by decide) 257 (by decide)

/-- C7 (code bug): after `2^31` inserts of 0x41, `2^32 - 3` of 0x42,
`2^31 + 1` of 0x43 and one more of 0x42 the code of 0x41 is `1`, but a rewound
walker fed the bit 1 resolves at the leaf of 0x42: `swap_nodes` has swapped the
child slots and the sides of two nodes and not their parent pointers. -/
theorem walker_disagrees_after_wrap :
    ∃ t, insertAll 600 Huffman_Tree.fresh (wrapInput ++ [66]) = some t
      ∧ t.exists_ 65 = some true ∧ get_symbol_code 600 t 65 = some [1]
      ∧ adapter_feed t (some t.root) [1] = some ([true], some 3)
      ∧ adapter_get_symbol t (some 3) = some 66 := by
  obtain ⟨t, h0, h1, _, _, h4, _, _, _, h8, _, h9⟩ := wrap_final
  exact ⟨t, h0, h1, h4, h8, h9⟩

/-- C8: the escape code of a fresh tree is empty; the encoder run on the single
byte `b` writes exactly `b`; whenever the encoder run on an input that starts
with the byte `b` finishes, the first byte it wrote is `b`; it does finish, with
first byte `b`, on every such input of fewer than `2^32` bytes; and at every
point of a run on such an input the bytes written so far are none or start
with `b`. -/
theorem first_byte_raw (fuel : Nat) (hf : 600 ≤ fuel) (b : Nat) (hb : b < 256)
    (rest : List Nat) (hr : ∀ y ∈ rest, y < 256) :
    get_delim_code fuel Huffman_Tree.fresh = some []
      ∧ Encoder.Encoder fuel [b] = some [b]
      ∧ (∀ out, Encoder.Encoder fuel (b :: rest) = some out → ∃ o, out = b :: o)
      ∧ ((b :: rest).length < UINT → ∃ o, Encoder.Encoder fuel (b :: rest) = some (b :: o))
      ∧ (∀ pre e1, Encoder.loop fuel
            { tree := Huffman_Tree.fresh, bit_writer := Bit_writer.new [] } (b :: pre) = some e1 →
          e1.bit_writer.fout = [] ∨ ∃ o, e1.bit_writer.fout = b :: o) := by
  refine ⟨fresh_delim fuel (by omega), encoder_single fuel hf b hb,
    fun out h => encoder_first fuel hf b rest out hb h, ?_, ?_⟩
  · intro hlen
    have hx : ∀ y ∈ b :: rest, y < 256 := by
      intro y hy
      rcases List.mem_cons.mp hy with h | h
      · rw [h]; exact hb
      · exact hr y h
    obtain ⟨out, _, ho, _⟩ := encoder_spec (b :: rest) hx (List.cons_ne_nil _ _) hlen fuel hf
    obtain ⟨o, he⟩ := encoder_first fuel hf b rest out hb ho
    exact ⟨o, by rw [ho, he]⟩
  · intro pre e1 h
    simp only [Encoder.loop, Option.bind_eq_bind, Option.bind_eq_some] at h
    obtain ⟨e2, hs, hl⟩ := h
    have hfb := loop_first b fuel pre e2 e1 (first_step fuel hf b hb e2 hs) hl
    rcases hfb.2 with ⟨h1, _, _⟩ | h2
    · exact Or.inl h1
    · exact Or.inr h2

/-- C8 witness: the raw first byte on the input `0x41 0x42 0x41`. -/
theorem first_byte_raw_witness :
    get_delim_code 600 Huffman_Tree.fresh = some []
      ∧ Encoder.Encoder 600 [65] = some [65]
      ∧ (∀ out, Encoder.Encoder 600 [65, 66, 65] = some out → ∃ o, out = 65 :: o)
      ∧ ([65, 66, 65].length < UINT → ∃ o, Encoder.Encoder 600 [65, 66, 65] = some (65 :: o))
      ∧ (∀ pre e1, Encoder.loop 600
            { tree := Huffman_Tree.fresh, bit_writer := Bit_writer.new [] } (65 :: pre) = some e1 →
          e1.bit_writer.fout = [] ∨ ∃ o, e1.bit_writer.fout = 65 :: o) :=
  first_byte_raw 600 (by decide) 65 (by decide) [66, 65] (by decide)

/-- C9: the encoder run on the empty byte sequence writes no bytes, and so does
the decoder, whatever the budget. -/
theorem empty_input (fuel : Nat) :
    Encoder.Encoder fuel [] = some [] ∧ Decoder.Decoder fuel [] = some [] :=
  ⟨rfl, rfl⟩

/-- C10: on a fresh tree `exists(c)` is false for every byte `c`; whenever the
inserts of the bytes `xs` on a fresh tree finish, `exists(c)` is true exactly
for the bytes `c` that occur in `xs`, and one more insert of a byte `s` makes
`exists(s)` true and leaves `exists(c)` unchanged for every other byte `c`; the
inserts do finish when `xs` has fewer than `2^32` bytes. -/
theorem exists_iff_inserted (fuel : Nat) (xs : List Nat) (hx : ∀ b ∈ xs, b < 256) :
    (∀ c, c < 256 → Huffman_Tree.fresh.exists_ c = some false)
      ∧ (∀ t, insertAll fuel Huffman_Tree.fresh xs = some t →
          (∀ c, c < 256 → t.exists_ c = some (decide (c ∈ xs)))
          ∧ ∀ s t1, s < 256 → insert fuel t s = some t1 →
              t1.exists_ s = some true ∧ ∀ c, c < 256 → c ≠ s → t1.exists_ c = t.exists_ c)
      ∧ (257 ≤ fuel → xs.length < UINT → ∃ t, insertAll fuel Huffman_Tree.fresh xs = some t) := by
  refine ⟨?_, ?_, ?_⟩
  · intro c hc
    rw [seen_exists _ _ fresh_seen c hc]
    rfl
  · intro t ht
    have hseen := insertAll_seen fuel xs _ t [] hx fresh_seen ht
    have hex : ∀ c, c < 256 → t.exists_ c = some (decide (c ∈ xs)) := by
      intro c hc
      rw [seen_exists t _ hseen c hc]
      simp only [List.append_nil, List.mem_reverse]
    refine ⟨hex, ?_⟩
    intro s t1 hs hi
    have hseen1 := insert_seen fuel t t1 _ s hs hseen hi
    refine ⟨?_, ?_⟩
    · rw [seen_exists t1 _ hseen1 s hs]
      simp only [List.mem_cons, true_or, decide_True]
    · intro c hc hne
      rw [seen_exists t1 _ hseen1 c hc, seen_exists t _ hseen c hc]
      simp only [List.mem_cons, hne, false_or]
  · intro hf hlen
    obtain ⟨ss, c, h, _⟩ := reach_comb xs hx hlen fuel hf
    exact ⟨_, h⟩

/-- C10 witness: membership on the input `0x41 0x42 0x41`. -/
theorem exists_iff_inserted_witness :
    ∃ t, insertAll 257 Huffman_Tree.fresh [65, 66, 65] = some t
      ∧ t.exists_ 66 = some true ∧ t.exists_ 67 = some false := by
  have h := exists_iff_inserted 257 [65, 66, 65] (by decide)
  obtain ⟨t, ht⟩ := h.2.2 (by decide) (by decide)
  have h2 := (h.2.1 t ht).1
  exact ⟨t, ht, by rw [h2 66 (by decide)]; rfl, by rw [h2 67 (by decide)]; rfl⟩

theorem push_all_spec (fuel : Nat) : ∀ (codes : List (List Nat)) (w : Bit_writer) (B : List Nat),
    (∀ c ∈ codes, ∀ b ∈ c, b < 2) → (∀ c ∈ codes, 2 * c.length + 1 ≤ fuel) → Wrote w B →
    ∃ w1, Bit_writer.push_all fuel w codes = some w1 ∧ Wrote w1 (B ++ codes.join) := by
  intro codes
  induction codes with
  | nil =>
    intro w B _ _ hw
    exact ⟨w, rfl, by simpa using hw⟩
  | cons c rest ih =>
    intro w B hb hf hw
    obtain ⟨w1, h1, h2⟩ := push_back_spec w B c fuel (hb c (List.mem_cons_self _ _)) hw
      (hf c (List.mem_cons_self _ _))
    obtain ⟨w2, h3, h4⟩ := ih w1 (B ++ c) (fun c2 hc => hb c2 (List.mem_cons_of_mem _ hc))
      (fun c2 hc => hf c2 (List.mem_cons_of_mem _ hc)) h2
    refine ⟨w2, ?_, ?_⟩
    · rw [Bit_writer.push_all, h1]
      exact h3
    · simpa [List.append_assoc] using h4

/-- C11: for every non-empty sequence of bits delivered to a new `Bit_writer` by
any number of `push_back` calls, the calls and the final
`end_of_stream_notifier` finish, and the bytes written, read most significant
bit first, are the bit sequence followed by just enough 0 bits, fewer than 8,
to fill the last byte: `ceil(n / 8)` bytes for `n` bits. -/
theorem bit_packing (codes : List (List Nat)) (hb : ∀ c ∈ codes, ∀ b ∈ c, b < 2)
    (hne : codes.join ≠ []) (fuel : Nat) (hf : ∀ c ∈ codes, 2 * c.length + 1 ≤ fuel)
    (hf9 : 9 ≤ fuel) :
    ∃ w1 w2, Bit_writer.push_all fuel (Bit_writer.new []) codes = some w1
      ∧ w1.end_of_stream_notifier fuel = some w2
      ∧ bytesToBits w2.fout
          = codes.join ++ List.replicate ((8 - codes.join.length % 8) % 8) 0
      ∧ w2.fout.length = (codes.join.length + 7) / 8
      ∧ ∀ y ∈ w2.fout, y < 256 := by
  obtain ⟨w1, h1, h2⟩ := push_all_spec fuel codes (Bit_writer.new []) [] hb hf wrote_new
  rw [List.nil_append] at h2
  obtain ⟨w2, p, h3, h4, h5, h6⟩ := end_of_stream_spec w1 _ fuel h2 hne hf9
  have hl := congrArg List.length h5
  rw [bytesToBits_length, List.length_append, List.length_replicate] at hl
  have hp : p = (8 - codes.join.length % 8) % 8 := by omega
  refine ⟨w1, w2, h1, h3, ?_, by omega, h6⟩
  rw [h5, hp]

/-- C11 witness: the bits `1`, then none, then `0 1 1 0 0 0 0 1 1` fill two bytes. -/
theorem bit_packing_witness :
    ∃ w1 w2, Bit_writer.push_all 600 (Bit_writer.new []) [[1], [], [0, 1, 1, 0, 0, 0, 0, 1, 1]]
        = some w1
      ∧ w1.end_of_stream_notifier 600 = some w2
      ∧ bytesToBits w2.fout
          = [[1], [], [0, 1, 1, 0, 0, 0, 0, 1, 1]].join
            ++ List.replicate ((8 - [[1], [], [0, 1, 1, 0, 0, 0, 0, 1, 1]].join.length % 8) % 8) 0
      ∧ w2.fout.length = ([[1], [], [0, 1, 1, 0, 0, 0, 0, 1, 1]].join.length + 7) / 8
      ∧ ∀ y ∈ w2.fout, y < 256 :=
  bit_packing [[1], [], [0, 1, 1, 0, 0, 0, 0, 1, 1]] (by decide) (by decide) 600 (by decide)
    (by decide)

set_option maxRecDepth 100000 in
theorem bits8_literal8 : ∀ s, s < 256 → bits8 s = literal8 s := by
  decide

theorem encBits_eq_coder : ∀ (xs ss : List Nat), (∀ b ∈ xs, b < 256) →
    encBits ss xs = unary_rank_coder ss xs := by
  intro xs
  induction xs with
  | nil => intro ss _; rfl
  | cons s rest ih =>
    intro ss hx
    have hs : s < 256 := hx s (List.mem_cons_self _ _)
    have hrest : ∀ b ∈ rest, b < 256 := fun b h => hx b (List.mem_cons_of_mem _ h)
    by_cases hmem : s ∈ ss
    · have hobs : observe ss s = ss := by simp [observe, hmem]
      simp only [encBits, unary_rank_coder, hmem, if_true, hobs, ih ss hrest]
    · have hobs : observe ss s = ss ++ [s] := by simp [observe, hmem]
      simp only [encBits, unary_rank_coder, hmem, if_false, hobs, ih (ss ++ [s]) hrest,
        bits8_literal8 s hs]

theorem firsts_eq_filter : ∀ (xs ss : List Nat),
    firsts ss xs = ss ++ (first_occurrences xs).filter (fun y => decide (y ∉ ss)) := by
  intro xs
  induction xs with
  | nil => intro ss; simp [firsts, first_occurrences]
  | cons s rest ih =>
    intro ss
    by_cases hmem : s ∈ ss
    · have hobs : observe ss s = ss := by simp [observe, hmem]
      rw [firsts, hobs, ih ss]
      simp only [first_occurrences, List.filter_cons, hmem, not_true_eq_false, decide_False,
        Bool.false_eq_true, if_false, List.filter_filter]
      congr 1
      apply List.filter_congr
      intro y _
      by_cases hy : y ∈ ss
      · simp [hy]
      · have : y ≠ s := fun h => hy (h ▸ hmem)
        simp [hy, this]
    · have hobs : observe ss s = ss ++ [s] := by simp [observe, hmem]
      rw [firsts, hobs, ih (ss ++ [s])]
      simp only [first_occurrences, List.filter_cons, hmem, not_false_eq_true, decide_True,
        if_true, List.filter_filter, List.append_assoc, List.singleton_append]
      congr 2
      apply List.filter_congr
      intro y _
      by_cases hy : y ∈ ss
      · simp [hy]
      · by_cases hys : y = s
        · simp [hys]
        · simp [hy, hys]

theorem firsts_eq (xs : List Nat) : firsts [] xs = first_occurrences xs := by
  rw [firsts_eq_filter]
  simp

/-- C12: after fewer than `2^32` inserts of the bytes `x` on a fresh tree, the
symbol at position `j` (counted from 0) of the first occurrences of `x` has the
code of `j` zeros and a one, and the escape code is one zero for each distinct
symbol; the bits the encoder writes for a non-empty `x` are those of the
first-occurrence-rank unary coder with 8-bit literals, padded with fewer than
eight zero bits. -/
theorem codes_closed_form (x : List Nat) (hx : ∀ b ∈ x, b < 256) (hlen : x.length < UINT)
    (fuel : Nat) (hf : 600 ≤ fuel) :
    ∃ t, insertAll fuel Huffman_Tree.fresh x = some t
      ∧ (∀ j s, (first_occurrences x)[j]? = some s →
          get_symbol_code fuel t s = some (List.replicate j 0 ++ [1]))
      ∧ get_delim_code fuel t = some (List.replicate (first_occurrences x).length 0)
      ∧ (x ≠ [] → ∃ out p, Encoder.Encoder fuel x = some out ∧ p < 8
          ∧ bytesToBits out = unary_rank_coder [] x ++ List.replicate p 0
          ∧ ∀ y ∈ out, y < 256) := by
  obtain ⟨h1, hn, hb, _⟩ := comb_insertAll fuel (by omega) x [] (fun _ => 0) 0 List.nodup_nil
    (by intro b hb; cases hb) weights_zero hx (by omega)
  rw [← fresh_eq_comb, firsts_eq] at h1
  rw [firsts_eq] at hn hb
  have hk := nodup_bytes_length _ hn hb
  refine ⟨_, h1, ?_, comb_delim_code _ _ fuel (by omega), ?_⟩
  · intro j s hj
    obtain ⟨hjl, hget⟩ := List.getElem?_eq_some_iff.mp hj
    have hmem : s ∈ first_occurrences x := hget ▸ List.getElem_mem hjl
    have hidx : (first_occurrences x).indexOf s = j := by
      rw [← hget]
      exact List.indexOf_getElem hn j hjl
    rw [comb_symbol_code _ _ s fuel (hb s hmem) hmem (by omega), hidx]
  · intro hne
    obtain ⟨out, p, e1, e2, e3, e4⟩ := encoder_spec x hx hne hlen fuel hf
    exact ⟨out, p, e1, by omega, by rw [e3, encBits_eq_coder x [] hx], e4⟩

/-- C12 witness: the closed form on the input `0x41 0x42 0x41`. -/
theorem codes_closed_form_witness :
    ∃ t, insertAll 600 Huffman_Tree.fresh [65, 66, 65] = some t
      ∧ (∀ j s, (first_occurrences [65, 66, 65])[j]? = some s →
          get_symbol_code 600 t s = some (List.replicate j 0 ++ [1]))
      ∧ get_delim_code 600 t = some (List.replicate (first_occurrences [65, 66, 65]).length 0)
      ∧ ([65, 66, 65] ≠ [] → ∃ out p, Encoder.Encoder 600 [65, 66, 65] = some out ∧ p < 8
          ∧ bytesToBits out = unary_rank_coder [] [65, 66, 65] ++ List.replicate p 0
          ∧ ∀ y ∈ out, y < 256) :=
  codes_closed_form [65, 66, 65] (by decide) (by decide) 600 (by decide)

theorem rebalance_trace_loop (s : Nat) : ∀ (f : Nat) (t : Huffman_Tree) (cur : Nat),
    (rebalance_trace s f t cur).map Prod.snd = rebalance_loop s f t cur := by
  intro f
  induction f with
  | zero => intro t cur; rfl
  | succ f ih =>
    intro t cur
    rw [rebalance_trace, rebalance_loop]
    by_cases hc : cur = t.root
    · simp [hc]
    · simp only [hc, if_false]
      cases getData t.symbols_in_stock s with
      | none => rfl
      | some d =>
        simp only
        cases d.iter with
        | none => rfl
        | some iter =>
          simp only
          cases rebalance_guard t iter with
          | none => rfl
          | some g =>
            cases g with
            | true =>
              simp only
              cases rebalance_swap t cur iter with
              | none => rfl
              | some t2 =>
                simp only
                rw [← ih t2 cur]
                cases rebalance_trace s f t2 cur <;> rfl
            | false =>
              simp only
              cases rebalance_climb t cur with
              | none => rfl
              | some p =>
                obtain ⟨t1, par⟩ := p
                simp only
                rw [← ih t1 par]
                cases rebalance_trace s f t1 par <;> rfl

theorem increase_trace_eq (f : Nat) (t : Huffman_Tree) (s : Nat) :
    (increase_trace f t s).map Prod.snd = increase_and_rebalance f t s := by
  simp only [increase_trace, increase_and_rebalance, Option.bind_eq_bind]
  cases getData t.symbols_in_stock s with
  | none => rfl
  | some d =>
    simp only [Option.some_bind]
    cases d.ptr with
    | none => rfl
    | some cur =>
      simp only [Option.some_bind]
      rw [← rebalance_trace_loop s f t cur]
      cases rebalance_trace s f t cur with
      | none => rfl
      | some r =>
        simp only [Option.some_bind, Option.map_some']
        cases incCount r.2 r.2.root <;> rfl

theorem insert_trace_eq (f : Nat) (t : Huffman_Tree) (s : Nat) :
    (insert_trace f t s).map Prod.snd = insert f t s := by
  simp only [insert_trace, insert, insert_new, insert_existing, Option.bind_eq_bind]
  cases getData t.symbols_in_stock s with
  | none => rfl
  | some d =>
    simp only [Option.some_bind]
    by_cases he : d.exists_ = true
    · simp only [he, if_true]
      exact increase_trace_eq f t s
    · simp only [he, Bool.false_eq_true, if_false]
      cases attach_children t s ((t.current_empty_value + 1) % UINT) with
      | none => rfl
      | some a =>
        obtain ⟨h, ll⟩ := a
        simp only [Option.some_bind]
        cases register_children t s ((t.current_empty_value + 1) % UINT) with
        | none => rfl
        | some b =>
          obtain ⟨sis, l⟩ := b
          simp only [Option.some_bind]
          exact increase_trace_eq f _ s

theorem comb_trace_spine (ss : List Nat) (s m : Nat) (hs : s < 256) (hmem : s ∈ ss)
    (hm : m = ss.indexOf s) :
    ∀ (j : Nat) (c : Nat → Nat) (fuel : Nat), j < m → j < fuel →
      ¬ ((c (2 * m) + 1) % UINT < c (2 * m + 1)) →
      ∃ t1, rebalance_trace s fuel (combTree ss c) (2 * j)
        = some (List.replicate j false, t1) := by
  have hml : m < ss.length := by rw [hm]; exact List.indexOf_lt_length.mpr hmem
  intro j
  induction j with
  | zero =>
    intro c fuel _ hf _
    obtain ⟨f, rfl⟩ : ∃ f, fuel = f + 1 := ⟨fuel - 1, by omega⟩
    refine ⟨combTree ss c, ?_⟩
    rw [rebalance_trace]
    exact if_pos rfl
  | succ j ih =>
    intro c fuel hj hf hg
    obtain ⟨f, rfl⟩ : ∃ f, fuel = f + 1 := ⟨fuel - 1, by omega⟩
    have hroot : (combTree ss c).root = 0 := rfl
    have hp : 2 * (j + 1) < 2 * ss.length + 1 := by omega
    have hne : 2 * (j + 1) ≠ 0 := by omega
    have hpar : (if 2 * (j + 1) % 2 = 0 then 2 * (j + 1) - 2 else 2 * (j + 1) - 1) = 2 * j := by
      have : 2 * (j + 1) % 2 = 0 := by omega
      simp [this]; omega
    have hg2 : ¬ ((Function.update c (2 * (j + 1)) ((c (2 * (j + 1)) + 1) % UINT) (2 * m) + 1) % UINT
        < Function.update c (2 * (j + 1)) ((c (2 * (j + 1)) + 1) % UINT) (2 * m + 1)) := by
      have e1 : (2 * m) ≠ 2 * (j + 1) := by omega
      have e2 : (2 * m + 1) ≠ 2 * (j + 1) := by omega
      simp only [Function.update_noteq e1, Function.update_noteq e2]
      exact hg
    obtain ⟨t1, h1⟩ := ih _ f (by omega) (by omega) hg2
    refine ⟨t1, ?_⟩
    rw [rebalance_trace]
    simp only [hroot, hne, if_false, comb_getData _ _ _ (show s < 513 by omega),
      combData_mem _ _ hs hmem, ← hm, comb_guard _ _ _ hml, decide_eq_false hg,
      comb_climb _ _ _ hp hne, hpar, h1]
    rfl

theorem comb_trace_leaf (ss : List Nat) (c : Nat → Nat) (s m : Nat) (hs : s < 256)
    (hmem : s ∈ ss) (hm : m = ss.indexOf s) (fuel : Nat) (hf : m + 2 ≤ fuel)
    (hle : c (2 * m + 1) ≤ c (2 * m)) (hb1 : c (2 * m) + 1 < UINT)
    (hb2 : 1 ≤ m → c (2 * m) + 2 < UINT) :
    ∃ t1, increase_trace fuel (combTree ss c) s = some (List.replicate (m + 1) false, t1) := by
  have hml : m < ss.length := by rw [hm]; exact List.indexOf_lt_length.mpr hmem
  have hU : UINT = 4294967296 := rfl
  obtain ⟨f, rfl⟩ : ∃ f, fuel = f + 1 := ⟨fuel - 1, by omega⟩
  have hroot : ∀ c, (combTree ss c).root = 0 := fun _ => rfl
  have hg1 : ¬ ((c (2 * m) + 1) % UINT < c (2 * m + 1)) := by
    rw [Nat.mod_eq_of_lt hb1]; omega
  have hp : 2 * m + 1 < 2 * ss.length + 1 := by omega
  have hne : 2 * m + 1 ≠ 0 := by omega
  have hpar : (if (2 * m + 1) % 2 = 0 then 2 * m + 1 - 2 else 2 * m + 1 - 1) = 2 * m := by
    have : ¬ ((2 * m + 1) % 2 = 0) := by omega
    simp [this]
  have hlc : (c (2 * m + 1) + 1) % UINT = c (2 * m + 1) + 1 := Nat.mod_eq_of_lt (by omega)
  -- the tree result is known, so the last `incCount` succeeds
  have hres := comb_loop_leaf ss c s m hs hmem hm (f + 1) hf hle hb1 hb2
  have hfin : ∀ (tr : List Bool) (t1 : Huffman_Tree),
      rebalance_trace s (f + 1) (combTree ss c) (2 * m + 1) = some (tr, t1) →
      ∃ t2, increase_trace (f + 1) (combTree ss c) s = some (tr, t2) := by
    intro tr t1 h
    have h2 := increase_trace_eq (f + 1) (combTree ss c) s
    rw [hres] at h2
    simp only [increase_trace, comb_getData _ _ _ (show s < 513 by omega),
      combData_mem _ _ hs hmem, ← hm, Option.bind_eq_bind, Option.some_bind, h] at h2 ⊢
    cases hi : incCount t1 t1.root with
    | none => rw [hi] at h2; cases h2
    | some t2 => exact ⟨t2, rfl⟩
  rcases Nat.eq_zero_or_pos m with hm0 | hmpos
  · subst hm0
    obtain ⟨f2, rfl⟩ : ∃ f2, f = f2 + 1 := ⟨f - 1, by omega⟩
    have hstop : ∀ c2, rebalance_trace s (f2 + 1) (combTree ss c2) (2 * 0)
        = some ([], combTree ss c2) := by
      intro c2
      rw [rebalance_trace]
      exact if_pos rfl
    apply hfin _ (combTree ss (Function.update c (2 * 0 + 1) ((c (2 * 0 + 1) + 1) % UINT)))
    rw [rebalance_trace]
    simp only [hroot, hne, if_false, comb_getData _ _ _ (show s < 513 by omega),
      combData_mem _ _ hs hmem, ← hm, comb_guard _ _ _ hml, decide_eq_false hg1,
      comb_climb _ _ _ hp hne, hpar, hstop]
    rfl
  · obtain ⟨f2, rfl⟩ : ∃ f2, f = f2 + 1 := ⟨f - 1, by omega⟩
    have hb2 := hb2 hmpos
    have hp2 : 2 * m < 2 * ss.length + 1 := by omega
    have hne2 : 2 * m ≠ 0 := by omega
    have hpar2 : (if (2 * m) % 2 = 0 then 2 * m - 2 else 2 * m - 1) = 2 * (m - 1) := by
      have : (2 * m) % 2 = 0 := by omega
      simp [this]; omega
    have e1 : (2 * m) ≠ 2 * m + 1 := by omega
    have hg2 : ¬ ((Function.update c (2 * m + 1) ((c (2 * m + 1) + 1) % UINT) (2 * m) + 1) % UINT
        < Function.update c (2 * m + 1) ((c (2 * m + 1) + 1) % UINT) (2 * m + 1)) := by
      rw [Function.update_noteq e1, Function.update_same, Nat.mod_eq_of_lt hb1, hlc]
      omega
    have hg3 : ¬ ((Function.update (Function.update c (2 * m + 1) ((c (2 * m + 1) + 1) % UINT))
          (2 * m) ((Function.update c (2 * m + 1) ((c (2 * m + 1) + 1) % UINT) (2 * m) + 1) % UINT)
          (2 * m) + 1) % UINT
        < Function.update (Function.update c (2 * m + 1) ((c (2 * m + 1) + 1) % UINT))
          (2 * m) ((Function.update c (2 * m + 1) ((c (2 * m + 1) + 1) % UINT) (2 * m) + 1) % UINT)
          (2 * m + 1)) := by
      rw [Function.update_same, Function.update_noteq e1, Function.update_noteq e1.symm,
        Function.update_same, Nat.mod_eq_of_lt hb1, hlc, Nat.mod_eq_of_lt (by omega)]
      omega
    obtain ⟨t1, h1⟩ := comb_trace_spine ss s m hs hmem hm (m - 1) _ f2 (by omega) (by omega) hg3
    apply hfin _ t1
    rw [rebalance_trace]
    simp only [hroot, hne, if_false, comb_getData _ _ _ (show s < 513 by omega),
      combData_mem _ _ hs hmem, ← hm, comb_guard _ _ _ hml, decide_eq_false hg1,
      comb_climb _ _ _ hp hne, hpar]
    rw [rebalance_trace]
    simp only [hroot, hne2, if_false, comb_getData _ _ _ (show s < 513 by omega),
      combData_mem _ _ hs hmem, ← hm, comb_guard _ _ _ hml, decide_eq_false hg2,
      comb_climb _ _ _ hp2 hne2, hpar2, h1]
    have e : m + 1 = (m - 1) + 1 + 1 := by omega
    rw [e]
    rfl

theorem comb_insert_trace (ss : List Nat) (c : Nat → Nat) (s : Nat) (hn : ss.Nodup)
    (hb : ∀ x ∈ ss, x < 256) (hs : s < 256) (ok : StepOk ss c s) (fuel : Nat)
    (hf : 257 ≤ fuel) :
    insert_trace fuel (combTree ss c) s
      = some (List.replicate ((observe ss s).indexOf s + 1) false,
          combTree (observe ss s) (bump ((observe ss s).indexOf s) c)) := by
  have hins := comb_insert_ok ss c s hn hb hs ok fuel hf
  have heq := insert_trace_eq fuel (combTree ss c) s
  rw [hins] at heq
  have hlen := nodup_bytes_length ss hn hb
  have key : ∃ t1, insert_trace fuel (combTree ss c) s
      = some (List.replicate ((observe ss s).indexOf s + 1) false, t1) := by
    unfold StepOk at ok
    by_cases hmem : s ∈ ss
    · rw [if_pos hmem] at ok
      have hobs : observe ss s = ss := by simp [observe, hmem]
      have hidx : ss.indexOf s < ss.length := List.indexOf_lt_length.mpr hmem
      rw [hobs]
      obtain ⟨t1, h1⟩ := comb_trace_leaf ss c s _ hs hmem rfl fuel (by omega) ok.1 ok.2.1 ok.2.2
      refine ⟨t1, ?_⟩
      simp only [insert_trace, comb_getData _ _ _ (show s < 513 by omega),
        combData_mem _ _ hs hmem, Option.bind_eq_bind, Option.some_bind, Data.exists_,
        Option.isSome_some, if_true]
      exact h1
    · rw [if_neg hmem] at ok
      have hobs : observe ss s = ss ++ [s] := by simp [observe, hmem]
      have hk := nodup_bytes_length_lt ss hn hb s hs hmem
      have hU : UINT = 4294967296 := rfl
      have hcev : ((combTree ss c).current_empty_value + 1) % UINT = 257 + ss.length := by
        simp only [combTree, hU]; omega
      have hmem2 : s ∈ ss ++ [s] := by simp
      have hidx : ss.length = List.indexOf s (ss ++ [s]) := by
        rw [List.indexOf_append_of_not_mem hmem]; simp
      have hz1 := ok (2 * ss.length) (by omega)
      have hz2 := ok (2 * ss.length + 1) (by omega)
      have hz3 := ok (2 * ss.length + 2) (by omega)
      obtain ⟨t1, h1⟩ := comb_trace_leaf (ss ++ [s]) c s ss.length hs hmem2 hidx fuel
        (by omega) (by omega) (by rw [hz1, hU]; omega) (by intro _; rw [hz1, hU]; omega)
      rw [hobs, ← hidx]
      refine ⟨t1, ?_⟩
      have hex : Data.exists_ { ptr := none, iter := none } = false := rfl
      unfold insert_trace
      simp only [comb_getData _ _ _ (show s < 513 by omega), combData_not_mem _ _ hs hmem,
        Option.bind_eq_bind, Option.some_bind, hex, Bool.false_eq_true, if_false]
      rw [hcev, comb_attach ss c s hz2 hz3, comb_register ss c s hs hmem hk, Option.some_bind,
        Option.some_bind]
      dsimp only
      have hroot : (combTree ss c).root = 0 := rfl
      rw [hroot]
      have hst : Huffman_Tree.mk (257 + ss.length)
          (List.map (combNode (ss ++ [s]) c) (List.range (2 * (ss ++ [s]).length + 1)))
          (List.range (2 * (ss ++ [s]).length + 1))
          (List.map (combData (ss ++ [s])) (List.range 513))
          0 (2 * (ss ++ [s]).length)
          = combTree (ss ++ [s]) c := by
        have e : 257 + ss.length = 256 + (ss ++ [s]).length := by
          simp only [List.length_append, List.length_singleton]; omega
        rw [e]
        rfl
      rw [hst, h1]
  obtain ⟨t1, h1⟩ := key
  rw [h1] at heq ⊢
  simp only [Option.map_some', Option.some.injEq] at heq
  rw [heq]

theorem weights_stepOk (ss : List Nat) (c : Nat → Nat) (n s : Nat)
    (w : Weights ss.length c n) (hlt : n + 1 < UINT) : StepOk ss c s := by
  unfold StepOk
  by_cases hmem : s ∈ ss
  · rw [if_pos hmem]
    have hidx : ss.indexOf s < ss.length := List.indexOf_lt_length.mpr hmem
    have h1 := w.sum _ hidx
    have h2 := w.room _ (Nat.le_of_lt hidx)
    refine ⟨by omega, by omega, by intro _; omega⟩
  · rw [if_neg hmem]
    exact w.esc

/-- C13: the record kept along `insert` changes nothing in its result; and after
fewer than `2^32 - 1` inserts of bytes on a fresh tree one more insert of a byte
`s` finds the guard of `increase_and_rebalance` false in every round of the
loop, so no round runs `swap_nodes` and every round moves `current` to its
parent, and the loop makes as many rounds as the code of `s` has bits, the depth
of the leaf of `s`. -/
theorem swap_unreachable (x : List Nat) (s : Nat) (hx : ∀ b ∈ x, b < 256) (hs : s < 256)
    (hlen : x.length + 1 < UINT) (fuel : Nat) (hf : 257 ≤ fuel) :
    (∀ t, (insert_trace fuel t s).map Prod.snd = insert fuel t s)
      ∧ ∃ t t1 code, insertAll fuel Huffman_Tree.fresh x = some t
          ∧ insert_trace fuel t s = some (List.replicate code.length false, t1)
          ∧ get_symbol_code fuel t1 s = some code := by
  refine ⟨fun t => insert_trace_eq fuel t s, ?_⟩
  obtain ⟨h1, hn, hb, w⟩ := comb_insertAll fuel hf x [] (fun _ => 0) 0 List.nodup_nil
    (by intro b hb; cases hb) weights_zero hx (by omega)
  rw [← fresh_eq_comb] at h1
  rw [Nat.zero_add] at w
  have ok := weights_stepOk _ _ _ s w hlen
  have htr := comb_insert_trace _ _ s hn hb hs ok fuel hf
  have hmem : s ∈ observe (firsts [] x) s := (mem_observe _ s s).mpr (Or.inr rfl)
  have hn2 := observe_nodup _ s hn
  have hb2 := observe_bytes _ s hs hb
  have hk := nodup_bytes_length _ hn2 hb2
  have hidx : (observe (firsts [] x) s).indexOf s < (observe (firsts [] x) s).length :=
    List.indexOf_lt_length.mpr hmem
  have hcode := comb_symbol_code (observe (firsts [] x) s)
    (bump ((observe (firsts [] x) s).indexOf s) (countsAfter [] (fun _ => 0) x)) s fuel hs hmem
    (by omega)
  refine ⟨_, _, List.replicate ((observe (firsts [] x) s).indexOf s) 0 ++ [1], h1, ?_, hcode⟩
  rw [htr, List.length_append, List.length_replicate, List.length_singleton]

theorem swap_unreachable_witness :
    (∀ t, (insert_trace 600 t 65).map Prod.snd = insert 600 t 65)
      ∧ ∃ t t1 code, insertAll 600 Huffman_Tree.fresh [65, 66, 66] = some t
          ∧ insert_trace 600 t 65 = some (List.replicate code.length false, t1)
          ∧ get_symbol_code 600 t1 65 = some code :=
  swap_unreachable [65, 66, 66] 65 (by decide) (by decide) (by decide) 600 (by decide)

theorem insertAll_trace (x : List Nat) (s : Nat) (hx : ∀ b ∈ x, b < 256) (hs : s < 256)
    (hlen : x.length + 1 < UINT) (fuel : Nat) (hf : 257 ≤ fuel) :
    insertAll fuel Huffman_Tree.fresh x
        = some (combTree (firsts [] x) (countsAfter [] (fun _ => 0) x))
      ∧ insert_trace fuel (combTree (firsts [] x) (countsAfter [] (fun _ => 0) x)) s
        = some (List.replicate ((observe (firsts [] x) s).indexOf s + 1) false,
            combTree (observe (firsts [] x) s)
              (bump ((observe (firsts [] x) s).indexOf s) (countsAfter [] (fun _ => 0) x))) := by
  obtain ⟨h1, hn, hb, w⟩ := comb_insertAll fuel hf x [] (fun _ => 0) 0 List.nodup_nil
    (by intro b hb; cases hb) weights_zero hx (by omega)
  rw [← fresh_eq_comb] at h1
  rw [Nat.zero_add] at w
  exact ⟨h1, comb_insert_trace _ _ s hn hb hs (weights_stepOk _ _ _ s w hlen) fuel hf⟩

/-- C14 (amended): on a fresh tree the inserts 0x41 0x42 0x41 exercise no
rebalancing step. The third insert runs the loop of `increase_and_rebalance`
once, finds its guard false and performs no `swap_nodes`; apart from the counts
the tree after it is the tree before it: the same list, the same table, and in
every node the same symbol, side, parent and children. The three bytes decode
back exactly: with a budget of at least 600 the encoder writes some bytes `out`
for them, and the decoder run on `out` writes the three bytes. -/
theorem aba_no_swap (fuel : Nat) (hf : 257 ≤ fuel) :
    (∃ t t1, insertAll fuel Huffman_Tree.fresh [65, 66] = some t
      ∧ insert_trace fuel t 65 = some ([false], t1)
      ∧ t1.lst = t.lst ∧ t1.symbols_in_stock = t.symbols_in_stock
      ∧ t1.root = t.root ∧ t1.last_leave = t.last_leave
      ∧ t1.heap.map (fun n => { n with count := 0 }) = t.heap.map (fun n => { n with count := 0 }))
      ∧ ∀ fe, 600 ≤ fe → ∃ out, Encoder.Encoder fe [65, 66, 65] = some out
          ∧ ∀ fd, 8 * out.length + 257 ≤ fd → Decoder.Decoder fd out = some [65, 66, 65] := by
  refine ⟨?_, fun fe hfe => roundtrip_cons 65 [66, 65] (by decide) (Or.inr (by decide))
    (by decide) fe hfe⟩
  obtain ⟨h1, h2⟩ := insertAll_trace [65, 66] 65 (by decide) (by decide) (by decide) fuel hf
  have e1 : firsts [] [65, 66] = [65, 66] := by decide
  have e2 : observe [65, 66] 65 = [65, 66] := by decide
  have e3 : List.indexOf 65 [65, 66] = 0 := by decide
  rw [e1] at h1 h2
  rw [e2, e3] at h2
  refine ⟨_, _, h1, h2, rfl, rfl, rfl, rfl, ?_⟩
  decide

/-- C14 witness: the three inserts with the iteration budget 257. -/
theorem aba_no_swap_witness :
    (∃ t t1, insertAll 257 Huffman_Tree.fresh [65, 66] = some t
      ∧ insert_trace 257 t 65 = some ([false], t1)
      ∧ t1.lst = t.lst ∧ t1.symbols_in_stock = t.symbols_in_stock
      ∧ t1.root = t.root ∧ t1.last_leave = t.last_leave
      ∧ t1.heap.map (fun n => { n with count := 0 }) = t.heap.map (fun n => { n with count := 0 }))
      ∧ ∀ fe, 600 ≤ fe → ∃ out, Encoder.Encoder fe [65, 66, 65] = some out
          ∧ ∀ fd, 8 * out.length + 257 ≤ fd → Decoder.Decoder fd out = some [65, 66, 65] :=
  aba_no_swap 257 (by decide)

/-- C14 fails as stated: in the third of the inserts 0x41 0x42 0x41 the guard of
`increase_and_rebalance` is read once and is false, so the number of node
exchanges is 0, not 1. The leaf of 0x41 is the right child of the root and its
list predecessor is the root, whose count 2 is not below the count 1 of the
leaf. -/
theorem aba_swap_count_zero :
    ∃ t tr t1 p, insertAll 257 Huffman_Tree.fresh [65, 66] = some t
      ∧ insert_trace 257 t 65 = some (tr, t1) ∧ tr.count true = 0
      ∧ get_symbol_code 257 t 65 = some [1]
      ∧ entryCount t 0 = some p ∧ entryCount t 1 = some 1 ∧ ¬ (p + 1 < 1) := by
  obtain ⟨h1, h2⟩ := insertAll_trace [65, 66] 65 (by decide) (by decide) (by decide) 257
    (by decide)
  have e1 : firsts [] [65, 66] = [65, 66] := by decide
  have e2 : observe [65, 66] 65 = [65, 66] := by decide
  have e3 : List.indexOf 65 [65, 66] = 0 := by decide
  rw [e1] at h1 h2
  rw [e2, e3] at h2
  refine ⟨_, _, _, 2, h1, h2, by decide, ?_, ?_, ?_, by decide⟩
  · exact comb_symbol_code [65, 66] _ 65 257 (by decide) (by decide) (by decide)
  · rw [comb_entryCount [65, 66] _ 0 (by decide)]
    decide
  · rw [comb_entryCount [65, 66] _ 1 (by decide)]
    decide

theorem firsts_indexOf (xs ss : List Nat) (a : Nat) (ha : a ∈ ss) :
    (firsts ss xs).indexOf a = ss.indexOf a := by
  rw [firsts_eq_filter, List.indexOf_append_of_mem ha]

theorem indexOf_inj (l : List Nat) (a s : Nat) (ha : a ∈ l) (hs : s ∈ l)
    (h : l.indexOf s = l.indexOf a) : a = s := by
  have h1 := getD_indexOf l a ha
  have h2 := getD_indexOf l s hs
  rw [h] at h2
  rw [← h1, h2]

theorem weights_observe {ss : List Nat} {c : Nat → Nat} {n : Nat} (w : Weights ss.length c n)
    (hn : n + 1 < UINT) (a : Nat) :
    Weights (observe ss a).length (bump ((observe ss a).indexOf a) c) (n + 1) := by
  by_cases hmem : a ∈ ss
  · have hobs : observe ss a = ss := by simp [observe, hmem]
    rw [hobs]
    exact weights_bump_old w hn _ (List.indexOf_lt_length.mpr hmem)
  · have hobs : observe ss a = ss ++ [a] := by simp [observe, hmem]
    have hidx : List.indexOf a (ss ++ [a]) = ss.length := by
      rw [List.indexOf_append_of_not_mem hmem]; simp
    rw [hobs, hidx]
    have := weights_bump_new w hn
    simpa using this

theorem counts_leaf : ∀ (xs ss : List Nat) (c : Nat → Nat) (n : Nat),
    Weights ss.length c n → n + xs.length < UINT → ∀ s, s ∈ firsts ss xs →
      countsAfter ss c xs (2 * (firsts ss xs).indexOf s + 1)
        = c (2 * (firsts ss xs).indexOf s + 1) + xs.count s := by
  intro xs
  induction xs with
  | nil => intro ss c n _ _ s _; simp [countsAfter]
  | cons a rest ih =>
    intro ss c n w hlen s hs
    rw [List.length_cons] at hlen
    have hF : firsts ss (a :: rest) = firsts (observe ss a) rest := rfl
    have hC : countsAfter ss c (a :: rest)
        = countsAfter (observe ss a) (bump ((observe ss a).indexOf a) c) rest := rfl
    rw [hF] at hs ⊢
    rw [hC, ih (observe ss a) _ (n + 1) (weights_observe w (by omega) a) (by omega) s hs,
      bump_eq w (by omega), List.count_cons]
    have ha : a ∈ observe ss a := (mem_observe ss a a).mpr (Or.inr rfl)
    have haF : a ∈ firsts (observe ss a) rest := (mem_firsts rest _ a).mpr (Or.inl ha)
    have hia := firsts_indexOf rest (observe ss a) a ha
    by_cases e : a = s
    · subst e
      rw [hia]
      simp
      omega
    · have hne : (firsts (observe ss a) rest).indexOf s ≠ (observe ss a).indexOf a := by
        intro h
        rw [← hia] at h
        exact e (indexOf_inj _ a s haF hs h)
      have hc : ¬ (2 * (firsts (observe ss a) rest).indexOf s + 1
            = 2 * (observe ss a).indexOf a + 1
          ∨ ((2 * (firsts (observe ss a) rest).indexOf s + 1) % 2 = 0
            ∧ 2 * (firsts (observe ss a) rest).indexOf s + 1 ≤ 2 * (observe ss a).indexOf a)) := by
        omega
      rw [if_neg hc]
      simp [e]

/-- C15: after the inserts of the bytes of a sequence `x` of fewer than `2^32`
bytes on a fresh tree, every byte `c` of `x` has a table entry that refers to a
node without children whose symbol is `c` and whose count is the number of
occurrences of `c` in `x`; the count of the root is the length of `x` and the
count of the escape leaf `last_leave` is 0. -/
theorem weights_are_counts (x : List Nat) (hx : ∀ b ∈ x, b < 256) (hlen : x.length < UINT)
    (fuel : Nat) (hf : 257 ≤ fuel) :
    ∃ t r e, insertAll fuel Huffman_Tree.fresh x = some t
      ∧ getNode t.heap t.root = some r ∧ r.count = x.length
      ∧ getNode t.heap t.last_leave = some e ∧ e.count = 0
      ∧ e.left_child = none ∧ e.right_child = none
      ∧ ∀ c ∈ x, ∃ d p n, getData t.symbols_in_stock c = some d ∧ d.ptr = some p
          ∧ getNode t.heap p = some n ∧ n.symbol = c ∧ n.left_child = none
          ∧ n.right_child = none ∧ n.count = x.count c
          ∧ leaf_count t c = some (x.count c) := by
  obtain ⟨h1, hn, hb, w⟩ := comb_insertAll fuel hf x [] (fun _ => 0) 0 List.nodup_nil
    (by intro b hb; cases hb) weights_zero hx (by omega)
  rw [← fresh_eq_comb] at h1
  rw [Nat.zero_add] at w
  have hleaf := counts_leaf x [] (fun _ => 0) 0 weights_zero (by omega)
  refine ⟨_, _, _, h1, comb_getNode _ _ 0 (by omega), ?_,
    comb_getNode _ _ (2 * (firsts [] x).length) (by omega), ?_, ?_, ?_, ?_⟩
  · rw [combNode_count, w.root]
  · rw [combNode_count, w.esc _ (Nat.le_refl _)]
  · simp [combNode]
  · simp [combNode]
  · intro c hc
    have hmem : c ∈ firsts [] x := (mem_firsts x [] c).mpr (Or.inr hc)
    have hidx : (firsts [] x).indexOf c < (firsts [] x).length := List.indexOf_lt_length.mpr hmem
    have hcnt := hleaf c hmem
    rw [Nat.zero_add] at hcnt
    have hodd : (2 * (firsts [] x).indexOf c + 1) % 2 ≠ 0 := by omega
    have hdiv : (2 * (firsts [] x).indexOf c + 1) / 2 = (firsts [] x).indexOf c := by omega
    refine ⟨_, _, _, comb_getData _ _ c (by have := hx c hc; omega), ?_,
      comb_getNode _ _ (2 * (firsts [] x).indexOf c + 1) (by omega), ?_, ?_, ?_, ?_, ?_⟩
    · rw [combData_mem _ _ (hx c hc) hmem]
    · simp only [combNode, hodd, if_false, hdiv]
      exact getD_indexOf _ c hmem
    · simp only [combNode, hodd, if_false]
    · simp only [combNode, hodd, if_false]
    · rw [combNode_count, hcnt]
    · rw [comb_leaf_count _ _ c (hx c hc) hmem, hcnt]

/-- C15 witness: the occurrence counts on the input `0x41 0x42 0x41`. -/
theorem weights_are_counts_witness :
    ∃ t r e, insertAll 257 Huffman_Tree.fresh [65, 66, 65] = some t
      ∧ getNode t.heap t.root = some r ∧ r.count = [65, 66, 65].length
      ∧ getNode t.heap t.last_leave = some e ∧ e.count = 0
      ∧ e.left_child = none ∧ e.right_child = none
      ∧ ∀ c ∈ [65, 66, 65], ∃ d p n, getData t.symbols_in_stock c = some d ∧ d.ptr = some p
          ∧ getNode t.heap p = some n ∧ n.symbol = c ∧ n.left_child = none
          ∧ n.right_child = none ∧ n.count = [65, 66, 65].count c
          ∧ leaf_count t c = some ([65, 66, 65].count c) :=
  weights_are_counts [65, 66, 65] (by decide) (by decide) 257 (by decide)

theorem stream_active (d : Decoder) (bs : List Nat) (h : Stream d bs) :
    d.stream_is_active = decide (bs ≠ []) := by
  obtain ⟨_, _, h⟩ := h
  rcases h with ⟨hne, hact, _, _⟩ | ⟨hnil, hact⟩
  · rw [hact]; simp [hne]
  · rw [hact]; simp [hnil]

theorem next_bits_stream : ∀ (k : Nat) (d : Decoder) (bs : List Nat), Stream d bs →
    k ≤ bs.length →
    (Decoder.next_bits k d).1 = (bs.take k).map (fun b => b != 0)
      ∧ Stream (Decoder.next_bits k d).2 (bs.drop k) := by
  intro k
  induction k with
  | zero => intro d bs h _; exact ⟨rfl, h⟩
  | succ k ih =>
    intro d bs h hk
    cases bs with
    | nil => simp at hk
    | cons b rest =>
      obtain ⟨_, hbit, hst, _⟩ := next_bit_stream d b rest h
      obtain ⟨h1, h2⟩ := ih (d.next_bit).2 rest hst (by simpa using hk)
      refine ⟨?_, ?_⟩
      · show (d.next_bit).1 :: (Decoder.next_bits k (d.next_bit).2).1 = _
        rw [hbit, h1]
        rfl
      · exact h2

theorem bytesToBits_literal : ∀ (a : List Nat), (∀ b ∈ a, b < 256) →
    bytesToBits a = (a.map literal8).join := by
  intro a
  induction a with
  | nil => intro _; rfl
  | cons x rest ih =>
    intro h
    simp only [bytesToBits, List.map_cons, List.join_cons,
      ih (fun b hb => h b (List.mem_cons_of_mem _ hb)),
      bits8_literal8 x (h x (List.mem_cons_self _ _))]

/-- C16: let the reader be active with `current_byte = c` the first of the
`n = rest.length + 1` remaining source bytes `c :: rest`, the mask at 128 and the
counter at 0. Then for every `k ≤ 8 * n` the first `k` calls of `next_bit` return
the first `k` bits of these bytes, each byte most significant bit first, and
after them `stream_is_active` is true for `k < 8 * n` and false for `k = 8 * n`. -/
theorem bit_unpacking (d : Decoder) (c : Nat) (rest : List Nat)
    (hb : ∀ b ∈ c :: rest, b < 256) (hc : d.current_byte = c) (hfin : d.fin = rest)
    (hm : d.position_mask = 128) (hcnt : d.cnt = counter.new 8)
    (ha : d.stream_is_active = true) (k : Nat) (hk : k ≤ 8 * (rest.length + 1)) :
    (Decoder.next_bits k d).1
        = ((((c :: rest).map literal8).join).take k).map (fun b => b != 0)
      ∧ (Decoder.next_bits k d).2.stream_is_active = decide (k < 8 * (rest.length + 1)) := by
  have hlen : (bytesToBits (c :: rest)).length = 8 * (rest.length + 1) := by
    rw [bytesToBits_length, List.length_cons]
  have hs : Stream d (bytesToBits (c :: rest)) := by
    refine ⟨by rw [hcnt]; rfl, by rw [hcnt]; simp [counter.new], Or.inl ⟨?_, ha, ?_, ?_⟩⟩
    · intro h
      have := congrArg List.length h
      rw [hlen] at this
      simp at this
    · rw [hm, hcnt]; rfl
    · rw [hc, hfin, hcnt]; simp [counter.new, bytesToBits]
  obtain ⟨h1, h2⟩ := next_bits_stream k d _ hs (by rw [hlen]; exact hk)
  refine ⟨?_, ?_⟩
  · rw [h1, bytesToBits_literal _ hb]
  · rw [stream_active _ _ h2]
    have e : ((bytesToBits (c :: rest)).drop k ≠ []) ↔ k < 8 * (rest.length + 1) := by
      rw [ne_eq, List.drop_eq_nil_iff, hlen]
      omega
    simp only [e]

/-- C16 witness: the sixteen bits of the two source bytes `0x41 0x80`. -/
theorem bit_unpacking_witness :
    (Decoder.next_bits 16
        { tree := Huffman_Tree.fresh, adapter := some 0, delimiter_reached := false,
          stream_is_active := true, position_mask := 128, cnt := counter.new 8,
          current_byte := 65, fin := [128], fout := [] }).1
        = (((([65, 128] : List Nat).map literal8).join).take 16).map (fun b => b != 0)
      ∧ (Decoder.next_bits 16
        { tree := Huffman_Tree.fresh, adapter := some 0, delimiter_reached := false,
          stream_is_active := true, position_mask := 128, cnt := counter.new 8,
          current_byte := 65, fin := [128], fout := [] }).2.stream_is_active
        = decide (16 < 8 * (([128] : List Nat).length + 1)) :=
  bit_unpacking _ 65 [128] (by decide) rfl rfl rfl rfl rfl 16 (by decide)

theorem encBits_pair (b : Nat) : encBits [] [b, b] = bits8 b ++ [1] := by
  have hobs : observe [] b = [b] := by simp [observe]
  have hobs2 : observe [b] b = [b] := by simp [observe]
  simp [encBits, hobs, hobs2]

theorem encoder_pair (b : Nat) (hb : b < 256) (fuel : Nat) (hf : 600 ≤ fuel) :
    Encoder.Encoder fuel [b, b] = some [b, 128] := by
  have hx : ∀ y ∈ [b, b], y < 256 := by
    intro y hy
    simp only [List.mem_cons, List.mem_singleton, List.not_mem_nil, or_false, or_self] at hy
    rw [hy]; exact hb
  obtain ⟨out, p, ho, hp, hbits, hout⟩ := encoder_spec [b, b] hx (List.cons_ne_nil _ _)
    (by show 2 < 4294967296; omega) fuel hf
  rw [encBits_pair, List.append_assoc] at hbits
  obtain ⟨orest, he, hr⟩ := first_byte_split out b _ hb hout hbits
  have hl := congrArg List.length hr
  rw [bytesToBits_length, List.length_append, List.length_singleton, List.length_replicate] at hl
  have hp7 : p = 7 := by omega
  have hl1 : orest.length = 1 := by omega
  rw [ho, he]
  match orest, hl1 with
  | [o], _ =>
    have ho256 : o < 256 := hout o (by rw [he]; simp)
    have h128 : bits8 o = bits8 128 := by
      simp only [bytesToBits, List.append_nil, hp7] at hr
      rw [hr]
      decide
    rw [bits8_inj o 128 ho256 (by decide) h128]

/-- C17: for every byte `b`, after the insert of `b` into a fresh tree the root
has two children: the left one is the escape leaf `last_leave`, without children
and with a synthetic id, the right one is a node without children whose symbol
is `b`. The code of `b` is the one bit 1 and the escape code the one bit 0, and
the encoder run on the two bytes `b b` writes exactly the two bytes `b 0x80`. -/
theorem two_equal_bytes (b : Nat) (hb : b < 256) (fuel : Nat) (hf : 600 ≤ fuel) :
    ∃ t r l nl q nq, insert fuel Huffman_Tree.fresh b = some t
      ∧ getNode t.heap t.root = some r ∧ r.left_child = some l ∧ r.right_child = some q
      ∧ l = t.last_leave ∧ getNode t.heap l = some nl ∧ nl.left_child = none
      ∧ nl.right_child = none ∧ 256 ≤ nl.symbol
      ∧ getNode t.heap q = some nq ∧ nq.left_child = none ∧ nq.right_child = none
      ∧ nq.symbol = b
      ∧ get_symbol_code fuel t b = some [1] ∧ get_delim_code fuel t = some [0]
      ∧ Encoder.Encoder fuel [b, b] = some [b, 128] := by
  have h := (first_insert fuel (by omega) b hb).1
  have hsym := comb_symbol_code [b] (bump 0 (fun _ => 0)) b fuel hb (by simp) (by simp; omega)
  have hdel := comb_delim_code [b] (bump 0 (fun _ => 0)) fuel (by simp; omega)
  have hi : List.indexOf b [b] = 0 := by simp
  rw [hi] at hsym
  refine ⟨_, _, 2, _, 1, _, h, comb_getNode _ _ 0 (by simp), ?_, ?_, ?_,
    comb_getNode _ _ 2 (by simp), ?_, ?_, ?_, comb_getNode _ _ 1 (by simp), ?_, ?_, ?_,
    hsym, hdel, encoder_pair b hb fuel hf⟩
  all_goals simp [combNode, combTree]

/-- C17 witness: the byte `0x41`. -/
theorem two_equal_bytes_witness :
    ∃ t r l nl q nq, insert 600 Huffman_Tree.fresh 65 = some t
      ∧ getNode t.heap t.root = some r ∧ r.left_child = some l ∧ r.right_child = some q
      ∧ l = t.last_leave ∧ getNode t.heap l = some nl ∧ nl.left_child = none
      ∧ nl.right_child = none ∧ 256 ≤ nl.symbol
      ∧ getNode t.heap q = some nq ∧ nq.left_child = none ∧ nq.right_child = none
      ∧ nq.symbol = 65
      ∧ get_symbol_code 600 t 65 = some [1] ∧ get_delim_code 600 t = some [0]
      ∧ Encoder.Encoder 600 [65, 65] = some [65, 128] :=
  two_equal_bytes 65 (by decide) 600 (by decide)

theorem next_bit_tree (d : Decoder) : (d.next_bit).2.tree = d.tree := by
  unfold Decoder.next_bit
  simp only
  split
  · rfl
  · split <;> rfl

theorem read_literal_tree : ∀ (n : Nat) (d : Decoder) (acc : Nat),
    (Decoder.read_literal n d acc).2.tree = d.tree := by
  intro n
  induction n with
  | zero => intro d acc; rfl
  | succ n ih =>
    intro d acc
    rw [Decoder.read_literal, ih, next_bit_tree]

theorem resolve_zero_at (fuel : Nat) (d : Decoder) (t1 : Huffman_Tree)
    (hnot : adapter_is_symbol_code d.tree d.adapter = some false)
    (hv : (Decoder.read_literal 8 d 0).1 = 0) (hins : insert fuel d.tree 0 = some t1) :
    ∃ d2, Decoder.resolve fuel d = some d2 ∧ d2.tree = t1 ∧ d2.adapter = some t1.root
      ∧ d2.fout = d.fout ∧ d2.stream_is_active = false := by
  have r3 := read_literal_tree 8 d 0
  have r5 := read_literal_fout 8 d 0
  unfold Decoder.resolve
  rw [hnot]
  simp only [Option.bind_eq_bind, Option.some_bind, Bool.false_eq_true, if_false]
  generalize Decoder.read_literal 8 d 0 = r at hv r3 r5
  obtain ⟨sym, e⟩ := r
  simp only at hv r3 r5
  subst hv
  simp only [ne_eq, not_true_eq_false, if_false, Option.some_bind]
  have hi : insert fuel e.tree 0 = some t1 := by rw [r3]; exact hins
  rw [hi]
  exact ⟨_, rfl, rfl, rfl, r5, rfl⟩

theorem comb_bump_ne (ss ss1 : List Nat) (m : Nat) (c : Nat → Nat) (h0 : c 0 + 1 < UINT) :
    combTree ss1 (bump m c) ≠ combTree ss c := by
  intro h
  have h1 := comb_entryCount ss1 (bump m c) 0 (by omega)
  have h2 := comb_entryCount ss c 0 (by omega)
  rw [h, h2] at h1
  have h3 := Option.some.inj h1
  unfold bump at h3
  rw [if_pos (Or.inr ⟨rfl, Nat.zero_le _⟩), Nat.mod_eq_of_lt h0] at h3
  omega

theorem resolve_zero_none (fuel : Nat) (d : Decoder)
    (hnot : adapter_is_symbol_code d.tree d.adapter = some false)
    (hv : (Decoder.read_literal 8 d 0).1 = 0) (hins : insert fuel d.tree 0 = none) :
    Decoder.resolve fuel d = none := by
  have r3 := read_literal_tree 8 d 0
  unfold Decoder.resolve
  rw [hnot]
  simp only [Option.bind_eq_bind, Option.some_bind, Bool.false_eq_true, if_false]
  generalize Decoder.read_literal 8 d 0 = r at hv r3
  obtain ⟨sym, e⟩ := r
  simp only at hv r3
  subst hv
  simp only [ne_eq, not_true_eq_false, if_false, Option.some_bind]
  have hi : insert fuel e.tree 0 = none := by rw [r3]; exact hins
  rw [hi]
  rfl

theorem sentinel_bounded (x : List Nat) (hx : ∀ b ∈ x, b < 256)
    (hlen : x.length + 1 < UINT) (fuel : Nat) (hf : 257 ≤ fuel) (d : Decoder)
    (t : Huffman_Tree) (hins : insertAll fuel Huffman_Tree.fresh x = some t)
    (ht : d.tree = t) (ha : d.adapter = some t.last_leave)
    (hv : (Decoder.read_literal 8 d 0).1 = 0) :
    ∃ d2 t2, Decoder.resolve fuel d = some d2 ∧ d2.fout = d.fout
      ∧ d2.stream_is_active = false ∧ insert fuel t 0 = some t2 ∧ d2.tree = t2
      ∧ t2 ≠ t ∧ t2.exists_ 0 = some true := by
  obtain ⟨h1, hn, hb, w⟩ := comb_insertAll fuel hf x [] (fun _ => 0) 0 List.nodup_nil
    (by intro b hb; cases hb) weights_zero hx (by omega)
  rw [← fresh_eq_comb, hins] at h1
  rw [Nat.zero_add] at w
  have et := Option.some.inj h1
  subst et
  obtain ⟨hi, _⟩ := comb_insert _ _ _ 0 hn hb w (by decide) hlen fuel hf
  have hnot : adapter_is_symbol_code d.tree d.adapter = some false := by
    rw [ha, ht]
    exact comb_escape_not_symbol _ _
  obtain ⟨d2, g1, g2, _, g4, g5⟩ := resolve_zero_at fuel d _ hnot hv (by rw [ht]; exact hi)
  refine ⟨d2, _, g1, g4, g5, hi, g2, ?_, ?_⟩
  · exact comb_bump_ne _ _ _ _ (by rw [w.root]; omega)
  · rw [comb_exists _ _ 0 (by decide)]
    have : 0 ∈ observe (firsts [] x) 0 := (mem_observe _ 0 0).mpr (Or.inr rfl)
    simp [this]

/-- C20 (amended): let the next 8 bits of the decoder form the literal 0. If the
adapter is at a node that is not a symbol leaf (the branch taken at the escape
leaf), the body of the loop finishes exactly when `insert(0)` on the tree of the
decoder finishes; it then has written nothing to the output, has cleared
`stream_is_active`, and the tree of the decoder is the tree that insert
returned: `insert(0)` is called. If the tree is the result of fewer than
`2^32 - 1` inserts of bytes on a fresh tree and the adapter is at its escape
leaf, the body does finish, the tree afterwards differs from the tree before,
and the byte 0 exists in it. -/
theorem sentinel_inserts_zero (fuel : Nat) (d : Decoder)
    (hv : (Decoder.read_literal 8 d 0).1 = 0) :
    (adapter_is_symbol_code d.tree d.adapter = some false →
        (∀ d2, Decoder.resolve fuel d = some d2 →
            d2.fout = d.fout ∧ d2.stream_is_active = false
              ∧ insert fuel d.tree 0 = some d2.tree)
          ∧ (∀ t2, insert fuel d.tree 0 = some t2 →
              ∃ d2, Decoder.resolve fuel d = some d2 ∧ d2.fout = d.fout
                ∧ d2.stream_is_active = false ∧ d2.tree = t2))
      ∧ ∀ x t, (∀ b ∈ x, b < 256) → x.length + 1 < UINT → 257 ≤ fuel →
          insertAll fuel Huffman_Tree.fresh x = some t → d.tree = t →
          d.adapter = some t.last_leave →
          ∃ d2 t2, Decoder.resolve fuel d = some d2 ∧ d2.fout = d.fout
            ∧ d2.stream_is_active = false ∧ insert fuel t 0 = some t2 ∧ d2.tree = t2
            ∧ t2 ≠ t ∧ t2.exists_ 0 = some true := by
  refine ⟨fun hnot => ?_, fun x t hx hlen hf hins ht ha =>
    sentinel_bounded x hx hlen fuel hf d t hins ht ha hv⟩
  cases hins : insert fuel d.tree 0 with
  | none =>
    have hr := resolve_zero_none fuel d hnot hv hins
    refine ⟨fun d2 h => ?_, fun t2 h => ?_⟩
    · rw [hr] at h; cases h
    · cases h
  | some t1 =>
    obtain ⟨d3, g1, g2, _, g4, g5⟩ := resolve_zero_at fuel d t1 hnot hv hins
    refine ⟨fun d2 h => ?_, fun t2 h => ?_⟩
    · rw [g1] at h
      have e := Option.some.inj h
      subst e
      exact ⟨g4, g5, by rw [g2]⟩
    · have e := Option.some.inj h
      subst e
      exact ⟨d3, g1, g4, g5, g2⟩

theorem encoder_byte_zero (fuel : Nat) (hf : 600 ≤ fuel) :
    Encoder.Encoder fuel [65, 0] = some [65, 0, 0] := by
  obtain ⟨out, p, ho, hp, hbits, hout⟩ := encoder_spec [65, 0] (by decide)
    (List.cons_ne_nil _ _) (by show 2 < 4294967296; omega) fuel hf
  have e : encBits [] [65, 0] = bits8 65 ++ (bits8 0 ++ [0]) := by decide
  rw [e, List.append_assoc] at hbits
  obtain ⟨o1, he1, hr1⟩ := first_byte_split out 65 _ (by decide) hout hbits
  have hout1 : ∀ y ∈ o1, y < 256 := fun y hy => hout y (by rw [he1]; exact List.mem_cons_of_mem _ hy)
  rw [List.append_assoc] at hr1
  obtain ⟨o2, he2, hr2⟩ := first_byte_split o1 0 _ (by decide) hout1 hr1
  have hl := congrArg List.length hr2
  rw [bytesToBits_length, List.length_append, List.length_singleton, List.length_replicate] at hl
  have hp7 : p = 7 := by omega
  have hl1 : o2.length = 1 := by omega
  rw [ho, he1, he2]
  match o2, hl1 with
  | [o], _ =>
    have ho256 : o < 256 := hout1 o (by rw [he2]; simp)
    have h0 : bits8 o = bits8 0 := by
      simp only [bytesToBits, List.append_nil, hp7] at hr2
      rw [hr2]
      decide
    rw [bits8_inj o 0 ho256 (by decide) h0]

/-- C20 witness: the tree after the insert of 0x41, the adapter at the escape
leaf after the first bit of the input bytes `0x00 0x00`. -/
theorem sentinel_inserts_zero_witness :
    ∃ d2 t2, Decoder.resolve 600
        { tree := combTree [65] (bump 0 (fun _ => 0)), adapter := some 2,
          delimiter_reached := false, stream_is_active := true, position_mask := 64,
          cnt := { i := 1, mod := 8 }, current_byte := 0, fin := [0], fout := [65] } = some d2
      ∧ d2.fout = [65]
      ∧ d2.stream_is_active = false
      ∧ insert 600 (combTree [65] (bump 0 (fun _ => 0))) 0 = some t2 ∧ d2.tree = t2
      ∧ t2 ≠ combTree [65] (bump 0 (fun _ => 0)) ∧ t2.exists_ 0 = some true :=
  (sentinel_inserts_zero 600
    { tree := combTree [65] (bump 0 (fun _ => 0)), adapter := some 2,
      delimiter_reached := false, stream_is_active := true, position_mask := 64,
      cnt := { i := 1, mod := 8 }, current_byte := 0, fin := [0], fout := [65] } rfl).2
    [65] (combTree [65] (bump 0 (fun _ => 0))) (by decide) (by decide) (by decide)
    (by rw [insertAll_cons, (first_insert 600 (by decide) 65 (by decide)).1]; rfl)
    rfl rfl

/-- C20 fails as stated: the decoder run on the three bytes `0x41 0x00 0x00`, the
output of the encoder for `0x41 0x00`, reads the escape code and the literal 0,
writes nothing after the first byte and stops; the byte 0 does not exist in the
tree before the loop and exists in the tree after it, which has one more
synthetic id in use: `insert(0)` was called. -/
theorem sentinel_changes_tree :
    ∃ t d, insert 600 Huffman_Tree.fresh 65 = some t
      ∧ Decoder.loop 600 600 (Decoder.entry t 65 0 [0]) = some d
      ∧ Encoder.Encoder 600 [65, 0] = some [65, 0, 0]
      ∧ Decoder.Decoder 600 [65, 0, 0] = some [65]
      ∧ d.fout = [65] ∧ d.stream_is_active = false
      ∧ t.exists_ 0 = some false ∧ d.tree.exists_ 0 = some true
      ∧ d.tree.current_empty_value = t.current_empty_value + 1 := by
  obtain ⟨hi, w⟩ := first_insert 600 (by decide) 65 (by decide)
  have hn : [65].Nodup := by decide
  have hb : ∀ y ∈ [65], y < 256 := by decide
  have hst := stream_start (combTree [65] (bump 0 (fun _ => 0))) (some 0) 0 [0] [65]
  have e1 : bytesToBits [0, 0]
      = List.replicate [65].length 0 ++ (bits8 0 ++ List.replicate 7 0) := by decide
  rw [e1] at hst
  obtain ⟨d1, i1, i2, i3, i4, i5, _⟩ := decode_escape 600 [65] (bump 0 (fun _ => 0))
    (List.cons_ne_nil _ _) _ 599 rfl rfl _ hst
  have hr := read_literal_stream (bits8 0) d1 0 _ (bits8_bit 0) i5
  rw [bits8_length] at hr
  have hv : (Decoder.read_literal 8 d1 0).1 = 0 := by
    rw [hr.1]; exact val8_bits8 0 (by norm_num)
  obtain ⟨hins, _⟩ := comb_insert [65] (bump 0 (fun _ => 0)) 1 0 hn hb w (by decide)
    (by decide) 600 (by decide)
  have hnot : adapter_is_symbol_code d1.tree d1.adapter = some false := by
    rw [i2, i3]
    exact comb_escape_not_symbol _ _
  obtain ⟨d2, g1, g2, _, g4, g5⟩ := resolve_zero_at 600 d1 _ hnot hv (by rw [i2]; exact hins)
  have hloop : Decoder.loop 600 600 (Decoder.entry (combTree [65] (bump 0 (fun _ => 0))) 65 0 [0])
      = some d2 := by
    have := loop_inactive 600 598 d2 g5
    rw [g1] at i1
    exact i1.trans this
  have hobs : observe [65] 0 = [65, 0] := by decide
  refine ⟨_, d2, hi, hloop, encoder_byte_zero 600 (by decide), ?_, by rw [g4, i4], g5, ?_, ?_, ?_⟩
  · simp only [Decoder.Decoder, hi, Option.bind_eq_bind, Option.some_bind]
    have h2 : Decoder.loop 600 600
        { tree := combTree [65] (bump 0 (fun _ => 0)),
          adapter := some (combTree [65] (bump 0 (fun _ => 0))).root,
          delimiter_reached := false, stream_is_active := true, position_mask := 128,
          cnt := counter.new 8, current_byte := 0, fin := [0], fout := [65] } = some d2 := hloop
    rw [h2, Option.some_bind, g4, i4]
  · rw [comb_exists _ _ 0 (by decide)]
    decide
  · rw [g2, comb_exists _ _ 0 (by decide), hobs]
    decide
  · rw [g2, hobs]
    rfl

/-- C19 (code bug): after the insert of 0x41 into a fresh tree the list has three
entries; the third one is the escape leaf, node 2, whose symbol is the synthetic
id 257. The table entry 257 is empty, and the pointer and the iterator of node 2
are stored in the table entry 256, the id of the root. -/
theorem table_off_by_one :
    ∃ t n, insert 257 Huffman_Tree.fresh 65 = some t ∧ t.lst.length = 3
      ∧ entrySymbol t 2 = some 257
      ∧ getData t.symbols_in_stock 257 = some { ptr := none, iter := none }
      ∧ getData t.symbols_in_stock 256 = some { ptr := some 2, iter := some 2 }
      ∧ getNode t.heap 2 = some n ∧ n.symbol = 257 ∧ entrySymbol t 0 = some 256 := by
  obtain ⟨hi, _⟩ := first_insert 257 (by decide) 65 (by decide)
  refine ⟨_, _, hi, rfl, ?_, ?_, ?_, comb_getNode _ _ 2 (by decide), ?_, ?_⟩
  · rfl
  · rw [comb_getData _ _ 257 (by decide)]
    rfl
  · rw [comb_getData _ _ 256 (by decide)]
    rfl
  · rfl
  · rfl

theorem next_bit_inactive (d : Decoder) (h : d.stream_is_active = false) :
    (d.next_bit).2.stream_is_active = false := by
  unfold Decoder.next_bit
  simp only
  split
  · exact h
  · split
    · exact h
    · rfl

theorem read_literal_inactive : ∀ (n : Nat) (d : Decoder) (acc : Nat),
    d.stream_is_active = false → (Decoder.read_literal n d acc).2.stream_is_active = false := by
  intro n
  induction n with
  | zero => intro d acc h; exact h
  | succ n ih =>
    intro d acc h
    rw [Decoder.read_literal]
    exact ih _ _ (next_bit_inactive d h)

theorem stream_nil_inactive (d : Decoder) (h : Stream d []) : d.stream_is_active = false := by
  obtain ⟨_, _, h⟩ := h
  rcases h with ⟨h1, _⟩ | ⟨_, h2⟩
  · exact absurd rfl h1
  · exact h2

theorem read_literal_ends : ∀ (n : Nat) (d : Decoder) (acc : Nat) (bs : List Nat),
    Stream d bs → bs.length ≤ n →
    (Decoder.read_literal n d acc).2.stream_is_active = false := by
  intro n
  induction n with
  | zero =>
    intro d acc bs h hl
    have : bs = [] := List.length_eq_zero.mp (by omega)
    subst this
    exact stream_nil_inactive d h
  | succ n ih =>
    intro d acc bs h hl
    cases bs with
    | nil => exact read_literal_inactive _ d acc (stream_nil_inactive d h)
    | cons b rest =>
      obtain ⟨_, _, hst, _⟩ := next_bit_stream d b rest h
      rw [Decoder.read_literal]
      exact ih _ _ rest hst (by simpa using hl)

theorem read_literal_lt : ∀ (n : Nat) (d : Decoder) (acc : Nat), acc < 256 →
    (Decoder.read_literal n d acc).1 < 256 := by
  intro n
  induction n with
  | zero => intro d acc h; exact h
  | succ n ih =>
    intro d acc _
    rw [Decoder.read_literal]
    apply ih
    have h1 : (acc <<< 1) % 256 < 2 ^ 8 := Nat.mod_lt _ (by norm_num)
    have h2 : (if (d.next_bit).1 = true then 1 else 0) < 2 ^ 8 := by split <;> norm_num
    exact Nat.or_lt_two_pow h1 h2

theorem bytesToBits_bit : ∀ (a : List Nat), ∀ b ∈ bytesToBits a, b < 2 := by
  intro a
  induction a with
  | nil => intro b hb; cases hb
  | cons x rest ih =>
    intro b hb
    simp only [bytesToBits, List.mem_append] at hb
    rcases hb with h | h
    · exact bits8_bit x b h
    · exact ih b h

theorem stream_bits (d : Decoder) (bs : List Nat) (h : Stream d bs) : ∀ b ∈ bs, b < 2 := by
  obtain ⟨_, _, h⟩ := h
  rcases h with ⟨_, _, _, hp⟩ | ⟨hnil, _⟩
  · intro b hb
    rw [← hp, List.mem_append] at hb
    rcases hb with h | h
    · exact bits8_bit _ b (List.mem_of_mem_drop h)
    · exact bytesToBits_bit _ b h
  · intro b hb
    rw [hnil] at hb
    cases hb

theorem zeros_split : ∀ (bs : List Nat), (∀ b ∈ bs, b < 2) →
    ∃ a rest, bs = List.replicate a 0 ++ rest ∧ (rest = [] ∨ ∃ r, rest = 1 :: r) := by
  intro bs
  induction bs with
  | nil => intro _; exact ⟨0, [], rfl, Or.inl rfl⟩
  | cons b rest ih =>
    intro h
    have hb := h b (List.mem_cons_self _ _)
    obtain ⟨a, r, h1, h2⟩ := ih (fun x hx => h x (List.mem_cons_of_mem _ hx))
    by_cases h0 : b = 0
    · subst h0
      exact ⟨a + 1, r, by rw [h1, List.replicate_succ, List.cons_append], h2⟩
    · have h1b : b = 1 := by omega
      subst h1b
      exact ⟨0, 1 :: rest, rfl, Or.inr ⟨rest, rfl⟩⟩

theorem resolve_literal_at (fuel : Nat) (d : Decoder) (t1 : Huffman_Tree)
    (hnot : adapter_is_symbol_code d.tree d.adapter = some false)
    (hins : insert fuel d.tree (Decoder.read_literal 8 d 0).1 = some t1) :
    ∃ d2, Decoder.resolve fuel d = some d2 ∧ d2.tree = t1 ∧ d2.adapter = some t1.root
      ∧ ((Decoder.read_literal 8 d 0).1 ≠ 0 →
          d2.stream_is_active = (Decoder.read_literal 8 d 0).2.stream_is_active
          ∧ d2.position_mask = (Decoder.read_literal 8 d 0).2.position_mask
          ∧ d2.cnt = (Decoder.read_literal 8 d 0).2.cnt
          ∧ d2.current_byte = (Decoder.read_literal 8 d 0).2.current_byte
          ∧ d2.fin = (Decoder.read_literal 8 d 0).2.fin)
      ∧ (((Decoder.read_literal 8 d 0).2.stream_is_active = false
            ∨ (Decoder.read_literal 8 d 0).1 = 0) → d2.stream_is_active = false) := by
  have r3 := read_literal_tree 8 d 0
  unfold Decoder.resolve
  rw [hnot]
  simp only [Option.bind_eq_bind, Option.some_bind, Bool.false_eq_true, if_false]
  generalize Decoder.read_literal 8 d 0 = r at hins r3
  obtain ⟨sym, e⟩ := r
  simp only at hins r3 ⊢
  have hi : insert fuel e.tree sym = some t1 := by rw [r3]; exact hins
  by_cases h0 : sym = 0
  · subst h0
    simp only [ne_eq, not_true_eq_false, if_false, Option.some_bind]
    rw [hi]
    exact ⟨_, rfl, rfl, rfl, fun h => h.elim, fun _ => rfl⟩
  · simp only [ne_eq, h0, not_false_eq_true, if_true, Option.some_bind]
    rw [hi]
    refine ⟨_, rfl, rfl, rfl, fun _ => ⟨rfl, rfl, rfl, rfl, rfl⟩, ?_⟩
    intro h
    rcases h with h | h
    · exact h
    · exact h.elim

theorem decode_any (fuel : Nat) (hf : 257 ≤ fuel) :
    ∀ (m : Nat) (bs ss : List Nat) (c : Nat → Nat) (n : Nat) (d : Decoder) (k : Nat),
      bs.length ≤ m → ss.Nodup → (∀ x ∈ ss, x < 256) → Weights ss.length c n → ss ≠ [] →
      n + bs.length + 1 < UINT → d.tree = combTree ss c → d.adapter = some 0 → Stream d bs →
      bs.length < k →
      ∃ d2 ss2 c2 n2, Decoder.loop fuel k d = some d2 ∧ d2.tree = combTree ss2 c2 ∧ ss2.Nodup
        ∧ (∀ x ∈ ss2, x < 256) ∧ Weights ss2.length c2 n2 ∧ ss2 ≠ [] := by
  intro m
  induction m with
  | zero =>
    intro bs ss c n d k hm hn hb w hne _ ht _ hst hk
    have : bs = [] := List.length_eq_zero.mp (by omega)
    subst this
    obtain ⟨k0, rfl⟩ : ∃ k0, k = k0 + 1 := ⟨k - 1, by simp at hk; omega⟩
    exact ⟨d, ss, c, n, loop_inactive fuel k0 d (stream_nil_inactive d hst), ht, hn, hb, w, hne⟩
  | succ m ih =>
    intro bs ss c n d k hm hn hb w hne hlt ht ha hst hk
    obtain ⟨a, rest, hsplit, hrest⟩ := zeros_split bs (stream_bits d bs hst)
    subst hsplit
    rw [List.length_append, List.length_replicate] at hm hlt hk
    by_cases hL : ss.length ≤ a
    · -- the escape leaf is reached
      obtain ⟨a2, rfl⟩ : ∃ a2, a = ss.length + a2 := ⟨a - ss.length, by omega⟩
      rw [List.replicate_add, List.append_assoc] at hst
      have hrl : (List.replicate a2 0 ++ rest).length = a2 + rest.length := by
        rw [List.length_append, List.length_replicate]
      generalize List.replicate a2 0 ++ rest = rest2 at hst hrl
      obtain ⟨k1, rfl⟩ : ∃ k1, k = k1 + ss.length := ⟨k - ss.length, by omega⟩
      obtain ⟨d1, i1, i2, i3, _, i5, _⟩ := decode_escape fuel ss c hne d k1 ht ha rest2 hst
      have hv := read_literal_lt 8 d1 0 (by norm_num)
      obtain ⟨hins, w2⟩ := comb_insert ss c n (Decoder.read_literal 8 d1 0).1 hn hb w hv
        (by omega) fuel hf
      have hnot : adapter_is_symbol_code d1.tree d1.adapter = some false := by
        rw [i2, i3]
        exact comb_escape_not_symbol _ _
      obtain ⟨d2, g1, g2, g3, g4, g5⟩ := resolve_literal_at fuel d1 _ hnot
        (by rw [i2]; exact hins)
      have hn2 := observe_nodup ss (Decoder.read_literal 8 d1 0).1 hn
      have hb2 := observe_bytes ss (Decoder.read_literal 8 d1 0).1 hv hb
      have hne2 := observe_ne_nil ss (Decoder.read_literal 8 d1 0).1
      rw [i1, g1, Option.some_bind]
      by_cases hact : d2.stream_is_active = false
      · obtain ⟨k2, rfl⟩ : ∃ k2, k1 = k2 + 1 := ⟨k1 - 1, by omega⟩
        exact ⟨d2, _, _, _, loop_inactive fuel k2 d2 hact, g2, hn2, hb2, w2, hne2⟩
      · have hv0 : (Decoder.read_literal 8 d1 0).1 ≠ 0 := fun h => hact (g5 (Or.inr h))
        have hra : ¬ (Decoder.read_literal 8 d1 0).2.stream_is_active = false :=
          fun h => hact (g5 (Or.inl h))
        have h8 : 8 < rest2.length := by
          by_contra hc
          exact hra (read_literal_ends 8 d1 0 rest2 i5 (by omega))
        obtain ⟨e1, e2, e3, e4, e5⟩ := g4 hv0
        have htake : (rest2.take 8).length = 8 := by
          rw [List.length_take]; omega
        have hbits := stream_bits d1 rest2 i5
        have hst2 : Stream d1 (rest2.take 8 ++ rest2.drop 8) := by
          rw [List.take_append_drop]; exact i5
        have hr := read_literal_stream (rest2.take 8) d1 0 (rest2.drop 8)
          (fun b hb => hbits b (List.mem_of_mem_take hb)) hst2
        rw [htake] at hr
        have hst3 : Stream d2 (rest2.drop 8) := stream_congr _ _ _ e1 e2 e3 e4 e5 hr.2.1
        exact ih (rest2.drop 8) _ _ (n + 1) d2 k1 (by rw [List.length_drop]; omega) hn2 hb2 w2
          hne2 (by rw [List.length_drop]; omega) g2 g3 hst3 (by rw [List.length_drop]; omega)
    · rcases hrest with hnil | ⟨r, hr⟩
      · -- the stream ends on the way down
        subst hnil
        rw [List.length_nil, Nat.add_zero] at hk
        obtain ⟨k1, rfl⟩ : ∃ k1, k = k1 + 1 + a := ⟨k - 1 - a, by omega⟩
        obtain ⟨d1, i1, i2, _, _, i5, _⟩ := loop_descend fuel ss c a 0 (k1 + 1) d [] ht
          (by simpa using ha) (by omega) hst
        exact ⟨d1, ss, c, n, by rw [i1]; exact loop_inactive fuel k1 d1 (stream_nil_inactive d1 i5),
          i2, hn, hb, w, hne⟩
      · -- the leaf of an observed symbol is reached
        subst hr
        rw [List.length_cons] at hm hlt hk
        have ha2 : a < ss.length := by omega
        have hmem : ss[a] ∈ ss := List.getElem_mem _
        have hidx : ss.indexOf ss[a] = a := List.indexOf_getElem hn a ha2
        obtain ⟨hins, w2⟩ := comb_insert ss c n ss[a] hn hb w (hb _ hmem) (by omega) fuel hf
        have hobs : observe ss ss[a] = ss := by simp [observe, hmem]
        rw [hobs] at hins w2
        obtain ⟨k1, rfl⟩ : ∃ k1, k = k1 + (ss.indexOf ss[a] + 1) :=
          ⟨k - (a + 1), by rw [hidx]; omega⟩
        have hst2 : Stream d (List.replicate (ss.indexOf ss[a]) 0 ++ [1] ++ r) := by
          rw [hidx, List.append_assoc]; exact hst
        obtain ⟨d2, g1, g2, g3, _, g5⟩ := decode_known fuel ss c hb ss[a] hmem d k1 _ hins ht ha
          r hst2
        rw [g1]
        rw [hidx] at hk
        exact ih r ss _ (n + 1) d2 k1 (by omega) hn hb w2 hne (by omega) g2 g3 g5 (by omega)

theorem comb_structure (ss : List Nat) (c : Nat → Nat) (hn : ss.Nodup)
    (hb : ∀ x ∈ ss, x < 256) :
    (combTree ss c).symbols_in_stock.length = 513
      ∧ (combTree ss c).current_empty_value ≤ 512
      ∧ ∀ p nd, getNode (combTree ss c).heap p = some nd → 256 ≤ nd.symbol →
          p ≠ (combTree ss c).last_leave →
          ∃ l r, nd.left_child = some l ∧ nd.right_child = some r
            ∧ (getNode (combTree ss c).heap l).isSome ∧ (getNode (combTree ss c).heap r).isSome := by
  have hlen := nodup_bytes_length ss hn hb
  refine ⟨by simp [combTree], by simp only [combTree]; omega, ?_⟩
  intro p nd hp hsym hne
  obtain ⟨hp1, hnd⟩ := comb_getNode_some ss c p nd hp
  subst hnd
  have hmod := combNode_internal ss c hb p hp1 hsym
  have hll : (combTree ss c).last_leave = 2 * ss.length := rfl
  rw [hll] at hne
  have hdiv : p / 2 < ss.length := by omega
  refine ⟨p + 2, p + 1, by simp [combNode, hmod, hdiv], by simp [combNode, hmod, hdiv], ?_, ?_⟩
  · rw [comb_getNode ss c (p + 2) (by omega)]; rfl
  · rw [comb_getNode ss c (p + 1) (by omega)]; rfl

theorem decoder_loop_any (c c2 : Nat) (rest2 : List Nat) (hc : c < 256)
    (hlen : 8 * (rest2.length + 2) < UINT) (fuel : Nat)
    (hf : 8 * (rest2.length + 2) + 257 ≤ fuel) :
    ∃ t d ss2 c3, insert fuel Huffman_Tree.fresh c = some t
      ∧ Decoder.loop fuel fuel (Decoder.entry t c c2 rest2) = some d
      ∧ d.tree = combTree ss2 c3 ∧ ss2.Nodup ∧ (∀ x ∈ ss2, x < 256) := by
  obtain ⟨hi, w⟩ := first_insert fuel (by omega) c hc
  have hst := stream_start (combTree [c] (bump 0 (fun _ => 0))) (some 0) c2 rest2 [c]
  have hl := bytesToBits_length (c2 :: rest2)
  rw [List.length_cons] at hl
  obtain ⟨d2, ss2, c3, n2, h1, h2, h3, h4, _, _⟩ := decode_any fuel (by omega)
    (bytesToBits (c2 :: rest2)).length (bytesToBits (c2 :: rest2)) [c] _ 1 _ fuel
    (Nat.le_refl _) (List.nodup_singleton c)
    (by intro x hx; rw [List.mem_singleton] at hx; rw [hx]; exact hc) w
    (List.cons_ne_nil _ _) (by rw [hl]; omega) rfl rfl hst (by rw [hl]; omega)
  exact ⟨_, d2, ss2, c3, hi, h1, h2, h3, h4⟩

/-- Totality of the decoder while the 32-bit counts do not wrap: on every input of
bytes whose eight-fold length is below `2^32`, encoder output or not, the run of
`Decoder::Decoder` is defined and ends, given an iteration budget of at least
eight times the length plus 257: no index into `symbols_in_stock` leaves the
table and `move` never reads through an absent child. When the loop is entered
it ends in a state whose table has 513 entries, whose next synthetic id is at
most 512, and in whose tree every node with a synthetic id other than the
escape leaf `last_leave` has both children. -/
theorem decoder_total (input : List Nat) (hx : ∀ b ∈ input, b < 256)
    (hlen : 8 * input.length < UINT) (fuel : Nat) (hf : 8 * input.length + 257 ≤ fuel) :
    (∃ out, Decoder.Decoder fuel input = some out)
      ∧ ∀ c c2 rest2, input = c :: c2 :: rest2 →
          ∃ t d, insert fuel Huffman_Tree.fresh c = some t
            ∧ Decoder.loop fuel fuel (Decoder.entry t c c2 rest2) = some d
            ∧ d.tree.symbols_in_stock.length = 513 ∧ d.tree.current_empty_value ≤ 512
            ∧ ∀ p nd, getNode d.tree.heap p = some nd → 256 ≤ nd.symbol →
                p ≠ d.tree.last_leave →
                ∃ l r, nd.left_child = some l ∧ nd.right_child = some r
                  ∧ (getNode d.tree.heap l).isSome ∧ (getNode d.tree.heap r).isSome := by
  constructor
  · match input, hx, hlen, hf with
    | [], _, _, _ => exact ⟨[], rfl⟩
    | [c], hx, _, hf =>
      obtain ⟨hi, _⟩ := first_insert fuel (by omega) c (hx c (List.mem_singleton.mpr rfl))
      exact ⟨[c], by simp only [Decoder.Decoder, hi, Option.bind_eq_bind, Option.some_bind]⟩
    | c :: c2 :: rest2, hx, hlen, hf =>
      simp only [List.length_cons] at hlen hf
      obtain ⟨t, d, _, _, hi, hl, _⟩ := decoder_loop_any c c2 rest2
        (hx c (List.mem_cons_self _ _)) hlen fuel hf
      refine ⟨d.fout, ?_⟩
      simp only [Decoder.Decoder, hi, Option.bind_eq_bind, Option.some_bind]
      have h2 : Decoder.loop fuel fuel
          { tree := t, adapter := some t.root, delimiter_reached := false,
            stream_is_active := true, position_mask := 128, cnt := counter.new 8,
            current_byte := c2, fin := rest2, fout := [c] } = some d := hl
      rw [h2, Option.some_bind]
  · intro c c2 rest2 hin
    subst hin
    simp only [List.length_cons] at hlen hf
    obtain ⟨t, d, ss2, c3, hi, hl, ht, hn, hb⟩ := decoder_loop_any c c2 rest2
      (hx c (List.mem_cons_self _ _)) hlen fuel hf
    obtain ⟨s1, s2, s3⟩ := comb_structure ss2 c3 hn hb
    rw [← ht] at s1 s2 s3
    exact ⟨t, d, hi, hl, s1, s2, s3⟩

/-- Instance of `decoder_total`: the three input bytes `0x41 0x20 0x80`, in which
the escape code is followed by the literal of the byte 0x41, already in the tree. -/
theorem decoder_total_witness :
    (∃ out, Decoder.Decoder 600 [65, 32, 128] = some out)
      ∧ ∀ c c2 rest2, [65, 32, 128] = c :: c2 :: rest2 →
          ∃ t d, insert 600 Huffman_Tree.fresh c = some t
            ∧ Decoder.loop 600 600 (Decoder.entry t c c2 rest2) = some d
            ∧ d.tree.symbols_in_stock.length = 513 ∧ d.tree.current_empty_value ≤ 512
            ∧ ∀ p nd, getNode d.tree.heap p = some nd → 256 ≤ nd.symbol →
                p ≠ d.tree.last_leave →
                ∃ l r, nd.left_child = some l ∧ nd.right_child = some r
                  ∧ (getNode d.tree.heap l).isSome ∧ (getNode d.tree.heap r).isSome :=
  decoder_total [65, 32, 128] (by decide) (by decide) 600 (by decide)

theorem bytesToBits_ones : ∀ n, bytesToBits (List.replicate n 255) = List.replicate (8 * n) 1 := by
  intro n
  induction n with
  | zero => rfl
  | succ n ih =>
    have e : 8 * (n + 1) = 8 + 8 * n := by omega
    rw [List.replicate_succ, bytesToBits, ih, e, List.replicate_add]
    rfl

theorem encBits_repeat (s : Nat) : ∀ j, encBits [s] (List.replicate j s) = List.replicate j 1 := by
  have hobs : observe [s] s = [s] := by simp [observe]
  intro j
  induction j with
  | zero => rfl
  | succ j ih =>
    rw [List.replicate_succ, encBits, hobs, ih]
    simp [List.replicate_succ]

theorem walkBits_repeat (s : Nat) : ∀ j, walkBits [s] (List.replicate j s) = j := by
  have hobs : observe [s] s = [s] := by simp [observe]
  intro j
  induction j with
  | zero => rfl
  | succ j ih =>
    rw [List.replicate_succ, walkBits, hobs, ih]
    simp
    omega

theorem repeat_facts (s : Nat) : ∀ (j : Nat) (c : Nat → Nat), c 1 ≤ c 0 → c 0 + j < UINT →
    Safe [s] c (List.replicate j s) ∧ countsAfter [s] c (List.replicate j s) 0 = c 0 + j
      ∧ countsAfter [s] c (List.replicate j s) 1 = c 1 + j := by
  have hobs : observe [s] s = [s] := by simp [observe]
  have hidx : List.indexOf s [s] = 0 := by simp
  have hmem : s ∈ [s] := List.mem_singleton.mpr rfl
  intro j
  induction j with
  | zero => intro c _ _; exact ⟨trivial, rfl, rfl⟩
  | succ j ih =>
    intro c hle hlt
    have h0 : bump 0 c 0 = c 0 + 1 := by
      unfold bump
      rw [if_pos (Or.inr ⟨rfl, Nat.le_refl _⟩)]
      exact Nat.mod_eq_of_lt (by omega)
    have h1 : bump 0 c 1 = c 1 + 1 := by
      unfold bump
      rw [if_pos (Or.inl rfl)]
      exact Nat.mod_eq_of_lt (by omega)
    obtain ⟨i1, i2, i3⟩ := ih (bump 0 c) (by rw [h0, h1]; omega) (by rw [h0]; omega)
    rw [List.replicate_succ]
    refine ⟨⟨?_, ?_⟩, ?_, ?_⟩
    · unfold StepOk
      rw [if_pos hmem, hidx]
      show c 1 ≤ c 0 ∧ c 0 + 1 < UINT ∧ (1 ≤ 0 → c 0 + 2 < UINT)
      exact ⟨hle, by omega, by intro h; omega⟩
    · rw [hobs, hidx]; exact i1
    · rw [countsAfter, hobs, hidx, i2, h0]; omega
    · rw [countsAfter, hobs, hidx, i3, h1]; omega

theorem resolve_insert_none (fuel : Nat) (d : Decoder) (s : Nat)
    (h1 : adapter_is_symbol_code d.tree d.adapter = some true)
    (h2 : adapter_get_symbol d.tree d.adapter = some s)
    (hins : insert fuel d.tree s = none) : Decoder.resolve fuel d = none := by
  simp only [Decoder.resolve, h1, h2, Option.bind_eq_bind, Option.some_bind, if_true, hins,
    Option.none_bind]

theorem ones_loop_none (fuel : Nat) (hf : 257 ≤ fuel) (k : Nat) (d : Decoder) (tail : List Nat)
    (c : Nat → Nat) (j : Nat) (hc0 : c 0 + j = 4294967295) (hc1 : c 1 + j = 4294967295)
    (ht : d.tree = combTree [65] c) (ha : d.adapter = some 0)
    (hst : Stream d (List.replicate j 1 ++ 1 :: tail)) :
    Decoder.loop fuel (k + 1 + j) d = none := by
  have hU : UINT = 4294967296 := rfl
  obtain ⟨hsafe, f0, f1⟩ := repeat_facts 65 j c (by omega) (by omega)
  have hb : ∀ x ∈ [65], x < 256 := by decide
  rw [← encBits_repeat 65 j] at hst
  obtain ⟨d2, i1, i2, i3, _, i5⟩ := decode_prefix fuel hf (List.replicate j 65) [65] c d (k + 1)
    (1 :: tail) (by decide) hb (List.cons_ne_nil _ _)
    (by intro x hx; rw [List.mem_replicate] at hx; omega)
    (by intro h0; rw [List.mem_replicate] at h0; omega) hsafe ht ha hst
  rw [walkBits_repeat] at i1
  rw [firsts_repeat [65] 65 (List.mem_singleton.mpr rfl)] at i2
  rw [i1]
  obtain ⟨hact, hbit, _, h3, h4, _⟩ := next_bit_stream d2 1 tail i5
  have hbit1 : (d2.next_bit).1 = true := by rw [hbit]; rfl
  have hm : adapter_move (d2.next_bit).2.tree (d2.next_bit).2.adapter (d2.next_bit).1
      = some (some 1, true) := by
    rw [h3, h4, i2, i3, hbit1]
    exact comb_move_right [65] _ 0 (by decide) hb
  obtain ⟨l1, l2⟩ := comb_leaf_symbol [65] (countsAfter [65] c (List.replicate j 65)) 0
    (by decide) hb
  have hres : Decoder.resolve fuel { (d2.next_bit).2 with adapter := some 1 } = none :=
    resolve_insert_none fuel _ 65 (by rw [← i2, ← h3] at l1; exact l1)
      (by rw [← i2, ← h3] at l2; exact l2)
      (by
        show insert fuel (d2.next_bit).2.tree 65 = none
        rw [h3, i2]
        exact insert_wrap fuel _ 65 (by decide) (by rw [f0, hc0]) (by rw [f1, hc1]))
  rw [Decoder.loop]
  simp only [hact, if_true, hm, hres]

theorem ones_cons : List.replicate 536870912 255 = 255 :: List.replicate 536870911 255 :=
  List.replicate_succ _ _

theorem ones_bits (R : List Nat) (hR : List.replicate 536870912 255 = 255 :: R) :
    bytesToBits (255 :: R) = List.replicate 4294967294 1 ++ 1 :: [1] := by
  have e : 8 * 536870912 = 4294967294 + 2 := by norm_num
  rw [← hR, bytesToBits_ones, e, List.replicate_add]
  rfl

theorem ones_loop_wrap (fuel : Nat) (R : List Nat)
    (hbits : bytesToBits (255 :: R) = List.replicate 4294967294 1 ++ 1 :: [1]) :
    Decoder.loop (fuel + 257 + 1 + 4294967294) (fuel + 257 + 1 + 4294967294)
      { tree := combTree [65] (bump 0 (fun _ => 0)),
        adapter := some 0,
        delimiter_reached := false, stream_is_active := true, position_mask := 128,
        cnt := counter.new 8, current_byte := 255, fin := R, fout := [65] } = none := by
  obtain ⟨hi, w⟩ := first_insert (fuel + 257 + 1 + 4294967294) (by omega) 65 (by decide)
  have hst := stream_start (combTree [65] (bump 0 (fun _ => 0))) (some 0) 255 R [65]
  rw [hbits] at hst
  have c0 := w.root
  have c1 := w.sum 0 (by decide)
  have c2 := w.esc 2 (by decide)
  simp only [Nat.mul_zero, Nat.zero_add] at c1
  exact ones_loop_none (fuel + 257 + 1 + 4294967294) (by omega) (fuel + 257) _ [1]
    (bump 0 (fun _ => 0)) 4294967294 (by rw [c0]) (by omega) rfl rfl hst

theorem decoder_of_loop_none (g : Nat) (R : List Nat) (hg : 257 ≤ g)
    (hnone : Decoder.loop g g
      { tree := combTree [65] (bump 0 (fun _ => 0)),
        adapter := some 0,
        delimiter_reached := false, stream_is_active := true, position_mask := 128,
        cnt := counter.new 8, current_byte := 255, fin := R, fout := [65] } = none) :
    Decoder.Decoder g (65 :: 255 :: R) = none := by
  obtain ⟨hi, w⟩ := first_insert g hg 65 (by decide)
  have hnone2 : Decoder.loop g g
      { tree := combTree [65] (bump 0 (fun _ => 0)),
        adapter := some (combTree [65] (bump 0 (fun _ => 0))).root,
        delimiter_reached := false, stream_is_active := true, position_mask := 128,
        cnt := counter.new 8, current_byte := 255, fin := R, fout := [65] } = none := hnone
  simp only [Decoder.Decoder, hi, Option.bind_eq_bind, Option.some_bind]
  rw [hnone2]
  rfl

/-- C18 (code bug): on the input of the byte 0x41 followed by `2^29` bytes
0xff no iteration budget makes the run of the decoder defined. Every 1 bit
decodes to 0x41 and inserts it; after `2^32 - 1` inserts the counts of the root
and of the leaf are `2^32 - 1`, and in the next insert the guard of
`increase_and_rebalance` is true by the wrap of `count + 1` to 0 and the search
loop steps its iterator before the first entry of the list. -/
theorem decoder_undefined_after_wrap :
    ¬ ∃ fuel out, Decoder.Decoder fuel (65 :: List.replicate 536870912 255) = some out := by
  rintro ⟨fuel, out, h⟩
  have h2 := decoder_mono fuel (fuel + 257 + 1 + 4294967294) (by omega) _ _ h
  have hbits := ones_bits _ ones_cons
  rw [ones_cons] at h2
  generalize List.replicate 536870911 255 = R at h2 hbits
  rw [decoder_of_loop_none (fuel + 257 + 1 + 4294967294) R (by omega)
    (ones_loop_wrap fuel R hbits)] at h2
  cases h2

end Huffman
